import Mathlib

/-!
# Verification of the LiteDT-rs byte-stream buffering core

Shallow embedding of the four components of the repository
(`Seq32`, `RangeSet`, `RecvBuffer`, `SendBuffer`) and proofs about them.

Machine integers are modelled as `Nat` with explicit reduction modulo
`2^32` where the Rust code uses wrapping `u32` arithmetic.  `BTreeMap`s
keyed by `Seq32` are modelled as association lists kept sorted by the
`Seq32` comparator; this is faithful to `BTreeMap` exactly when all keys
in play are pairwise comparison-consistent, i.e. confined to a window of
the circular space strictly smaller than `2^31` (the validity window the
source documents for its sequence numbers).
-/

namespace LiteDT

/-- `2^32`, the size of the sequence-number space. -/
def M : Nat := 4294967296

/-- `2^31`, the half-space threshold of the wrapping comparison. -/
def H : Nat := 2147483648

/-- Wrapping subtraction `a.wrapping_sub(b)` on `u32`, as `Nat`. -/
def wsub (a b : Nat) : Nat := (a + (M - b % M)) % M

/-- `Ord for Seq32`: `a < b` in the wrapping order.  The source returns
`Greater` when `self.wrapping_sub(other) < 0x80000000` and the values
differ, `Less` otherwise. -/
def seqLt (a b : Nat) : Bool := a % M != b % M && H ≤ wsub a b

/-- `a <= b` in the wrapping `Seq32` order (derived from `Ord`). -/
def seqLe (a b : Nat) : Bool := a % M == b % M || seqLt a b

/-! ## RangeSet (src/common/range_set.rs)

The `BTreeMap<Seq32, Seq32>` is modelled as an association list sorted by
the `Seq32` comparator.  `insert`'s predecessor lookup
(`range((Unbounded, Included(pos))).last()`) is the walk to the last
entry whose key is `seqLe` the position; the successor loop
(`succ`/remove) is `mergeSucc`. -/

/-- The successor-merging loop of `RangeSet::insert`: while a successor
exists, stop if its start is strictly beyond `e`; otherwise remove it,
and if its end reaches `e`, adopt that end and stop. -/
def mergeSucc (e : Nat) : List (Nat × Nat) → Nat × List (Nat × Nat)
  | [] => (e, [])
  | (ss, se) :: rest =>
    if seqLt e ss then (e, (ss, se) :: rest)
    else if seqLe e se then (se, rest)
    else mergeSucc e rest

/-- The predecessor handling of `RangeSet::insert`: the predecessor
`(ps, pe)` either already covers the new range entirely (pure duplicate,
rejected), or is absorbed by extending the new start leftward to `ps`,
or does not touch the new range; in the latter two cases the
successor-merging loop then runs. -/
def insertPred (s e ps pe : Nat) (rest : List (Nat × Nat)) : Bool × List (Nat × Nat) :=
  if seqLe s pe then
    if seqLe e pe then (false, (ps, pe) :: rest)
    else (true, (ps, (mergeSucc e rest).1) :: (mergeSucc e rest).2)
  else (true, (ps, pe) :: (s, (mergeSucc e rest).1) :: (mergeSucc e rest).2)

/-- The body of `RangeSet::insert` after the degenerate-range check: walk
to the predecessor (last entry with key `<=` the new start), handle it
via `insertPred`, or, when no entry has key `<=` the new start, run the
successor-merging loop directly. -/
def insertGo (s e : Nat) : List (Nat × Nat) → Bool × List (Nat × Nat)
  | [] => (true, [(s, e)])
  | (ps, pe) :: rest =>
    if seqLe ps s then
      match rest with
      | [] => insertPred s e ps pe []
      | (qs, qe) :: rest' =>
        if seqLe qs s then
          -- the predecessor lies further right; keep this entry
          ((insertGo s e ((qs, qe) :: rest')).1,
            (ps, pe) :: (insertGo s e ((qs, qe) :: rest')).2)
        else insertPred s e ps pe ((qs, qe) :: rest')
    else
      -- no predecessor: the successor walk starts at this entry
      (true, (s, (mergeSucc e ((ps, pe) :: rest)).1) ::
        (mergeSucc e ((ps, pe) :: rest)).2)

/-- `RangeSet::insert`. -/
def RangeSet.insert (m : List (Nat × Nat)) (s e : Nat) : Bool × List (Nat × Nat) :=
  if seqLe e s then (false, m) else insertGo s e m

/-- `RangeSet::remove`: exact-key deletion. -/
def RangeSet.remove (m : List (Nat × Nat)) (k : Nat) : Option Nat × List (Nat × Nat) :=
  ((m.find? (fun r => r.1 == k)).map Prod.snd, m.filter (fun r => r.1 != k))

/-- `RangeSet::len`. -/
def RangeSet.len (m : List (Nat × Nat)) : Nat := m.length

/-- A position is covered by one of the stored ranges. -/
def covers (l : List (Nat × Nat)) (p : Nat) : Prop := ∃ r ∈ l, r.1 ≤ p ∧ p < r.2

instance coversDecidable (l : List (Nat × Nat)) (p : Nat) : Decidable (covers l p) :=
  inferInstanceAs (Decidable (∃ r ∈ l, r.1 ≤ p ∧ p < r.2))

/-- The disjoint/non-touching invariant of the interval set, restricted
to the half-window `[0, 2^31)` on which the wrapping comparator is a
total order: every range is non-empty, bounded by `2^31`, and ends
strictly before every later range starts. -/
def RangesWf : List (Nat × Nat) → Prop
  | [] => True
  | (s, e) :: rest => s < e ∧ e < H ∧ (∀ r ∈ rest, e < r.1) ∧ RangesWf rest

instance rangesWfDecidable : (l : List (Nat × Nat)) → Decidable (RangesWf l)
  | [] => isTrue trivial
  | (s, e) :: rest =>
    have := rangesWfDecidable rest
    inferInstanceAs (Decidable (s < e ∧ e < H ∧ (∀ r ∈ rest, e < r.1) ∧ RangesWf rest))

/-! ## RecvBuffer (src/common/recv_buffer.rs)

Storage blocks (`BytesMut` of `RBUF_BLOCK_SIZE` bytes) are modelled as
total functions from in-block offset to byte value; slicing materialises
the requested range.  `& RBUF_BLOCK_MASK` is `% RBUF_BLOCK_SIZE` and
`>> RBUF_BLOCK_BIT` is `/ RBUF_BLOCK_SIZE` since the block size is a
power of two. -/

/-- `RBUF_BLOCK_BIT = 17`. -/
def RBUF_BLOCK_BIT : Nat := 17

/-- `RBUF_BLOCK_SIZE = 1 << 17` (128 KiB). -/
def RBUF_BLOCK_SIZE : Nat := 131072

/-- `BTreeMap::insert` on the sorted association list: place the entry at
its comparator position, replacing an entry with an equal key. -/
def btInsert {α : Type} (k : Nat) (v : α) : List (Nat × α) → List (Nat × α)
  | [] => [(k, v)]
  | (a, b) :: t =>
    if seqLt k a then (k, v) :: (a, b) :: t
    else if k % M == a % M then (k, v) :: t
    else (a, b) :: btInsert k v t

structure RecvBuffer where
  start_pos : Nat
  max_blocks : Nat
  range_map : List (Nat × Nat)
  blocks : List (Nat → Nat)

/-- `RecvBuffer::with_capacity`. -/
def RecvBuffer.withCapacity (size : Nat) : RecvBuffer :=
  let bcnt := size / RBUF_BLOCK_SIZE
  let bcnt := if size % RBUF_BLOCK_SIZE != 0 then bcnt + 1 else bcnt
  { start_pos := 0, max_blocks := bcnt, range_map := [], blocks := [] }

/-- `RecvBuffer::readable_size`. -/
def RecvBuffer.readable_size (b : RecvBuffer) : Nat :=
  match b.range_map.head? with
  | some first => if first.1 = b.start_pos then wsub first.2 first.1 else 0
  | none => 0

/-- `RecvBuffer::peek`.  The source indexes `blocks[0]`, which exists in
every state where `readable_size() > 0`; the default block stands in for
the out-of-contract panic. -/
def RecvBuffer.peek (b : RecvBuffer) : Option (List Nat) :=
  let readable := b.readable_size
  if readable > 0 then
    let blk_offset := b.start_pos % RBUF_BLOCK_SIZE
    let peek_size := min readable (RBUF_BLOCK_SIZE - blk_offset)
    some ((List.range peek_size).map
      (fun i => b.blocks.getD 0 (fun _ => 0) (blk_offset + i)))
  else none

/-- The block-eviction loop of `RecvBuffer::consume`: advance `start_pos`
block by block, popping each fully consumed front block.  The loop runs
until `remain` reaches `0`; since each iteration consumes at least one
byte of `remain`, structural fuel equal to the initial `remain` always
suffices and the fuel-out arm is never taken by `consume`. -/
def consumeLoop : Nat → Nat → List (Nat → Nat) → Nat → Nat × List (Nat → Nat)
  | 0, start_pos, blocks, _ => (start_pos, blocks)
  | fuel + 1, start_pos, blocks, remain =>
    if remain = 0 then (start_pos, blocks)
    else
      let block_size := RBUF_BLOCK_SIZE - start_pos % RBUF_BLOCK_SIZE
      if remain ≥ block_size then
        consumeLoop fuel ((start_pos + block_size) % M) blocks.tail (remain - block_size)
      else ((start_pos + remain) % M, blocks)

/-- `RecvBuffer::consume`. -/
def RecvBuffer.consume (b : RecvBuffer) (len : Nat) : Except String Unit × RecvBuffer :=
  if len = 0 then (Except.ok (), b)
  else if b.readable_size < len then (Except.error "no-enough-data", b)
  else
    match b.range_map.head? with
    | none => (Except.error "no-enough-data", b)
    | some (orig_pos, orig_end) =>
      let start' := (consumeLoop len b.start_pos b.blocks len).1
      let blocks' := (consumeLoop len b.start_pos b.blocks len).2
      let map1 := b.range_map.filter (fun r => r.1 != orig_pos)
      let map2 := if start' ≠ orig_end then btInsert start' orig_end map1 else map1
      (Except.ok (), { b with start_pos := start', blocks := blocks', range_map := map2 })

/-- The successor loop of `RecvBuffer::compress_range_map`: absorb the
next range while the merged end reaches its start and its end reaches the
merged end; note the loop breaks without removing a successor whose end
falls short of the merged end. -/
def compressGo (me : Nat) : List (Nat × Nat) → Nat × List (Nat × Nat)
  | [] => (me, [])
  | (ns, ne) :: t =>
    if seqLe ns me then
      if seqLe me ne then compressGo ne t
      else (me, (ns, ne) :: t)
    else (me, (ns, ne) :: t)

/-- `RecvBuffer::compress_range_map`: merge overlapped intervals starting
from the entry keyed at (or first after) `pos`.  The source unwraps that
entry; `write` always calls this with `pos` present in the map. -/
def compress_range_map (pos : Nat) (m : List (Nat × Nat)) : List (Nat × Nat) :=
  let pre := m.takeWhile (fun r => seqLt r.1 pos)
  match m.dropWhile (fun r => seqLt r.1 pos) with
  | [] => m
  | (ms, me) :: t =>
    pre ++ (ms, (compressGo me t).1) :: (compressGo me t).2

/-- The copy loop of `RecvBuffer::write`: copy `data` into the blocks,
splitting across block boundaries.  Each iteration copies at least one
byte, so structural fuel equal to the initial `remain` always suffices
and the fuel-out arm is never taken by `write`. -/
def writeCopy (block_start_pos : Nat) (data : List Nat) :
    Nat → List (Nat → Nat) → Nat → Nat → Nat → List (Nat → Nat)
  | 0, blocks, _, _, _ => blocks
  | fuel + 1, blocks, buf_offset, data_offset, remain =>
    if remain = 0 then blocks
    else
      let blk_id := wsub buf_offset block_start_pos / RBUF_BLOCK_SIZE
      let blk_offset := buf_offset % RBUF_BLOCK_SIZE
      let copy_len := min remain (RBUF_BLOCK_SIZE - blk_offset)
      let old := blocks.getD blk_id (fun _ => 0)
      let blocks2 := blocks.set blk_id (fun i =>
        if blk_offset ≤ i ∧ i < blk_offset + copy_len then
          data.getD (data_offset + (i - blk_offset)) 0
        else old i)
      writeCopy block_start_pos data fuel blocks2 ((buf_offset + copy_len) % M)
        (data_offset + copy_len) (remain - copy_len)

/-- The tail of `RecvBuffer::write` after the range-map update: compress
the range map from `merge_start`, grow the block deque to cover the new
end, and copy the payload in. -/
def RecvBuffer.writeFinish (b : RecvBuffer) (pos end_ : Nat) (data : List Nat)
    (merge_start : Nat) (map1 : List (Nat × Nat)) : Except String Unit × RecvBuffer :=
  let map2 := compress_range_map merge_start map1
  let block_start_pos := wsub b.start_pos (b.start_pos % RBUF_BLOCK_SIZE)
  let required_blocks := wsub end_ block_start_pos / RBUF_BLOCK_SIZE +
    (if end_ % RBUF_BLOCK_SIZE = 0 then 0 else 1)
  let blocks1 := if b.blocks.length < required_blocks
    then b.blocks ++ List.replicate (required_blocks - b.blocks.length) (fun _ => 0)
    else b.blocks
  let blocks2 := writeCopy block_start_pos data data.length blocks1 pos 0 data.length
  (Except.ok (), { b with range_map := map2, blocks := blocks2 })

/-- `RecvBuffer::write`. -/
def RecvBuffer.write (b : RecvBuffer) (pos : Nat) (data : List Nat) :
    Except String Unit × RecvBuffer :=
  let end_ := (pos + data.length) % M
  let max_size := wsub (RBUF_BLOCK_SIZE * b.max_blocks % M) (b.start_pos % RBUF_BLOCK_SIZE)
  if data.length > max_size then (Except.error "size-limit-exceed", b)
  else if wsub pos b.start_pos > max_size ∨ wsub end_ b.start_pos > max_size then
    (Except.error "out-of-range", b)
  else
    let before := b.range_map.takeWhile (fun r => seqLe r.1 pos)
    match before.getLast? with
    | some (ls, le) =>
      if seqLe pos le then
        if seqLe end_ le then (Except.error "duplicated-data", b)
        else b.writeFinish pos end_ data ls (btInsert ls end_ b.range_map)
      else b.writeFinish pos end_ data pos (btInsert pos end_ b.range_map)
    | none => b.writeFinish pos end_ data pos (btInsert pos end_ b.range_map)

/-! ## SendBuffer (src/connection/send_buffer.rs)

The `BTreeMap<Seq32, BytesMut>` queue is the same sorted association
list model; segment payloads are byte lists. -/

/-- `BTreeMap::get` by comparator equality. -/
def btLookup {α : Type} (k : Nat) : List (Nat × α) → Option α
  | [] => none
  | (a, v) :: t => if k % M == a % M then some v else btLookup k t

structure SendBuffer where
  queue : List (Nat × List Nat)
  enqueue : Nat
  unsent : Nat
  size : Nat
  limit : Nat
  mss : Nat

/-- `SendBuffer::new`. -/
def SendBuffer.new (limit mss : Nat) : SendBuffer :=
  { queue := [], enqueue := 0, unsent := 0, size := 0, limit := limit, mss := mss }

/-- `SendBuffer::writable_size` (`limit - size`; in every reachable state
`size <= limit`, so the saturating `Nat` subtraction agrees with `usize`). -/
def SendBuffer.writable_size (s : SendBuffer) : Nat := s.limit - s.size

/-- The new-segment loop of `SendBuffer::push_back`: split the remainder
of `data` into `mss`-sized segments keyed at the advancing `enqueue`
cursor.  Each iteration with `mss >= 1` consumes at least one byte, so
structural fuel `data.length` suffices (with `mss = 0` the source loop
never terminates on non-empty data). -/
def pushLoop (data : List Nat) (mss : Nat) :
    Nat → List (Nat × List Nat) → Nat → Nat → List (Nat × List Nat) × Nat
  | 0, queue, enqueue, _ => (queue, enqueue)
  | fuel + 1, queue, enqueue, offset =>
    if offset < data.length then
      let copy_len := if mss < data.length - offset then mss else data.length - offset
      pushLoop data mss fuel
        (btInsert enqueue ((data.drop offset).take copy_len) queue)
        ((enqueue + copy_len) % M) (offset + copy_len)
    else (queue, enqueue)

/-- `SendBuffer::push_back`. -/
def SendBuffer.push_back (s : SendBuffer) (data : List Nat) : Bool × SendBuffer :=
  if s.size + data.length > s.limit then (false, s)
  else
    -- if the last segment is unsent and short of mss, extend it first
    let step1 : List (Nat × List Nat) × Nat × Nat :=
      match s.queue.getLast? with
      | some (pos, last_buf) =>
        if seqLe s.unsent pos ∧ s.mss > last_buf.length then
          let copy_len := if s.mss - last_buf.length < data.length
            then s.mss - last_buf.length else data.length
          (btInsert pos (last_buf ++ data.take copy_len) s.queue,
            ((s.enqueue + copy_len) % M, copy_len))
        else (s.queue, (s.enqueue, 0))
      | none => (s.queue, (s.enqueue, 0))
    let q2e := pushLoop data s.mss data.length step1.1 step1.2.1 step1.2.2
    (true,
      { s with
        queue := q2e.1
        enqueue := q2e.2
        size := s.size + data.length })

/-- `SendBuffer::pop_unsent`.  The source unwraps the lookup at `unsent`;
the `none` arm models the out-of-contract panic (C9 shows it is
unreachable in reachable states). -/
def SendBuffer.pop_unsent (s : SendBuffer) : Option (Nat × List Nat) × SendBuffer :=
  if seqLe s.enqueue s.unsent then (none, s)
  else
    match btLookup s.unsent s.queue with
    | some d => (some (s.unsent, d), { s with unsent := (s.unsent + d.length) % M })
    | none => (none, s)

/-- `SendBuffer::get`. -/
def SendBuffer.get (s : SendBuffer) (pos : Nat) : Option (List Nat) :=
  btLookup pos s.queue

/-- `range((Included(start), Excluded(end))).next()`: the first entry of
the sorted queue whose key lies in `[start, end)`. -/
def ackFirstIn (start end_ : Nat) : List (Nat × List Nat) → Option Nat
  | [] => none
  | (k, _) :: t =>
    if seqLe start k ∧ seqLt k end_ then some k else ackFirstIn start end_ t

/-- The removal loop of `SendBuffer::ack`: repeatedly remove the first
queue entry keyed in `[start, end)`, advancing `start` past it.  Each
iteration removes a present key, so fuel `queue.length` suffices. -/
def ackLoop (end_ : Nat) :
    Nat → List (Nat × List Nat) → Nat → Nat → List (Nat × List Nat) × Nat
  | 0, queue, _, acked => (queue, acked)
  | fuel + 1, queue, start, acked =>
    match ackFirstIn start end_ queue with
    | some pos =>
      ackLoop end_ fuel (queue.filter (fun r => r.1 != pos)) ((pos + 1) % M) (acked + 1)
    | none => (queue, acked)

/-- `SendBuffer::ack` (`size -=` is `usize` arithmetic; in every
reachable state the subtrahend is at most `size`, so the saturating `Nat`
subtraction agrees). -/
def SendBuffer.ack (s : SendBuffer) (start end_ : Nat) : Nat × SendBuffer :=
  if seqLe end_ start ∨ seqLe s.unsent start ∨ seqLt s.unsent end_ then (0, s)
  else
    match s.queue.head? with
    | none => (0, s)
    | some (orig_start, _) =>
      let ql := ackLoop end_ s.queue.length s.queue start 0
      let size2 := match ql.1.head? with
        | some (new_start, _) => s.size - wsub new_start orig_start
        | none => 0
      (ql.2, { s with queue := ql.1, size := size2 })

/-- Keys of the association list strictly increase (the sorted-map shape
of a `BTreeMap` whose keys sit in a comparison-consistent window). -/
def keysSorted {α : Type} : List (Nat × α) → Prop
  | [] => True
  | (k, _) :: t => (∀ r ∈ t, k < r.1) ∧ keysSorted t

instance keysSortedDecidable {α : Type} : (l : List (Nat × α)) → Decidable (keysSorted l)
  | [] => isTrue trivial
  | (k, _) :: t =>
    have := keysSortedDecidable t
    inferInstanceAs (Decidable ((∀ r ∈ t, k < r.1) ∧ keysSorted t))

/-- Well-formedness of a `SendBuffer` state for the `ack`
characterisation, on the half-window `[0, 2^31)`: sorted bounded keys not
beyond `enqueue`, and `size` spanning from the earliest key to `enqueue`. -/
def SendAckWf (s : SendBuffer) : Prop :=
  s.unsent < H ∧ s.enqueue < H ∧ keysSorted s.queue ∧
  (∀ r ∈ s.queue, r.1 < H ∧ r.1 ≤ s.enqueue) ∧
  (match s.queue.head? with
   | some (k, _) => s.size = s.enqueue - k
   | none => s.size = 0)

/-- The unsent suffix of the queue forms a gap-free chain of non-empty
segments from the cursor `u` up to the enqueue cursor `E`. -/
def ChainFrom (E : Nat) : List (Nat × List Nat) → Nat → Prop
  | [], u => u = E
  | (k, d) :: t, u => k = u ∧ 0 < d.length ∧ ChainFrom E t ((u + d.length) % M)

/-- Total payload bytes of a queue fragment. -/
def sufLen (l : List (Nat × List Nat)) : Nat :=
  (l.map (fun r => r.2.length)).sum

/-- Keys strictly decrease in backward distance from `E` (i.e. strictly
increase in the wrapping order within the window behind `E`). -/
def bwdSorted (E : Nat) : List (Nat × List Nat) → Prop
  | [] => True
  | (k, _) :: t => (∀ r ∈ t, wsub E r.1 < wsub E k) ∧ bwdSorted E t

/-- The reachable-state invariant that makes `pop_unsent`'s unchecked
lookup safe: cursors in range, the buffered span within the half-window,
and the queue splitting into already-sent entries (strictly behind
`unsent`) followed by the chain of unsent segments. -/
def SendC9Inv (s : SendBuffer) : Prop :=
  s.enqueue < M ∧ s.unsent < M ∧ s.limit < H ∧ 1 ≤ s.mss ∧ s.size ≤ s.limit ∧
  wsub s.enqueue s.unsent ≤ s.size ∧
  (∃ pre suf, s.queue = pre ++ suf ∧ ChainFrom s.enqueue suf s.unsent ∧
    sufLen suf = wsub s.enqueue s.unsent ∧
    (∀ r ∈ pre, r.1 < M ∧ wsub s.enqueue s.unsent < wsub s.enqueue r.1 ∧
      wsub s.enqueue r.1 ≤ s.size) ∧
    bwdSorted s.enqueue pre) ∧
  (match s.queue.head? with
   | some (k, _) => s.size = wsub s.enqueue k
   | none => s.size = 0)

/-- An operation against a `SendBuffer`. -/
inductive SendOp where
  | push (data : List Nat)
  | pop
  | ack (start end_ : Nat)
  | get (pos : Nat)

/-- One operation step (the state reached after the call). -/
def sendStep (s : SendBuffer) : SendOp → SendBuffer
  | .push data => (s.push_back data).2
  | .pop => s.pop_unsent.2
  | .ack a b => (s.ack a b).2
  | .get _ => s

/-- The state reached from `SendBuffer::new(limit, mss)` by a sequence of
calls. -/
def sendRun (limit mss : Nat) (ops : List SendOp) : SendBuffer :=
  ops.foldl sendStep (SendBuffer.new limit mss)

/-- Concrete reachable state for the `compress_range_map` slip: the
writes `[0,5)`, `[10,12)`, `[3,20)` all succeed, and the third write's
merge loop breaks without removing the contained range `[10,12)`. -/
def overlapBugBuf : RecvBuffer :=
  ((((RecvBuffer.withCapacity 13107200).write 0 [1, 1, 1, 1, 1]).2.write 10
    [2, 2]).2.write 3 [3, 3, 3, 3, 3, 3, 3, 3, 3, 3, 3, 3, 3, 3, 3, 3, 3]).2

/-! ## Round-trip scaffolding (C3)

A set of writes, applied in list order; the byte stream they define; the
byte stored at a stream position inside the block deque (block indices
taken from the front of the deque, as the source does); and the repeated
peek-then-consume reader. -/

/-- Apply `RecvBuffer::write` for each `(pos, data)` in order, keeping the
state. -/
def writesAll (b : RecvBuffer) : List (Nat × List Nat) → RecvBuffer
  | [] => b
  | w :: t => writesAll (b.write w.1 w.2).2 t

/-- Every write in the list returns `Ok(())` when applied in order. -/
def writesOk (b : RecvBuffer) : List (Nat × List Nat) → Prop
  | [] => True
  | w :: t => (b.write w.1 w.2).1 = Except.ok () ∧ writesOk (b.write w.1 w.2).2 t

/-- The byte at stream position `p` defined by the write set: the payload
byte of the (unique, for disjoint writes) write whose interval contains
`p`. -/
def streamByte (ws : List (Nat × List Nat)) (p : Nat) : Nat :=
  match ws.find? (fun w => decide (w.1 ≤ p) && decide (p < w.1 + w.2.length)) with
  | some w => w.2.getD (p - w.1) 0
  | none => 0

/-- Position `p` lies inside one of the writes. -/
def covered (ws : List (Nat × List Nat)) (p : Nat) : Prop :=
  ∃ w ∈ ws, w.1 ≤ p ∧ p < w.1 + w.2.length

instance coveredDecidable (ws : List (Nat × List Nat)) (p : Nat) :
    Decidable (covered ws p) :=
  inferInstanceAs (Decidable (∃ w ∈ ws, w.1 ≤ p ∧ p < w.1 + w.2.length))

/-- The byte the block deque holds for deque-relative position `q`. -/
def blockByteL (blocks : List (Nat → Nat)) (q : Nat) : Nat :=
  blocks.getD (q / RBUF_BLOCK_SIZE) (fun _ => 0) (q % RBUF_BLOCK_SIZE)

/-- Position `q` lies inside one of the stored ranges. -/
def inRanges (m : List (Nat × Nat)) (q : Nat) : Prop :=
  ∃ r ∈ m, r.1 ≤ q ∧ q < r.2

/-- Canonical shape of the receive-side range map in the `[0, 2^31)`
window: nonempty ranges, sorted, pairwise separated by a gap. -/
def RangesOk : List (Nat × Nat) → Prop
  | [] => True
  | (s, e) :: t => s < e ∧ e < H ∧ (∀ r ∈ t, e < r.1) ∧ RangesOk t

/-- The write-phase invariant: `start_pos` still `0`, the range map is a
canonical decomposition of the positions covered by the `done` writes,
and every covered position already stores its stream byte. -/
def RecvInv (ws done : List (Nat × List Nat)) (b : RecvBuffer) : Prop :=
  b.start_pos = 0 ∧ RangesOk b.range_map ∧
  (∀ q, inRanges b.range_map q ↔ covered done q) ∧
  (∀ q, covered done q → blockByteL b.blocks q = streamByte ws q)

/-- Repeated `peek` + `consume(peek.len())`, collecting the peeked bytes,
with structural fuel (one unit per round; each successful round consumes
at least one byte). -/
def drainAll : Nat → RecvBuffer → List Nat
  | 0, _ => []
  | fuel + 1, b =>
    match b.peek with
    | none => []
    | some bytes => bytes ++ drainAll fuel (b.consume bytes.length).2

theorem covers_nil (p : Nat) : ¬ covers [] p := by
  simp [covers]

theorem covers_cons {a b p : Nat} {t : List (Nat × Nat)} :
    covers ((a, b) :: t) p ↔ (a ≤ p ∧ p < b) ∨ covers t p := by
  simp [covers]

theorem RangesWf.bounds {l : List (Nat × Nat)} (h : RangesWf l) :
    ∀ r ∈ l, r.1 < r.2 ∧ r.2 < H := by
  induction l with
  | nil => simp
  | cons hd tl ih =>
    obtain ⟨s, e⟩ := hd
    obtain ⟨h1, h2, _, h4⟩ := h
    intro r hr
    rcases List.mem_cons.mp hr with h | h
    · subst h
      exact ⟨h1, h2⟩
    · exact ih h4 r h

theorem wsub_lt (a b : Nat) : wsub a b < M := by
  unfold wsub M
  omega

theorem wsub_small (a b : Nat) (hb : b ≤ a) (ha : a < M) : wsub a b = a - b := by
  unfold wsub M at *
  omega

/-- Bridge: within the half-window based at `0` the wrapping order is the
usual order on `Nat`. -/
theorem seqLt_iff_lt {a b : Nat} (ha : a < H) (hb : b < H) :
    seqLt a b = true ↔ a < b := by
  unfold seqLt wsub M H at *
  have haM : a % 4294967296 = a := Nat.mod_eq_of_lt (by omega)
  have hbM : b % 4294967296 = b := Nat.mod_eq_of_lt (by omega)
  simp only [haM, hbM, Bool.and_eq_true, bne_iff_ne, ne_eq, decide_eq_true_eq]
  constructor
  · rintro ⟨hne, hge⟩
    by_contra hlt
    push_neg at hlt
    have : a - b < 2147483648 := by omega
    have : (a + (4294967296 - b)) % 4294967296 = a - b := by omega
    omega
  · intro hlt
    refine ⟨by omega, ?_⟩
    have : (a + (4294967296 - b)) % 4294967296 = 4294967296 - (b - a) := by omega
    omega

theorem seqLe_iff_le {a b : Nat} (ha : a < H) (hb : b < H) :
    seqLe a b = true ↔ a ≤ b := by
  unfold seqLe
  have h1 := seqLt_iff_lt ha hb
  have haM : a % M = a := Nat.mod_eq_of_lt (by unfold M H at *; omega)
  have hbM : b % M = b := Nat.mod_eq_of_lt (by unfold M H at *; omega)
  simp only [Bool.or_eq_true, beq_iff_eq, haM, hbM]
  constructor
  · rintro (h | h)
    · omega
    · have := h1.mp h
      omega
  · intro h
    rcases Nat.eq_or_lt_of_le h with h' | h'
    · exact Or.inl h'
    · exact Or.inr (h1.mpr h')

theorem seqLt_false_iff {a b : Nat} (ha : a < H) (hb : b < H) :
    seqLt a b = false ↔ b ≤ a := by
  constructor
  · intro h
    by_contra hc
    push_neg at hc
    have := (seqLt_iff_lt ha hb).mpr hc
    simp [this] at h
  · intro h
    by_contra hc
    have : seqLt a b = true := by
      cases hq : seqLt a b
      · exact absurd hq hc
      · rfl
    have := (seqLt_iff_lt ha hb).mp this
    omega

theorem seqLe_false_iff {a b : Nat} (ha : a < H) (hb : b < H) :
    seqLe a b = false ↔ b < a := by
  constructor
  · intro h
    by_contra hc
    push_neg at hc
    have := (seqLe_iff_le ha hb).mpr hc
    simp [this] at h
  · intro h
    by_contra hc
    have : seqLe a b = true := by
      cases hq : seqLe a b
      · exact absurd hq hc
      · rfl
    have := (seqLe_iff_le ha hb).mp this
    omega

/-- Bridge: whenever two values both lie within the half-window of size
`2^31` ahead of a common base `B`, the wrapping order agrees with the
order of the offsets from `B`. -/
theorem seqLt_iff_ofs {B x y : Nat} (hx : x < M) (hy : y < M)
    (hxB : wsub x B < H) (hyB : wsub y B < H) :
    (seqLt x y = true ↔ wsub x B < wsub y B) := by
  unfold seqLt wsub M H at *
  have hxM : x % 4294967296 = x := Nat.mod_eq_of_lt hx
  have hyM : y % 4294967296 = y := Nat.mod_eq_of_lt hy
  simp only [hxM, hyM, Bool.and_eq_true, bne_iff_ne, ne_eq, decide_eq_true_eq]
  constructor
  · rintro ⟨hne, hge⟩
    omega
  · intro h
    constructor
    · omega
    · omega

theorem seqLe_iff_ofs {B x y : Nat} (hx : x < M) (hy : y < M)
    (hxB : wsub x B < H) (hyB : wsub y B < H) :
    (seqLe x y = true ↔ wsub x B ≤ wsub y B) := by
  unfold seqLe
  have h1 := seqLt_iff_ofs hx hy hxB hyB
  have hxM : x % M = x := Nat.mod_eq_of_lt hx
  have hyM : y % M = y := Nat.mod_eq_of_lt hy
  simp only [Bool.or_eq_true, beq_iff_eq, hxM, hyM, h1]
  constructor
  · rintro (h | h)
    · subst h
      omega
    · omega
  · intro h
    rcases Nat.eq_or_lt_of_le h with h' | h'
    · left
      -- equal offsets force equal values
      unfold wsub M at *
      omega
    · exact Or.inr h'

theorem mergeSucc_spec (l : List (Nat × Nat)) (e : Nat)
    (hwf : RangesWf l) (he : e < H) :
    e ≤ (mergeSucc e l).1 ∧ (mergeSucc e l).1 < H ∧
    (∃ k, (mergeSucc e l).2 = l.drop k) ∧
    (∀ p, (p < (mergeSucc e l).1 ∨ covers (mergeSucc e l).2 p) ↔
      (p < e ∨ covers l p)) := by
  induction l generalizing e with
  | nil =>
    refine ⟨Nat.le_refl _, he, ⟨0, rfl⟩, ?_⟩
    intro p
    simp [mergeSucc, covers]
  | cons hd tl ih =>
    obtain ⟨ss, se⟩ := hd
    obtain ⟨h1, h2, h3, h4⟩ := hwf
    have hss : ss < H := lt_trans h1 h2
    by_cases hlt : seqLt e ss = true
    · have hlt' : e < ss := (seqLt_iff_lt he hss).mp hlt
      refine ⟨?_, ?_, ⟨0, ?_⟩, ?_⟩ <;> simp [mergeSucc, hlt, he]
    · have hlt' : ss ≤ e := by
        have := (seqLt_false_iff he hss).mp (Bool.eq_false_iff.mpr hlt)
        omega
      have hlt0 : seqLt e ss = false := Bool.eq_false_iff.mpr hlt
      by_cases hle : seqLe e se = true
      · have hle' : e ≤ se := (seqLe_iff_le he h2).mp hle
        refine ⟨?_, ?_, ⟨1, ?_⟩, ?_⟩ <;>
          simp only [mergeSucc, hlt0, hle, if_false, if_true, Bool.false_eq_true,
            List.drop_succ_cons, List.drop_zero]
        · exact hle'
        · exact h2
        · intro p
          rw [covers_cons]
          constructor
          · rintro (h | h)
            · by_cases hpe : p < e
              · exact Or.inl hpe
              · exact Or.inr (Or.inl ⟨by omega, h⟩)
            · exact Or.inr (Or.inr h)
          · rintro (h | (⟨ha, hb⟩ | h))
            · exact Or.inl (by omega)
            · exact Or.inl (by omega)
            · exact Or.inr h
      · have hle' : se < e := by
          have hb := RangesWf.bounds (l := (ss, se) :: tl) ⟨h1, h2, h3, h4⟩
          have := (seqLe_false_iff he h2).mp (Bool.eq_false_iff.mpr hle)
          omega
        have hle0 : seqLe e se = false := Bool.eq_false_iff.mpr hle
        obtain ⟨ihe, ihH, ⟨k, ihk⟩, ihcov⟩ := ih e h4 he
        refine ⟨?_, ?_, ⟨k + 1, ?_⟩, ?_⟩ <;>
          simp only [mergeSucc, hlt0, hle0, if_false, Bool.false_eq_true,
            List.drop_succ_cons]
        · exact ihe
        · exact ihH
        · exact ihk
        · intro p
          rw [ihcov p, covers_cons]
          constructor
          · rintro (h | h)
            · exact Or.inl h
            · exact Or.inr (Or.inr h)
          · rintro (h | (⟨ha, hb⟩ | h))
            · exact Or.inl h
            · exact Or.inl (by omega)
            · exact Or.inr h

theorem insertPred_spec (s e ps pe : Nat) (rest : List (Nat × Nat))
    (hwf : RangesWf ((ps, pe) :: rest)) (hs : s < H) (he : e < H) (hse : s < e)
    (hpss : ps ≤ s) (hrest : ∀ r ∈ rest, s < r.1) :
    (insertPred s e ps pe rest = (false, (ps, pe) :: rest) ∧
      ∀ p, s ≤ p → p < e → covers ((ps, pe) :: rest) p) ∨
    ((insertPred s e ps pe rest).1 = true ∧
     (∀ p, covers (insertPred s e ps pe rest).2 p ↔
        (covers ((ps, pe) :: rest) p ∨ (s ≤ p ∧ p < e))) ∧
     (∃ p0, s ≤ p0 ∧ p0 < e ∧ ¬ covers ((ps, pe) :: rest) p0)) := by
  obtain ⟨h1, h2, h3, h4⟩ := hwf
  obtain ⟨he2, he2H, ⟨k, hk⟩, hcov⟩ := mergeSucc_spec rest e h4 he
  by_cases hc : seqLe s pe = true
  · have hc' : s ≤ pe := (seqLe_iff_le hs h2).mp hc
    by_cases hd : seqLe e pe = true
    · -- duplicate: the predecessor covers [s, e) entirely
      have hd' : e ≤ pe := (seqLe_iff_le he h2).mp hd
      left
      refine ⟨by simp [insertPred, hc, hd], ?_⟩
      intro p hsp hpe
      rw [covers_cons]
      left
      omega
    · -- absorb the predecessor and merge successors
      have hd' : pe < e := by
        have := (seqLe_false_iff he h2).mp (Bool.eq_false_iff.mpr hd)
        omega
      have hd0 : seqLe e pe = false := Bool.eq_false_iff.mpr hd
      right
      simp only [insertPred, hc, hd0, if_true, if_false, Bool.false_eq_true]
      refine ⟨trivial, ?_, ⟨pe, hc', hd', ?_⟩⟩
      · intro p
        rw [covers_cons, covers_cons]
        by_cases hp : ps ≤ p
        · have hiff := hcov p
          constructor
          · rintro (⟨_, hlt⟩ | h)
            · rcases hiff.mp (Or.inl hlt) with h' | h'
              · by_cases hps' : s ≤ p
                · exact Or.inr ⟨hps', h'⟩
                · exact Or.inl (Or.inl ⟨hp, by omega⟩)
              · exact Or.inl (Or.inr h')
            · rcases hiff.mp (Or.inr h) with h' | h'
              · by_cases hps' : s ≤ p
                · exact Or.inr ⟨hps', h'⟩
                · exact Or.inl (Or.inl ⟨hp, by omega⟩)
              · exact Or.inl (Or.inr h')
          · rintro ((⟨_, hlt⟩ | h) | ⟨hsp, hpe'⟩)
            · rcases hiff.mpr (Or.inl (by omega)) with h' | h'
              · exact Or.inl ⟨hp, h'⟩
              · exact Or.inr h'
            · rcases hiff.mpr (Or.inr h) with h' | h'
              · exact Or.inl ⟨hp, h'⟩
              · exact Or.inr h'
            · rcases hiff.mpr (Or.inl hpe') with h' | h'
              · exact Or.inl ⟨hp, h'⟩
              · exact Or.inr h'
        · -- p below the stored predecessor start: nothing covers p
          push_neg at hp
          have hnr : ¬ covers rest p := by
            rintro ⟨r, hr, hr1, hr2⟩
            have := hrest r hr
            omega
          have hnr2 : ¬ covers (rest.drop k) p := by
            rintro ⟨r, hr, hr1, hr2⟩
            exact hnr ⟨r, List.mem_of_mem_drop hr, hr1, hr2⟩
          rw [hk]
          constructor
          · rintro (⟨hp', _⟩ | h)
            · omega
            · exact absurd h hnr2
          · rintro ((⟨hp', _⟩ | h) | ⟨hsp, _⟩)
            · omega
            · exact absurd h hnr
            · omega
      · rintro h
        rw [covers_cons] at h
        rcases h with ⟨_, hlt⟩ | ⟨r, hr, hr1, hr2⟩
        · omega
        · have := h3 r hr
          omega
  · -- the predecessor ends before the new start: insert fresh
    have hc' : pe < s := by
      have := (seqLe_false_iff hs h2).mp (Bool.eq_false_iff.mpr hc)
      omega
    have hc0 : seqLe s pe = false := Bool.eq_false_iff.mpr hc
    right
    simp only [insertPred, hc0, if_false, Bool.false_eq_true]
    refine ⟨trivial, ?_, ⟨s, Nat.le_refl s, hse, ?_⟩⟩
    · intro p
      rw [covers_cons, covers_cons, covers_cons]
      have hiff := hcov p
      by_cases hp : s ≤ p
      · constructor
        · rintro (⟨hp1, hp2⟩ | (⟨_, hlt⟩ | h))
          · omega
          · rcases hiff.mp (Or.inl hlt) with h' | h'
            · exact Or.inr ⟨hp, h'⟩
            · exact Or.inl (Or.inr h')
          · rcases hiff.mp (Or.inr h) with h' | h'
            · exact Or.inr ⟨hp, h'⟩
            · exact Or.inl (Or.inr h')
        · rintro ((⟨hp1, hp2⟩ | h) | ⟨_, hpe'⟩)
          · omega
          · rcases hiff.mpr (Or.inr h) with h' | h'
            · exact Or.inr (Or.inl ⟨hp, h'⟩)
            · exact Or.inr (Or.inr h')
          · rcases hiff.mpr (Or.inl hpe') with h' | h'
            · exact Or.inr (Or.inl ⟨hp, h'⟩)
            · exact Or.inr (Or.inr h')
      · -- p below the new start: only the predecessor can cover it
        push_neg at hp
        have hnr : ¬ covers rest p := by
          rintro ⟨r, hr, hr1, hr2⟩
          have := hrest r hr
          omega
        have hnr2 : ¬ covers (rest.drop k) p := by
          rintro ⟨r, hr, hr1, hr2⟩
          exact hnr ⟨r, List.mem_of_mem_drop hr, hr1, hr2⟩
        constructor
        · rintro (⟨hp1, hp2⟩ | (⟨hp1, _⟩ | h))
          · exact Or.inl (Or.inl ⟨hp1, hp2⟩)
          · omega
          · exact absurd (by rw [hk] at h; exact h) hnr2
        · rintro ((⟨hp1, hp2⟩ | h) | ⟨hp1, _⟩)
          · exact Or.inl ⟨hp1, hp2⟩
          · exact absurd h hnr
          · omega
    · rintro h
      rw [covers_cons] at h
      rcases h with ⟨_, hlt⟩ | ⟨r, hr, hr1, hr2⟩
      · omega
      · have := hrest r hr
        omega

theorem insertGo_cons_nopred (s e ps pe : Nat) (tl : List (Nat × Nat))
    (h : seqLe ps s = false) :
    insertGo s e ((ps, pe) :: tl) =
      (true, (s, (mergeSucc e ((ps, pe) :: tl)).1) ::
        (mergeSucc e ((ps, pe) :: tl)).2) := by
  rw [insertGo.eq_def]
  simp only [h, Bool.false_eq_true, if_false]

theorem insertGo_cons_single (s e ps pe : Nat) (h : seqLe ps s = true) :
    insertGo s e [(ps, pe)] = insertPred s e ps pe [] := by
  rw [insertGo.eq_def]
  simp only [h, if_true]

theorem insertGo_cons_next_le (s e ps pe qs qe : Nat) (rest' : List (Nat × Nat))
    (h : seqLe ps s = true) (h2 : seqLe qs s = true) :
    insertGo s e ((ps, pe) :: (qs, qe) :: rest') =
      ((insertGo s e ((qs, qe) :: rest')).1,
        (ps, pe) :: (insertGo s e ((qs, qe) :: rest')).2) := by
  rw [insertGo.eq_def]
  simp only [h, h2, if_true]

theorem insertGo_cons_next_gt (s e ps pe qs qe : Nat) (rest' : List (Nat × Nat))
    (h : seqLe ps s = true) (h2 : seqLe qs s = false) :
    insertGo s e ((ps, pe) :: (qs, qe) :: rest') =
      insertPred s e ps pe ((qs, qe) :: rest') := by
  rw [insertGo.eq_def]
  simp only [h, h2, if_true, Bool.false_eq_true, if_false]

theorem insertGo_spec (l : List (Nat × Nat)) (s e : Nat)
    (hwf : RangesWf l) (hs : s < H) (he : e < H) (hse : s < e) :
    (insertGo s e l = (false, l) ∧ ∀ p, s ≤ p → p < e → covers l p) ∨
    ((insertGo s e l).1 = true ∧
     (∀ p, covers (insertGo s e l).2 p ↔ (covers l p ∨ (s ≤ p ∧ p < e))) ∧
     (∃ p0, s ≤ p0 ∧ p0 < e ∧ ¬ covers l p0)) := by
  induction l with
  | nil =>
    right
    refine ⟨rfl, ?_, ⟨s, Nat.le_refl s, hse, covers_nil s⟩⟩
    intro p
    rw [show (insertGo s e []).2 = [(s, e)] from rfl, covers_cons]
    simp [covers_nil, covers]
  | cons hd tl ih =>
    obtain ⟨ps, pe⟩ := hd
    obtain ⟨h1, h2, h3, h4⟩ := hwf
    have hps : ps < H := lt_trans h1 h2
    by_cases hA : seqLe ps s = true
    · have hA' : ps ≤ s := (seqLe_iff_le hps hs).mp hA
      cases htl : tl with
      | nil =>
        have := insertPred_spec s e ps pe [] (by subst htl; exact ⟨h1, h2, h3, h4⟩)
          hs he hse hA' (by simp)
        subst htl
        rw [insertGo_cons_single s e ps pe hA]
        exact this
      | cons q rest' =>
        obtain ⟨qs, qe⟩ := q
        subst htl
        have hq1 : qs < qe ∧ qe < H := (RangesWf.bounds h4 (qs, qe) (by simp))
        by_cases hB : seqLe qs s = true
        · have hB' : qs ≤ s := (seqLe_iff_le (lt_trans hq1.1 hq1.2) hs).mp hB
          have hpes : pe < s := lt_of_lt_of_le (h3 (qs, qe) (by simp)) hB'
          rcases ih h4 with ⟨ihfix, ihcov⟩ | ⟨ihtrue, ihcov, ⟨p0, hp01, hp02, hp03⟩⟩
          · left
            constructor
            · rw [insertGo_cons_next_le s e ps pe qs qe rest' hA hB, ihfix]
            · intro p hsp hpe'
              exact covers_cons.mpr (Or.inr (ihcov p hsp hpe'))
          · right
            refine ⟨?_, ?_, ⟨p0, hp01, hp02, ?_⟩⟩
            · rw [insertGo_cons_next_le s e ps pe qs qe rest' hA hB]
              exact ihtrue
            · intro p
              have : (insertGo s e ((ps, pe) :: (qs, qe) :: rest')).2 =
                  (ps, pe) :: (insertGo s e ((qs, qe) :: rest')).2 := by
                rw [insertGo_cons_next_le s e ps pe qs qe rest' hA hB]
              rw [this, covers_cons, covers_cons]
              rw [ihcov p]
              tauto
            · rw [covers_cons]
              rintro (⟨_, hlt⟩ | h)
              · omega
              · exact hp03 h
        · have hB' : s < qs := by
            have := (seqLe_false_iff (lt_trans hq1.1 hq1.2) hs).mp (Bool.eq_false_iff.mpr hB)
            omega
          have hrest : ∀ r ∈ (qs, qe) :: rest', s < r.1 := by
            intro r hr
            rcases List.mem_cons.mp hr with h | h
            · subst h
              exact hB'
            · obtain ⟨_, _, hq3, _⟩ := h4
              have := hq3 r h
              omega
          have := insertPred_spec s e ps pe ((qs, qe) :: rest')
            ⟨h1, h2, h3, h4⟩ hs he hse hA' hrest
          rw [insertGo_cons_next_gt s e ps pe qs qe rest' hA
            (Bool.eq_false_iff.mpr hB)]
          exact this
    · have hA' : s < ps := by
        have := (seqLe_false_iff hps hs).mp (Bool.eq_false_iff.mpr hA)
        omega
      have hall : ∀ r ∈ (ps, pe) :: tl, s < r.1 := by
        intro r hr
        rcases List.mem_cons.mp hr with h | h
        · subst h
          exact hA'
        · have := h3 r h
          omega
      obtain ⟨he2, he2H, ⟨k, hk⟩, hcov⟩ :=
        mergeSucc_spec ((ps, pe) :: tl) e ⟨h1, h2, h3, h4⟩ he
      right
      have hA0 : seqLe ps s = false := Bool.eq_false_iff.mpr hA
      rw [insertGo_cons_nopred s e ps pe tl hA0]
      refine ⟨rfl, ?_, ⟨s, Nat.le_refl s, hse, ?_⟩⟩
      · intro p
        rw [covers_cons]
        have hiff := hcov p
        by_cases hp : s ≤ p
        · constructor
          · rintro (⟨_, hlt⟩ | h)
            · rcases hiff.mp (Or.inl hlt) with h' | h'
              · exact Or.inr ⟨hp, h'⟩
              · exact Or.inl h'
            · rcases hiff.mp (Or.inr h) with h' | h'
              · exact Or.inr ⟨hp, h'⟩
              · exact Or.inl h'
          · rintro (h | ⟨_, hpe'⟩)
            · rcases hiff.mpr (Or.inr h) with h' | h'
              · exact Or.inl ⟨hp, h'⟩
              · exact Or.inr h'
            · rcases hiff.mpr (Or.inl hpe') with h' | h'
              · exact Or.inl ⟨hp, h'⟩
              · exact Or.inr h'
        · push_neg at hp
          have hnl : ¬ covers ((ps, pe) :: tl) p := by
            rintro ⟨r, hr, hr1, hr2⟩
            have := hall r hr
            omega
          have hnr : ¬ covers (mergeSucc e ((ps, pe) :: tl)).2 p := by
            rintro ⟨r, hr, hr1, hr2⟩
            rw [hk] at hr
            exact hnl ⟨r, List.mem_of_mem_drop hr, hr1, hr2⟩
          constructor
          · rintro (⟨hp1, _⟩ | h)
            · omega
            · exact absurd h hnr
          · rintro (h | ⟨hp1, _⟩)
            · exact absurd h hnl
            · omega
      · rintro ⟨r, hr, hr1, hr2⟩
        have := hall r hr
        omega

/-- C5: on a state satisfying the disjoint/non-touching invariant (within
the half-window on which the comparator is an order), `RangeSet::insert`
(a) returns `false` with no mutation when `end <= start`, (b) returns
`false` with no mutation when `[start, end)` is already fully covered,
and (c) otherwise returns `true` and the new coverage is the old coverage
united with `[start, end)`; hence `insert` returns `true` iff new
coverage was added and duplicate re-insertion is idempotent. -/
theorem c5_rangeset_insert_correct (m : List (Nat × Nat)) (s e : Nat)
    (hwf : RangesWf m) (hs : s < H) (he : e < H) :
    (e ≤ s → RangeSet.insert m s e = (false, m)) ∧
    ((s < e ∧ ∀ p, s ≤ p → p < e → covers m p) →
      RangeSet.insert m s e = (false, m)) ∧
    ((s < e ∧ ¬ (∀ p, s ≤ p → p < e → covers m p)) →
      (RangeSet.insert m s e).1 = true ∧
      ∀ p, covers (RangeSet.insert m s e).2 p ↔ (covers m p ∨ (s ≤ p ∧ p < e))) := by
  refine ⟨?_, ?_, ?_⟩
  · intro hle
    have : seqLe e s = true := (seqLe_iff_le he hs).mpr hle
    simp [RangeSet.insert, this]
  · rintro ⟨hse, hcov⟩
    have hgt : seqLe e s = false := by
      rw [seqLe_false_iff he hs]
      exact hse
    rcases insertGo_spec m s e hwf hs he hse with ⟨hfix, _⟩ | ⟨_, _, ⟨p0, h1, h2, h3⟩⟩
    · simp [RangeSet.insert, hgt, hfix]
    · exact absurd (hcov p0 h1 h2) h3
  · rintro ⟨hse, hncov⟩
    have hgt : seqLe e s = false := by
      rw [seqLe_false_iff he hs]
      exact hse
    rcases insertGo_spec m s e hwf hs he hse with ⟨hfix, hcov⟩ | ⟨h1, h2, _⟩
    · exact absurd (fun p a b => hcov p a b) hncov
    · constructor
      · simp [RangeSet.insert, hgt, h1]
      · intro p
        have : RangeSet.insert m s e = insertGo s e m := by
          simp [RangeSet.insert, hgt]
        rw [this]
        exact h2 p

/-- Witness for C5: the three parts applied on the concrete state
`{[10, 20), [30, 40)}` with inserts `(20, 15)` (degenerate),
`(12, 18)` (duplicate) and `(18, 30)` (merging). -/
theorem c5_rangeset_insert_correct_witness :
    (RangeSet.insert [(10, 20), (30, 40)] 20 15 = (false, [(10, 20), (30, 40)]) ∧
     RangeSet.insert [(10, 20), (30, 40)] 12 18 = (false, [(10, 20), (30, 40)]) ∧
     (RangeSet.insert [(10, 20), (30, 40)] 18 30).1 = true) ∧
    covers (RangeSet.insert [(10, 20), (30, 40)] 18 30).2 25 := by
  have h1 := c5_rangeset_insert_correct [(10, 20), (30, 40)] 20 15
    (by decide) (by decide) (by decide)
  have h2 := c5_rangeset_insert_correct [(10, 20), (30, 40)] 12 18
    (by decide) (by decide) (by decide)
  have h3 := c5_rangeset_insert_correct [(10, 20), (30, 40)] 18 30
    (by decide) (by decide) (by decide)
  refine ⟨⟨h1.1 (by decide), h2.2.1 ⟨by decide, by decide⟩, ?_⟩, ?_⟩
  · exact (h3.2.2 ⟨by decide, by decide⟩).1
  · exact ((h3.2.2 ⟨by decide, by decide⟩).2 25).mpr (Or.inr ⟨by decide, by decide⟩)

/-- C2 (code bug): after the three successful writes `[0,5)`, `[10,12)`,
`[3,20)` from a fresh buffer, the ReceiveBuffer's internal range map
stores the ranges `[0,20)` and `[10,12)`; `0 < 10` in the wrapping order
yet `20 < 10` fails, so the first stored range overlaps the second,
violating the claimed invariant.  The slip: the merge loop of
`compress_range_map` breaks without removing a successor range strictly
contained in the merged range. -/
theorem c2_recv_rangemap_overlap_bug :
    overlapBugBuf.range_map = [(0, 20), (10, 12)] ∧
    seqLt 0 10 = true ∧ seqLt 20 10 = false := by
  decide

/-- C1 (code bug): from the reachable state of `overlapBugBuf` (written
union `[0,20)`), the write of two bytes at position `11` has its range
`[11,13)` entirely covered by previously written ranges, yet it returns
`Ok` instead of the duplicated-data error, extends the stored range
`[10,12)` to `[10,13)`, and overwrites the stored byte at position `12`
(first writer's `3` becomes second writer's `9`). -/
theorem c1_recv_duplicate_overwrite_bug :
    (∀ p, p < 13 → 11 ≤ p →
      ((0 ≤ p ∧ p < 5) ∨ (10 ≤ p ∧ p < 12) ∨ (3 ≤ p ∧ p < 20))) ∧
    (overlapBugBuf.write 11 [9, 9]).1 = Except.ok () ∧
    (overlapBugBuf.write 11 [9, 9]).2.range_map = [(0, 20), (10, 13)] ∧
    ((overlapBugBuf.write 11 [9, 9]).2.blocks.getD 0 (fun _ => 0)) 12 = 9 ∧
    (overlapBugBuf.blocks.getD 0 (fun _ => 0)) 12 = 3 := by
  refine ⟨by decide, rfl, by decide, by decide, by decide⟩

/-- Counterexample to C6 as stated: for the largest constructible
capacity the `u32` product `RBUF_BLOCK_SIZE * max_blocks` wraps to `0`
(max_blocks = 32768), so a one-byte write at the read cursor is rejected
with `SizeLimitExceeded` although `1` does not exceed the claim's
mathematical window `32768 * 131072 - 0 = 2^32`. -/
theorem c6_recv_write_window_counterexample :
    (RecvBuffer.withCapacity 4294967295).max_blocks = 32768 ∧
    ((RecvBuffer.withCapacity 4294967295).write 0 [7]).1 =
      Except.error "size-limit-exceed" ∧
    ¬ (1 > (RecvBuffer.withCapacity 4294967295).max_blocks * RBUF_BLOCK_SIZE -
        (RecvBuffer.withCapacity 4294967295).start_pos % RBUF_BLOCK_SIZE) := by
  refine ⟨by decide, rfl, by decide⟩

/-- C6 (amended): provided the window computation does not overflow `u32`
(`max_blocks * block_size < 2^32`, with the block-alignment offset of
`start_pos` not exceeding the product), a write whose payload alone
exceeds `window = max_blocks * block_size - start_pos % block_size`
fails with `SizeLimitExceeded`, and otherwise a write whose start or end
lies farther than `window` ahead of `start_pos` (forward wrapping
distance) fails with `OutOfRange`; in both cases the buffer is returned
unchanged. -/
theorem c6_recv_write_window_checks (b : RecvBuffer) (pos : Nat) (data : List Nat)
    (hmb : b.max_blocks * RBUF_BLOCK_SIZE < M)
    (hoff : b.start_pos % RBUF_BLOCK_SIZE ≤ b.max_blocks * RBUF_BLOCK_SIZE) :
    (data.length > b.max_blocks * RBUF_BLOCK_SIZE - b.start_pos % RBUF_BLOCK_SIZE →
      RecvBuffer.write b pos data = (Except.error "size-limit-exceed", b)) ∧
    (data.length ≤ b.max_blocks * RBUF_BLOCK_SIZE - b.start_pos % RBUF_BLOCK_SIZE →
      (wsub pos b.start_pos >
          b.max_blocks * RBUF_BLOCK_SIZE - b.start_pos % RBUF_BLOCK_SIZE ∨
        wsub ((pos + data.length) % M) b.start_pos >
          b.max_blocks * RBUF_BLOCK_SIZE - b.start_pos % RBUF_BLOCK_SIZE) →
      RecvBuffer.write b pos data = (Except.error "out-of-range", b)) := by
  have hmax : wsub (RBUF_BLOCK_SIZE * b.max_blocks % M) (b.start_pos % RBUF_BLOCK_SIZE) =
      b.max_blocks * RBUF_BLOCK_SIZE - b.start_pos % RBUF_BLOCK_SIZE := by
    rw [Nat.mul_comm RBUF_BLOCK_SIZE b.max_blocks, Nat.mod_eq_of_lt hmb]
    exact wsub_small _ _ hoff hmb
  constructor
  · intro hlen
    rw [RecvBuffer.write]
    simp only [hmax]
    rw [if_pos hlen]
  · intro hlen hdist
    rw [RecvBuffer.write]
    simp only [hmax]
    rw [if_neg (by omega), if_pos hdist]

/-- Witness for C6 (amended): capacity `131072` gives one block; an
oversized write and a far-ahead write are both rejected unchanged. -/
theorem c6_recv_write_window_checks_witness :
    RecvBuffer.write (RecvBuffer.withCapacity 131072) 200000 [7] =
      (Except.error "out-of-range", RecvBuffer.withCapacity 131072) := by
  have h := c6_recv_write_window_checks (RecvBuffer.withCapacity 131072) 200000 [7]
    (by decide) (by decide)
  exact h.2 (by decide) (by decide)

theorem consumeLoop_spec (fuel : Nat) :
    ∀ (start remain : Nat) (blocks : List (Nat → Nat)), remain ≤ fuel → start < M →
    consumeLoop fuel start blocks remain =
      ((start + remain) % M,
        blocks.drop ((start % RBUF_BLOCK_SIZE + remain) / RBUF_BLOCK_SIZE)) := by
  induction fuel with
  | zero =>
    intro start remain blocks hfuel hstart
    have h0 : remain = 0 := by omega
    subst h0
    have h1 : (start % RBUF_BLOCK_SIZE + 0) / RBUF_BLOCK_SIZE = 0 := by
      have := Nat.mod_lt start (show 0 < RBUF_BLOCK_SIZE by decide)
      unfold RBUF_BLOCK_SIZE at *
      omega
    simp [consumeLoop, Nat.mod_eq_of_lt hstart, h1]
  | succ fuel ih =>
    intro start remain blocks hfuel hstart
    by_cases h0 : remain = 0
    · subst h0
      have h1 : (start % RBUF_BLOCK_SIZE + 0) / RBUF_BLOCK_SIZE = 0 := by
        have := Nat.mod_lt start (show 0 < RBUF_BLOCK_SIZE by decide)
        unfold RBUF_BLOCK_SIZE at *
        omega
      simp [consumeLoop, Nat.mod_eq_of_lt hstart, h1]
    · rw [consumeLoop, if_neg h0]
      have hms : start % RBUF_BLOCK_SIZE < RBUF_BLOCK_SIZE :=
        Nat.mod_lt start (by decide)
      by_cases hge : remain ≥ RBUF_BLOCK_SIZE - start % RBUF_BLOCK_SIZE
      · rw [if_pos hge]
        rw [ih ((start + (RBUF_BLOCK_SIZE - start % RBUF_BLOCK_SIZE)) % M)
          (remain - (RBUF_BLOCK_SIZE - start % RBUF_BLOCK_SIZE)) blocks.tail
          (by omega) (Nat.mod_lt _ (by unfold M; omega))]
      -- both components
        rw [Prod.mk.injEq]
        refine ⟨?_, ?_⟩
        · -- positions agree modulo M
          rw [Nat.mod_add_mod]
          congr 1
          omega
        · -- the popped block counts agree
          have hdvd : RBUF_BLOCK_SIZE ∣ M := by decide
          have hmod : (start + (RBUF_BLOCK_SIZE - start % RBUF_BLOCK_SIZE)) % M %
              RBUF_BLOCK_SIZE = 0 := by
            rw [Nat.mod_mod_of_dvd _ hdvd]
            unfold RBUF_BLOCK_SIZE at *
            omega
          rw [hmod, ← List.drop_one, List.drop_drop]
          congr 1
          unfold RBUF_BLOCK_SIZE at *
          omega
      · rw [if_neg hge]
        have h1 : (start % RBUF_BLOCK_SIZE + remain) / RBUF_BLOCK_SIZE = 0 := by
          unfold RBUF_BLOCK_SIZE at *
          omega
        rw [h1]
        simp

/-- C7: `consume(0)` always succeeds; `consume(len)` with
`len > readable_size()` fails with `NoEnoughData` leaving the state
unchanged; and with `0 < len <= readable_size()` it succeeds, advances
`start_pos` by exactly `len`, drops every block wholly before the new
`start_pos`, and shrinks the first range to begin at the new `start_pos`
(removing it when it becomes empty).  Stated for states whose range map
satisfies the sorted/disjoint invariant on the comparator's half-window. -/
theorem c7_recv_consume_correct (b : RecvBuffer) (len : Nat)
    (hwf : RangesWf b.range_map) :
    (RecvBuffer.consume b 0 = (Except.ok (), b)) ∧
    (b.readable_size < len →
      RecvBuffer.consume b len = (Except.error "no-enough-data", b)) ∧
    (0 < len → len ≤ b.readable_size →
      ∃ e0 rest, b.range_map = (b.start_pos, e0) :: rest ∧
        RecvBuffer.consume b len =
          (Except.ok (),
            { start_pos := b.start_pos + len,
              max_blocks := b.max_blocks,
              range_map :=
                if b.start_pos + len = e0 then rest else (b.start_pos + len, e0) :: rest,
              blocks :=
                b.blocks.drop
                  ((b.start_pos % RBUF_BLOCK_SIZE + len) / RBUF_BLOCK_SIZE) })) := by
  refine ⟨by simp [RecvBuffer.consume], ?_, ?_⟩
  · intro hlt
    have hlen0 : len ≠ 0 := by
      intro h
      subst h
      omega
    rw [RecvBuffer.consume, if_neg hlen0, if_pos hlt]
  · intro hpos hle
    cases hmap : b.range_map with
    | nil =>
      exfalso
      rw [RecvBuffer.readable_size, hmap] at hle
      simp at hle
      omega
    | cons hd rest =>
      obtain ⟨s0, e0⟩ := hd
      rw [hmap] at hwf
      obtain ⟨h1, h2, h3, h4⟩ := hwf
      have hs0 : s0 = b.start_pos := by
        by_contra hne
        rw [RecvBuffer.readable_size, hmap] at hle
        simp only [List.head?_cons] at hle
        rw [if_neg hne] at hle
        omega
      subst hs0
      have hread : b.readable_size = e0 - b.start_pos := by
        rw [RecvBuffer.readable_size, hmap]
        simp only [List.head?_cons]
        rw [if_pos trivial]
        exact wsub_small e0 b.start_pos (by omega) (by unfold M H at *; omega)
      have hlee : len ≤ e0 - b.start_pos := by omega
      have hsH : b.start_pos < H := by omega
      refine ⟨e0, rest, rfl, ?_⟩
      have hlen0 : len ≠ 0 := by omega
      rw [RecvBuffer.consume, if_neg hlen0, if_neg (by omega)]
      rw [hmap]
      simp only [List.head?_cons]
      have hloop := consumeLoop_spec len b.start_pos len b.blocks (Nat.le_refl len)
        (by unfold M H at *; omega)
      have hsum : (b.start_pos + len) % M = b.start_pos + len := by
        apply Nat.mod_eq_of_lt
        unfold M H at *
        omega
      have hfilter :
          ((b.start_pos, e0) :: rest).filter (fun r => r.1 != b.start_pos) = rest := by
        rw [List.filter_cons]
        simp only [bne_self_eq_false, Bool.false_eq_true, if_false]
        apply List.filter_eq_self.mpr
        intro r hr
        have := h3 r hr
        simp only [bne_iff_ne, ne_eq]
        omega
      simp only [hloop, hsum, hfilter]
      by_cases hend : b.start_pos + len = e0
      · simp only [ne_eq, hend, not_true_eq_false, if_false, ite_false]
        simp
      · have hbt : btInsert (b.start_pos + len) e0 rest =
            (b.start_pos + len, e0) :: rest := by
          cases hr : rest with
          | nil => rfl
          | cons r2 t2 =>
            obtain ⟨k1, v1⟩ := r2
            have hk1 : e0 < k1 := by
              have := h3 (k1, v1) (by rw [hr]; simp)
              exact this
            have hk1H : k1 < H := by
              rw [hr] at h4
              obtain ⟨ha, hb, _, _⟩ := h4
              omega
            rw [btInsert]
            rw [if_pos ((seqLt_iff_lt (by omega) hk1H).mpr (by omega))]
        simp only [ne_eq, hend, not_false_eq_true, if_true, ite_true, hbt]
        simp

/-- Witness for C7 on the state `{start_pos := 5, range_map = [(5, 9)]}`
with `len = 2`. -/
theorem c7_recv_consume_correct_witness :
    (RecvBuffer.consume ⟨5, 1, [(5, 9)], []⟩ 0 =
      (Except.ok (), (⟨5, 1, [(5, 9)], []⟩ : RecvBuffer))) ∧
    (∃ e0 rest, (⟨5, 1, [(5, 9)], []⟩ : RecvBuffer).range_map = (5, e0) :: rest ∧
      RecvBuffer.consume ⟨5, 1, [(5, 9)], []⟩ 2 =
        (Except.ok (),
          { start_pos := 5 + 2, max_blocks := 1,
            range_map := if 5 + 2 = e0 then rest else (5 + 2, e0) :: rest,
            blocks := List.drop ((5 % RBUF_BLOCK_SIZE + 2) / RBUF_BLOCK_SIZE) [] })) := by
  have h := c7_recv_consume_correct ⟨5, 1, [(5, 9)], []⟩ 2 (by decide)
  have h0 := c7_recv_consume_correct ⟨5, 1, [(5, 9)], []⟩ 0 (by decide)
  exact ⟨h0.1, h.2.2 (by decide) (by decide)⟩

theorem mem_btInsert {α : Type} {r : Nat × α} {k : Nat} {v : α} {l : List (Nat × α)}
    (h : r ∈ btInsert k v l) : r = (k, v) ∨ r ∈ l := by
  induction l with
  | nil => simpa [btInsert] using h
  | cons hd tl ih =>
    obtain ⟨a, b⟩ := hd
    rw [btInsert] at h
    by_cases h1 : seqLt k a = true
    · rw [if_pos h1] at h
      rcases List.mem_cons.mp h with h' | h'
      · exact Or.inl h'
      · exact Or.inr h'
    · rw [if_neg h1] at h
      by_cases h2 : (k % M == a % M) = true
      · rw [if_pos h2] at h
        rcases List.mem_cons.mp h with h' | h'
        · exact Or.inl h'
        · exact Or.inr (List.mem_cons_of_mem _ h')
      · rw [if_neg h2] at h
        rcases List.mem_cons.mp h with h' | h'
        · exact Or.inr (by simp [h'])
        · rcases ih h' with h'' | h''
          · exact Or.inl h''
          · exact Or.inr (List.mem_cons_of_mem _ h'')

theorem btLookup_mem {α : Type} {k : Nat} {l : List (Nat × α)} {v : α}
    (h : btLookup k l = some v) : ∃ a, (a, v) ∈ l := by
  induction l with
  | nil => simp [btLookup] at h
  | cons hd tl ih =>
    obtain ⟨a, b⟩ := hd
    rw [btLookup] at h
    by_cases h1 : (k % M == a % M) = true
    · rw [if_pos h1] at h
      refine ⟨a, ?_⟩
      simp only [Option.some.injEq] at h
      simp [h]
    · rw [if_neg h1] at h
      obtain ⟨a', ha'⟩ := ih h
      exact ⟨a', List.mem_cons_of_mem _ ha'⟩

theorem pushLoop_mem (data : List Nat) (mss : Nat) (fuel : Nat) :
    ∀ q e off r, r ∈ (pushLoop data mss fuel q e off).1 →
      r ∈ q ∨ r.2.length ≤ mss := by
  induction fuel with
  | zero =>
    intro q e off r h
    exact Or.inl h
  | succ fuel ih =>
    intro q e off r h
    rw [pushLoop] at h
    by_cases hoff : off < data.length
    · rw [if_pos hoff] at h
      rcases ih _ _ _ r h with h' | h'
      · rcases mem_btInsert h' with h'' | h''
        · right
          subst h''
          simp only [List.length_take]
          by_cases hc : mss < data.length - off
          · rw [if_pos hc]
            omega
          · rw [if_neg hc]
            omega
        · exact Or.inl h''
      · exact Or.inr h'
    · rw [if_neg hoff] at h
      exact Or.inl h

theorem ackLoop_mem (end_ : Nat) (fuel : Nat) :
    ∀ q start acked r, r ∈ (ackLoop end_ fuel q start acked).1 → r ∈ q := by
  induction fuel with
  | zero =>
    intro q start acked r h
    exact h
  | succ fuel ih =>
    intro q start acked r h
    rw [ackLoop] at h
    cases hf : ackFirstIn start end_ q with
    | some pos =>
      rw [hf] at h
      exact List.mem_of_mem_filter (ih _ _ _ r h)
    | none =>
      rw [hf] at h
      exact h

/-- The two C8 invariants as a predicate on a state. -/
def SendInv (s : SendBuffer) : Prop :=
  s.size ≤ s.limit ∧ ∀ r ∈ s.queue, r.2.length ≤ s.mss

theorem sendStep_inv {s : SendBuffer} (h : SendInv s) (op : SendOp) :
    SendInv (sendStep s op) ∧ (sendStep s op).limit = s.limit ∧
      (sendStep s op).mss = s.mss := by
  obtain ⟨hsize, hseg⟩ := h
  cases op with
  | push data =>
    show SendInv (s.push_back data).2 ∧ (s.push_back data).2.limit = s.limit ∧
      (s.push_back data).2.mss = s.mss
    by_cases hfull : s.size + data.length > s.limit
    · have : (s.push_back data).2 = s := by
        rw [SendBuffer.push_back, if_pos hfull]
      rw [this]
      exact ⟨⟨hsize, hseg⟩, rfl, rfl⟩
    · cases hq : s.queue.getLast? with
      | none =>
        have hpb : (s.push_back data).2 =
            { s with
              queue := (pushLoop data s.mss data.length s.queue s.enqueue 0).1
              enqueue := (pushLoop data s.mss data.length s.queue s.enqueue 0).2
              size := s.size + data.length } := by
          rw [SendBuffer.push_back, if_neg hfull, hq]
        rw [hpb]
        refine ⟨⟨by simp only; omega, ?_⟩, rfl, rfl⟩
        intro r hr
        simp only at hr
        rcases pushLoop_mem data s.mss data.length _ _ _ r hr with h' | h'
        · exact hseg r h'
        · exact h'
      | some pl =>
        obtain ⟨pos, last_buf⟩ := pl
        by_cases hc : seqLe s.unsent pos = true ∧ s.mss > last_buf.length
        · have hpb : (s.push_back data).2 =
              (let copy_len := if s.mss - last_buf.length < data.length
                then s.mss - last_buf.length else data.length
              let q1 := btInsert pos (last_buf ++ data.take copy_len) s.queue
              { s with
                queue := (pushLoop data s.mss data.length q1
                  ((s.enqueue + copy_len) % M) copy_len).1
                enqueue := (pushLoop data s.mss data.length q1
                  ((s.enqueue + copy_len) % M) copy_len).2
                size := s.size + data.length }) := by
            simp only [SendBuffer.push_back, hq]
            rw [if_neg hfull, if_pos hc]
          rw [hpb]
          refine ⟨⟨?_, ?_⟩, rfl, rfl⟩
          · show s.size + data.length ≤ s.limit
            omega
          intro r hr
          rcases pushLoop_mem data s.mss data.length _ _ _ r hr with h' | h'
          · rcases mem_btInsert h' with h2 | h2
            · subst h2
              simp only [List.length_append, List.length_take]
              obtain ⟨hc1, hc2⟩ := hc
              by_cases hc3 : s.mss - last_buf.length < data.length
              · rw [if_pos hc3]
                omega
              · rw [if_neg hc3]
                omega
            · exact hseg r h2
          · exact h'
        · have hpb : (s.push_back data).2 =
              { s with
                queue := (pushLoop data s.mss data.length s.queue s.enqueue 0).1
                enqueue := (pushLoop data s.mss data.length s.queue s.enqueue 0).2
                size := s.size + data.length } := by
            simp only [SendBuffer.push_back, hq]
            rw [if_neg hfull, if_neg hc]
          rw [hpb]
          refine ⟨⟨by simp only; omega, ?_⟩, rfl, rfl⟩
          intro r hr
          simp only at hr
          rcases pushLoop_mem data s.mss data.length _ _ _ r hr with h' | h'
          · exact hseg r h'
          · exact h'
  | pop =>
    show SendInv s.pop_unsent.2 ∧ s.pop_unsent.2.limit = s.limit ∧
      s.pop_unsent.2.mss = s.mss
    rw [SendBuffer.pop_unsent]
    by_cases hc : seqLe s.enqueue s.unsent = true
    · rw [if_pos hc]
      exact ⟨⟨hsize, hseg⟩, rfl, rfl⟩
    · rw [if_neg hc]
      cases hl : btLookup s.unsent s.queue with
      | some d => exact ⟨⟨hsize, hseg⟩, rfl, rfl⟩
      | none => exact ⟨⟨hsize, hseg⟩, rfl, rfl⟩
  | ack a b =>
    show SendInv (s.ack a b).2 ∧ (s.ack a b).2.limit = s.limit ∧
      (s.ack a b).2.mss = s.mss
    rw [SendBuffer.ack]
    by_cases hc : seqLe b a = true ∨ seqLe s.unsent a = true ∨ seqLt s.unsent b = true
    · rw [if_pos hc]
      exact ⟨⟨hsize, hseg⟩, rfl, rfl⟩
    · rw [if_neg hc]
      cases hh : s.queue.head? with
      | none => exact ⟨⟨hsize, hseg⟩, rfl, rfl⟩
      | some hd =>
        obtain ⟨orig_start, v0⟩ := hd
        refine ⟨⟨?_, ?_⟩, rfl, rfl⟩
        · cases hh2 : (ackLoop b s.queue.length s.queue a 0).1.head? with
          | some hd2 =>
            obtain ⟨new_start, v1⟩ := hd2
            simp only [hh2]
            have := Nat.sub_le s.size (wsub new_start orig_start)
            omega
          | none =>
            simp only [hh2]
            omega
        · intro r hr
          simp only at hr
          exact hseg r (ackLoop_mem b s.queue.length _ _ _ r hr)
  | get p => exact ⟨⟨hsize, hseg⟩, rfl, rfl⟩

theorem sendRun_inv_aux (ops : List SendOp) :
    ∀ s : SendBuffer, SendInv s →
      SendInv (ops.foldl sendStep s) ∧ (ops.foldl sendStep s).limit = s.limit ∧
        (ops.foldl sendStep s).mss = s.mss := by
  induction ops with
  | nil =>
    intro s h
    exact ⟨h, rfl, rfl⟩
  | cons op rest ih =>
    intro s h
    obtain ⟨h1, h2, h3⟩ := sendStep_inv h op
    obtain ⟨g1, g2, g3⟩ := ih (sendStep s op) h1
    exact ⟨g1, by rw [List.foldl_cons]; omega, by rw [List.foldl_cons]; omega⟩

/-- C8: in every state reachable from `SendBuffer::new(limit, mss)` by
any sequence of `push_back`/`pop_unsent`/`get`/`ack` calls, `push_back`
returns `false` and mutates nothing exactly when
`size + len(bytes) > limit`, `size <= limit` holds, every stored segment
is at most `mss` bytes, and neither `pop_unsent` nor `get` ever returns
more than `mss` bytes. -/
theorem c8_sendbuffer_invariants (limit mss : Nat) (ops : List SendOp) :
    (sendRun limit mss ops).size ≤ (sendRun limit mss ops).limit ∧
    (∀ r ∈ (sendRun limit mss ops).queue,
      r.2.length ≤ (sendRun limit mss ops).mss) ∧
    (∀ data : List Nat,
      (((sendRun limit mss ops).push_back data).1 = false ↔
        (sendRun limit mss ops).size + data.length > (sendRun limit mss ops).limit) ∧
      (((sendRun limit mss ops).push_back data).1 = false →
        ((sendRun limit mss ops).push_back data).2 = sendRun limit mss ops)) ∧
    (∀ pos d, (sendRun limit mss ops).pop_unsent.1 = some (pos, d) →
      d.length ≤ (sendRun limit mss ops).mss) ∧
    (∀ pos d, (sendRun limit mss ops).get pos = some d →
      d.length ≤ (sendRun limit mss ops).mss) := by
  have hinit : SendInv (SendBuffer.new limit mss) := by
    constructor
    · exact Nat.zero_le _
    · intro r hr
      simp [SendBuffer.new] at hr
  obtain ⟨⟨hsize, hseg⟩, _, _⟩ := sendRun_inv_aux ops (SendBuffer.new limit mss) hinit
  refine ⟨hsize, hseg, ?_, ?_, ?_⟩
  · intro data
    constructor
    · by_cases hcond : (sendRun limit mss ops).size + data.length >
          (sendRun limit mss ops).limit
      · rw [SendBuffer.push_back, if_pos hcond]
        simpa using hcond
      · rw [SendBuffer.push_back, if_neg hcond]
        simpa using hcond
    · intro hf
      by_cases hcond : (sendRun limit mss ops).size + data.length >
          (sendRun limit mss ops).limit
      · rw [SendBuffer.push_back, if_pos hcond]
      · rw [SendBuffer.push_back, if_neg hcond] at hf
        simp at hf
  · intro pos d hp
    rw [SendBuffer.pop_unsent] at hp
    by_cases hc : seqLe (sendRun limit mss ops).enqueue (sendRun limit mss ops).unsent = true
    · rw [if_pos hc] at hp
      simp at hp
    · rw [if_neg hc] at hp
      cases hl : btLookup (sendRun limit mss ops).unsent (sendRun limit mss ops).queue with
      | some d2 =>
        rw [hl] at hp
        simp only [Option.some.injEq, Prod.mk.injEq] at hp
        obtain ⟨a, ha⟩ := btLookup_mem hl
        have := hseg (a, d2) ha
        rw [hp.2] at this
        exact this
      | none =>
        rw [hl] at hp
        simp at hp
  · intro pos d hg
    rw [SendBuffer.get] at hg
    obtain ⟨a, ha⟩ := btLookup_mem hg
    exact hseg (a, d) ha

/-- Witness for C8 on the run `push [1,2,3]; pop` with
`limit = 10, mss = 2`. -/
theorem c8_sendbuffer_invariants_witness :
    (sendRun 10 2 [SendOp.push [1, 2, 3], SendOp.pop]).size ≤
      (sendRun 10 2 [SendOp.push [1, 2, 3], SendOp.pop]).limit ∧
    (∀ r ∈ (sendRun 10 2 [SendOp.push [1, 2, 3], SendOp.pop]).queue,
      r.2.length ≤ (sendRun 10 2 [SendOp.push [1, 2, 3], SendOp.pop]).mss) ∧
    (∀ data : List Nat,
      (((sendRun 10 2 [SendOp.push [1, 2, 3], SendOp.pop]).push_back data).1 = false ↔
        (sendRun 10 2 [SendOp.push [1, 2, 3], SendOp.pop]).size + data.length >
          (sendRun 10 2 [SendOp.push [1, 2, 3], SendOp.pop]).limit) ∧
      (((sendRun 10 2 [SendOp.push [1, 2, 3], SendOp.pop]).push_back data).1 = false →
        ((sendRun 10 2 [SendOp.push [1, 2, 3], SendOp.pop]).push_back data).2 =
          sendRun 10 2 [SendOp.push [1, 2, 3], SendOp.pop])) ∧
    (∀ pos d, (sendRun 10 2 [SendOp.push [1, 2, 3], SendOp.pop]).pop_unsent.1 =
        some (pos, d) →
      d.length ≤ (sendRun 10 2 [SendOp.push [1, 2, 3], SendOp.pop]).mss) ∧
    (∀ pos d, (sendRun 10 2 [SendOp.push [1, 2, 3], SendOp.pop]).get pos = some d →
      d.length ≤ (sendRun 10 2 [SendOp.push [1, 2, 3], SendOp.pop]).mss) :=
  c8_sendbuffer_invariants 10 2 [SendOp.push [1, 2, 3], SendOp.pop]

theorem keysSorted_filter {α : Type} {q : List (Nat × α)} (p : Nat × α → Bool)
    (h : keysSorted q) : keysSorted (q.filter p) := by
  induction q with
  | nil => exact trivial
  | cons hd tl ih =>
    obtain ⟨k, d⟩ := hd
    obtain ⟨h1, h2⟩ := h
    rw [List.filter_cons]
    by_cases hp : p (k, d) = true
    · simp only [hp, if_true]
      exact ⟨fun r hr => h1 r (List.mem_of_mem_filter hr), ih h2⟩
    · simp only [hp, Bool.false_eq_true, if_false]
      exact ih h2

theorem ackFirstIn_spec (st en : Nat) (q : List (Nat × List Nat))
    (hsort : keysSorted q) (hkeys : ∀ r ∈ q, r.1 < H) (hst : st < H) (hen : en < H) :
    (ackFirstIn st en q = none → ∀ r ∈ q, ¬(st ≤ r.1 ∧ r.1 < en)) ∧
    (∀ pos, ackFirstIn st en q = some pos →
      st ≤ pos ∧ pos < en ∧ (∃ d, (pos, d) ∈ q) ∧
      ∀ r ∈ q, st ≤ r.1 → r.1 < en → pos ≤ r.1) := by
  induction q with
  | nil =>
    refine ⟨fun _ r hr => absurd hr (List.not_mem_nil r), fun pos hp => ?_⟩
    simp [ackFirstIn] at hp
  | cons hd tl ih =>
    obtain ⟨k, d⟩ := hd
    obtain ⟨h1, h2⟩ := hsort
    have hkH : k < H := hkeys (k, d) (by simp)
    have hkt : ∀ r ∈ tl, r.1 < H := fun r hr => hkeys r (List.mem_cons_of_mem _ hr)
    obtain ⟨ihn, ihs⟩ := ih h2 hkt
    by_cases hc : seqLe st k = true ∧ seqLt k en = true
    · have hc' : st ≤ k ∧ k < en :=
        ⟨(seqLe_iff_le hst hkH).mp hc.1, (seqLt_iff_lt hkH hen).mp hc.2⟩
      constructor
      · intro hnone
        rw [ackFirstIn, if_pos hc] at hnone
        exact absurd hnone (by simp)
      · intro pos hp
        rw [ackFirstIn, if_pos hc] at hp
        simp only [Option.some.injEq] at hp
        subst hp
        refine ⟨hc'.1, hc'.2, ⟨d, by simp⟩, ?_⟩
        intro r hr _ _
        rcases List.mem_cons.mp hr with h' | h'
        · subst h'
          exact Nat.le_refl _
        · exact Nat.le_of_lt (h1 r h')
    · have hc' : ¬(st ≤ k ∧ k < en) := by
        intro ⟨ha, hb⟩
        exact hc ⟨(seqLe_iff_le hst hkH).mpr ha, (seqLt_iff_lt hkH hen).mpr hb⟩
      constructor
      · intro hnone r hr
        rw [ackFirstIn, if_neg hc] at hnone
        rcases List.mem_cons.mp hr with h' | h'
        · subst h'
          exact hc'
        · exact ihn hnone r h'
      · intro pos hp
        rw [ackFirstIn, if_neg hc] at hp
        obtain ⟨ha, hb, ⟨d2, hd2⟩, hmin⟩ := ihs pos hp
        refine ⟨ha, hb, ⟨d2, List.mem_cons_of_mem _ hd2⟩, ?_⟩
        intro r hr hr1 hr2
        rcases List.mem_cons.mp hr with h' | h'
        · subst h'
          exact absurd ⟨hr1, hr2⟩ hc'
        · exact hmin r h' hr1 hr2

theorem length_filter_key_split (st en pos : Nat) (q : List (Nat × List Nat))
    (hsort : keysSorted q) (hmem : ∃ d, (pos, d) ∈ q)
    (hin : st ≤ pos ∧ pos < en) :
    (q.filter (fun r => decide (st ≤ r.1) && decide (r.1 < en))).length =
      (q.filter (fun r => r.1 != pos &&
        (decide (st ≤ r.1) && decide (r.1 < en)))).length + 1 := by
  induction q with
  | nil =>
    obtain ⟨d, hd⟩ := hmem
    exact absurd hd (List.not_mem_nil _)
  | cons hd tl ih =>
    obtain ⟨k, v⟩ := hd
    obtain ⟨h1, h2⟩ := hsort
    by_cases hk : k = pos
    · subst hk
      have hhead : (decide (st ≤ (k, v).1) && decide ((k, v).1 < en)) = true := by
        simp only [decide_eq_true_eq, Bool.and_eq_true]
        exact ⟨by simpa using hin.1, by simpa using hin.2⟩
      rw [List.filter_cons, List.filter_cons]
      simp only [hhead, bne_self_eq_false, Bool.false_and, Bool.false_eq_true,
        if_false, if_true]
      have heq : List.filter (fun r => r.1 != k &&
            (decide (st ≤ r.1) && decide (r.1 < en))) tl =
          List.filter (fun r => decide (st ≤ r.1) && decide (r.1 < en)) tl := by
        apply List.filter_congr
        intro r hr
        have := h1 r hr
        have hne : r.1 ≠ k := by omega
        simp [hne]
      rw [heq]
      simp
    · have hmem' : ∃ d, (pos, d) ∈ tl := by
        obtain ⟨d, hd⟩ := hmem
        rcases List.mem_cons.mp hd with h' | h'
        · exact absurd (congrArg Prod.fst h').symm hk
        · exact ⟨d, h'⟩
      have hhead : ((k, v).1 != pos) = true := by
        simp only [bne_iff_ne, ne_eq]
        exact hk
      rw [List.filter_cons, List.filter_cons]
      simp only [hhead, Bool.true_and]
      by_cases hir : (decide (st ≤ (k, v).1) && decide ((k, v).1 < en)) = true
      · simp only [hir, if_true]
        rw [List.length_cons, List.length_cons]
        rw [ih h2 hmem']
      · simp only [hir, Bool.false_eq_true, if_false]
        exact ih h2 hmem'

theorem ackLoop_spec (en : Nat) (fuel : Nat) :
    ∀ (q : List (Nat × List Nat)) (st acked : Nat),
      q.length ≤ fuel → keysSorted q → (∀ r ∈ q, r.1 < H) → st < H → en < H →
      ackLoop en fuel q st acked =
        (q.filter (fun r => !(decide (st ≤ r.1) && decide (r.1 < en))),
         acked + (q.filter (fun r => decide (st ≤ r.1) && decide (r.1 < en))).length) := by
  induction fuel with
  | zero =>
    intro q st acked hlen hsort hkeys hst hen
    have hq : q = [] := List.eq_nil_of_length_eq_zero (by omega)
    subst hq
    simp [ackLoop]
  | succ fuel ih =>
    intro q st acked hlen hsort hkeys hst hen
    rw [ackLoop]
    obtain ⟨hnone, hsome⟩ := ackFirstIn_spec st en q hsort hkeys hst hen
    cases hf : ackFirstIn st en q with
    | none =>
      have hall := hnone hf
      have h1 : q.filter (fun r => !(decide (st ≤ r.1) && decide (r.1 < en))) = q := by
        apply List.filter_eq_self.mpr
        intro r hr
        have hx := hall r hr
        simp only [Bool.not_eq_true', Bool.and_eq_true, decide_eq_true_eq] at *
        by_cases ha : st ≤ r.1
        · by_cases hb : r.1 < en
          · exact absurd ⟨ha, hb⟩ hx
          · simp [ha, hb]
        · simp [ha]
      have h2 : q.filter (fun r => decide (st ≤ r.1) && decide (r.1 < en)) = [] := by
        apply List.filter_eq_nil_iff.mpr
        intro r hr
        have hx := hall r hr
        simp only [Bool.and_eq_true, decide_eq_true_eq]
        exact hx
      rw [h1, h2]
      simp
    | some pos =>
      obtain ⟨hsp1, hsp2, hmem, hmin⟩ := hsome pos hf
      have hp1 : (pos + 1) % M = pos + 1 :=
        Nat.mod_eq_of_lt (by unfold M H at *; omega)
      dsimp only
      rw [hp1]
      have hlen2 : (q.filter (fun r => r.1 != pos)).length ≤ fuel := by
        have hlt : (q.filter (fun r => r.1 != pos)).length < q.length := by
          apply List.length_filter_lt_length_iff_exists.mpr
          obtain ⟨d, hd⟩ := hmem
          exact ⟨(pos, d), hd, by simp⟩
        omega
      rw [ih _ _ _ hlen2 (keysSorted_filter _ hsort)
        (fun r hr => hkeys r (List.mem_of_mem_filter hr)) (by omega) hen]
      rw [List.filter_filter, List.filter_filter]
      rw [Prod.mk.injEq]
      have hpt : ∀ r, r ∈ q → r.1 ≠ pos →
          ((decide (pos + 1 ≤ r.1) && decide (r.1 < en)) =
            (decide (st ≤ r.1) && decide (r.1 < en))) := by
        intro r hr hne
        have hm := hmin r hr
        rcases Nat.lt_or_ge r.1 en with h2 | h2
        · rcases Nat.lt_or_ge r.1 st with hx | hx
          · have hx2 : ¬ (pos + 1 ≤ r.1) := by omega
            have hx3 : ¬ (st ≤ r.1) := by omega
            simp [hx2, hx3]
          · have := hm hx h2
            have hx3 : pos + 1 ≤ r.1 := by omega
            simp [hx, hx3]
        · have hx2 : ¬ (r.1 < en) := by omega
          simp [hx2]
      refine ⟨?_, ?_⟩
      · apply List.filter_congr
        intro r hr
        by_cases hne : r.1 = pos
        · have : (r.1 != pos) = false := by
            simp [hne]
          rw [this]
          have h1 : st ≤ r.1 := by omega
          have h2 : r.1 < en := by omega
          simp [h1, h2]
        · have : (r.1 != pos) = true := by
            simp [hne]
          rw [this]
          simp only [Bool.and_true]
          rw [Bool.not_inj_iff]
          exact hpt r hr hne
      · have heq : q.filter (fun a =>
            (decide (pos + 1 ≤ a.1) && decide (a.1 < en)) && (a.1 != pos)) =
            q.filter (fun r => r.1 != pos &&
              (decide (st ≤ r.1) && decide (r.1 < en))) := by
          apply List.filter_congr
          intro r hr
          by_cases hne : r.1 = pos
          · have hb : (r.1 != pos) = false := by
              simp [hne]
            rw [hb]
            simp
          · have hb : (r.1 != pos) = true := by
              simp [hne]
            rw [hb]
            simp only [Bool.and_true, Bool.true_and]
            exact hpt r hr hne
        rw [heq]
        rw [length_filter_key_split st en pos q hsort hmem ⟨hsp1, hsp2⟩]
        omega

/-- Counterexample to C4 as stated: on the state with an empty queue,
`unsent = enqueue = 5` and (unreachable) `size = 7`, the call `ack(0, 5)`
passes the guard (`0 < 5`, `0 < unsent`, `5 <= unsent`), removes nothing
and returns `0`, but leaves `size = 7` instead of setting it to `0` as
the claim's "size becomes 0 if no segment remains" requires: the code
skips the size update entirely when the queue is already empty. -/
theorem c4_ack_empty_queue_counterexample :
    ¬ (5 ≤ 0 ∨ (5 : Nat) ≤ 0 ∨ (5 : Nat) < 5) ∧
    SendBuffer.ack ⟨[], 5, 5, 7, 100, 10⟩ 0 5 =
      (0, (⟨[], 5, 5, 7, 100, 10⟩ : SendBuffer)) ∧
    (SendBuffer.ack ⟨[], 5, 5, 7, 100, 10⟩ 0 5).2.size ≠ 0 := by
  refine ⟨by decide, rfl, by decide⟩

/-- C4 (amended): on states satisfying the sorted-queue/size invariants
(within the comparator half-window), `ack(start, end)` returns `0` and
changes nothing when `end <= start`, `start >= unsent` or `end > unsent`,
and likewise when the queue is already empty; otherwise it removes
exactly the segments keyed in `[start, end)`, returns their count, and
the new `size` is the old `size` decreased by the distance the earliest
remaining key advanced past the previous earliest key (`0` if none
remains). -/
theorem c4_sendbuffer_ack_correct (s : SendBuffer) (st en : Nat)
    (hwf : SendAckWf s) (hst : st < H) (hen : en < H) :
    ((en ≤ st ∨ s.unsent ≤ st ∨ s.unsent < en) → s.ack st en = (0, s)) ∧
    (s.queue = [] → s.ack st en = (0, s)) ∧
    (st < en → st < s.unsent → en ≤ s.unsent →
      ∀ k0 d0 rest0, s.queue = (k0, d0) :: rest0 →
        s.ack st en =
          ((s.queue.filter (fun r => decide (st ≤ r.1) && decide (r.1 < en))).length,
            { s with
              queue :=
                s.queue.filter (fun r => !(decide (st ≤ r.1) && decide (r.1 < en)))
              size :=
                match (s.queue.filter (fun r =>
                    !(decide (st ≤ r.1) && decide (r.1 < en)))).head? with
                | some (nk, _) => s.size - (nk - k0)
                | none => 0 })) := by
  obtain ⟨hu, he, hsort, hkeys, hsz⟩ := hwf
  clear hsz
  refine ⟨?_, ?_, ?_⟩
  · intro hg
    have hgb : seqLe en st = true ∨ seqLe s.unsent st = true ∨
        seqLt s.unsent en = true := by
      rcases hg with h | h | h
      · exact Or.inl ((seqLe_iff_le hen hst).mpr h)
      · exact Or.inr (Or.inl ((seqLe_iff_le hu hst).mpr h))
      · exact Or.inr (Or.inr ((seqLt_iff_lt hu hen).mpr h))
    rw [SendBuffer.ack, if_pos hgb]
  · intro hq
    rw [SendBuffer.ack]
    by_cases hgb : seqLe en st = true ∨ seqLe s.unsent st = true ∨
        seqLt s.unsent en = true
    · rw [if_pos hgb]
    · rw [if_neg hgb, hq]
      rfl
  · intro h1 h2 h3 k0 d0 rest0 hq
    have hgb : ¬(seqLe en st = true ∨ seqLe s.unsent st = true ∨
        seqLt s.unsent en = true) := by
      rintro (h | h | h)
      · have := (seqLe_iff_le hen hst).mp h
        omega
      · have := (seqLe_iff_le hu hst).mp h
        omega
      · have := (seqLt_iff_lt hu hen).mp h
        omega
    rw [SendBuffer.ack, if_neg hgb, hq]
    dsimp only [List.head?_cons]
    have hsort2 : keysSorted ((k0, d0) :: rest0) := by
      rw [← hq]
      exact hsort
    have hkeys2 : ∀ r ∈ (k0, d0) :: rest0, r.1 < H := by
      intro r hr
      exact (hkeys r (by rw [hq]; exact hr)).1
    rw [ackLoop_spec en ((k0, d0) :: rest0).length ((k0, d0) :: rest0) st 0
      (Nat.le_refl _) hsort2 hkeys2 hst hen]
    dsimp only
    rw [Prod.mk.injEq]
    constructor
    · omega
    · have hk0min : ∀ r ∈ (k0, d0) :: rest0, k0 ≤ r.1 := by
        intro r hr
        rcases List.mem_cons.mp hr with h' | h'
        · subst h'
          exact Nat.le_refl _
        · exact Nat.le_of_lt (hsort2.1 r h')
      cases hh : ((((k0, d0) :: rest0)).filter
          (fun r => !(decide (st ≤ r.1) && decide (r.1 < en)))).head? with
      | some nkd =>
        obtain ⟨nk, nd⟩ := nkd
        have hnk : (nk, nd) ∈ (k0, d0) :: rest0 := by
          have := List.mem_of_mem_filter (List.mem_of_mem_head? hh)
          exact this
        have hnkH : nk < H := hkeys2 (nk, nd) hnk
        have hnkk0 : k0 ≤ nk := hk0min (nk, nd) hnk
        dsimp only
        rw [wsub_small nk k0 hnkk0 (by unfold M H at *; omega)]
      | none => rfl

/-- Witness for C4 (amended) on the state
`queue = [(0, 4 bytes), (4, 4 bytes)], enqueue = 8, unsent = 8, size = 8`
with `ack(4, 8)`: the second segment is removed, one segment is counted,
and `size` stays `8` because the earliest key `0` did not advance. -/
theorem c4_sendbuffer_ack_correct_witness :
    SendBuffer.ack ⟨[(0, [1, 2, 3, 4]), (4, [5, 6, 7, 8])], 8, 8, 8, 100, 4⟩ 4 8 =
      (1, { (⟨[(0, [1, 2, 3, 4]), (4, [5, 6, 7, 8])], 8, 8, 8, 100, 4⟩ : SendBuffer) with
        queue := [(0, [1, 2, 3, 4])]
        size := 8 - (0 - 0) }) := by
  have h := c4_sendbuffer_ack_correct
    ⟨[(0, [1, 2, 3, 4]), (4, [5, 6, 7, 8])], 8, 8, 8, 100, 4⟩ 4 8
    (by exact ⟨by decide, by decide, by decide, by decide, rfl⟩)
    (by decide) (by decide)
  have h2 := h.2.2 (by decide) (by decide) (by decide) 0 [1, 2, 3, 4]
    [(4, [5, 6, 7, 8])] rfl
  rw [h2]
  rfl

theorem wsub_self (a : Nat) : wsub a a = 0 := by
  unfold wsub M
  omega

theorem wsub_inj {E x y : Nat} (hx : x < M) (hy : y < M)
    (h : wsub E x = wsub E y) : x = y := by
  unfold wsub M at *
  omega

theorem wsub_advance {E u : Nat} (hu : u < M) (l : Nat) (hl : l ≤ wsub E u) :
    wsub E ((u + l) % M) = wsub E u - l := by
  unfold wsub M at *
  omega

theorem wsub_rebase {E x c : Nat} (hE : E < M) (hc : wsub E x + c < M) :
    wsub ((E + c) % M) x = wsub E x + c := by
  unfold wsub M at *
  omega

theorem seqLt_iff_bwd {E x y : Nat} (hx : x < M) (hy : y < M)
    (hxE : wsub E x < H) (hyE : wsub E y < H) :
    (seqLt x y = true ↔ wsub E y < wsub E x) := by
  unfold seqLt wsub M H at *
  have hxM : x % 4294967296 = x := Nat.mod_eq_of_lt hx
  have hyM : y % 4294967296 = y := Nat.mod_eq_of_lt hy
  simp only [hxM, hyM, Bool.and_eq_true, bne_iff_ne, ne_eq, decide_eq_true_eq]
  omega

theorem seqLe_iff_bwd {E x y : Nat} (hx : x < M) (hy : y < M)
    (hxE : wsub E x < H) (hyE : wsub E y < H) :
    (seqLe x y = true ↔ wsub E y ≤ wsub E x) := by
  unfold seqLe seqLt wsub M H at *
  have hxM : x % 4294967296 = x := Nat.mod_eq_of_lt hx
  have hyM : y % 4294967296 = y := Nat.mod_eq_of_lt hy
  simp only [hxM, hyM, Bool.or_eq_true, beq_iff_eq, Bool.and_eq_true, bne_iff_ne,
    ne_eq, decide_eq_true_eq]
  omega

theorem btInsert_append {α : Type} (k : Nat) (v : α) (l : List (Nat × α))
    (hk : k < M) (h : ∀ a ∈ l, a.1 < M ∧ 0 < wsub k a.1 ∧ wsub k a.1 < H) :
    btInsert k v l = l ++ [(k, v)] := by
  induction l with
  | nil => rfl
  | cons hd tl ih =>
    obtain ⟨a, b⟩ := hd
    obtain ⟨ha1, ha2, ha3⟩ := h (a, b) (by simp)
    simp only at ha1 ha2 ha3
    have hlt : seqLt k a = false := by
      apply Bool.eq_false_iff.mpr
      intro hx
      unfold seqLt at hx
      simp only [Bool.and_eq_true, bne_iff_ne, ne_eq, decide_eq_true_eq] at hx
      omega
    have heq : (k % M == a % M) = false := by
      simp only [beq_eq_false_iff_ne, ne_eq]
      intro hx
      have : k = a := by
        unfold M at *
        omega
      subst this
      rw [wsub_self] at ha2
      omega
    rw [btInsert, if_neg (by simp [hlt]), if_neg (by simp [heq]),
      ih (fun a ha => h a (List.mem_cons_of_mem _ ha))]
    rfl

theorem btInsert_replace {α : Type} (pos : Nat) (v w : α) (l2 : List (Nat × α))
    (hp : pos < M)
    (h : ∀ a ∈ l2, a.1 < M ∧ 0 < wsub pos a.1 ∧ wsub pos a.1 < H) :
    btInsert pos v (l2 ++ [(pos, w)]) = l2 ++ [(pos, v)] := by
  induction l2 with
  | nil =>
    rw [List.nil_append, btInsert]
    have hlt : seqLt pos pos = false := by
      apply Bool.eq_false_iff.mpr
      intro hx
      unfold seqLt at hx
      simp at hx
    rw [if_neg (by simp [hlt]), if_pos (by simp)]
    rfl
  | cons hd tl ih =>
    obtain ⟨a, b⟩ := hd
    obtain ⟨ha1, ha2, ha3⟩ := h (a, b) (by simp)
    simp only at ha1 ha2 ha3
    have hlt : seqLt pos a = false := by
      apply Bool.eq_false_iff.mpr
      intro hx
      unfold seqLt at hx
      simp only [Bool.and_eq_true, bne_iff_ne, ne_eq, decide_eq_true_eq] at hx
      omega
    have heq : (pos % M == a % M) = false := by
      simp only [beq_eq_false_iff_ne, ne_eq]
      intro hx
      have : pos = a := by
        unfold M at *
        omega
      subst this
      rw [wsub_self] at ha2
      omega
    rw [List.cons_append, btInsert, if_neg (by simp [hlt]), if_neg (by simp [heq]),
      ih (fun a ha => h a (List.mem_cons_of_mem _ ha))]
    rfl

theorem btLookup_append_right {α : Type} (u : Nat) (pre rest : List (Nat × α))
    (h : ∀ r ∈ pre, ¬(u % M = r.1 % M)) :
    btLookup u (pre ++ rest) = btLookup u rest := by
  induction pre with
  | nil => rfl
  | cons hd tl ih =>
    obtain ⟨a, b⟩ := hd
    have := h (a, b) (by simp)
    rw [List.cons_append, btLookup, if_neg (by simpa using this)]
    exact ih (fun r hr => h r (List.mem_cons_of_mem _ hr))

theorem btLookup_cons_self {α : Type} (u : Nat) (d : α) (t : List (Nat × α)) :
    btLookup u ((u, d) :: t) = some d := by
  rw [btLookup, if_pos (by simp)]

theorem chainFrom_concat {E E2 : Nat} :
    ∀ (suf segs : List (Nat × List Nat)) (u : Nat),
      ChainFrom E suf u → ChainFrom E2 segs E → ChainFrom E2 (suf ++ segs) u := by
  intro suf
  induction suf with
  | nil =>
    intro segs u h1 h2
    rw [show u = E from h1]
    exact h2
  | cons hd tl ih =>
    intro segs u h1 h2
    obtain ⟨k, d⟩ := hd
    obtain ⟨hk, hd0, hrest⟩ := h1
    exact ⟨hk, hd0, ih segs _ hrest h2⟩

theorem chain_key_bwd {E : Nat} (hE : E < M) :
    ∀ (suf : List (Nat × List Nat)) (u : Nat), u < M → ChainFrom E suf u →
      sufLen suf = wsub E u →
      ∀ r ∈ suf, r.1 < M ∧ 0 < wsub E r.1 ∧ wsub E r.1 ≤ wsub E u := by
  intro suf
  induction suf with
  | nil =>
    intro u _ _ _ r hr
    exact absurd hr (List.not_mem_nil r)
  | cons hd tl ih =>
    intro u hu hchain hlen
    obtain ⟨k, d⟩ := hd
    obtain ⟨hk, hd0, hrest⟩ := hchain
    subst hk
    have hlen' : sufLen tl = wsub E ((k + d.length) % M) := by
      rw [wsub_advance hu]
      · have : sufLen ((k, d) :: tl) = d.length + sufLen tl := by
          simp [sufLen]
        omega
      · have : sufLen ((k, d) :: tl) = d.length + sufLen tl := by
          simp [sufLen]
        omega
    intro r hr
    rcases List.mem_cons.mp hr with h' | h'
    · subst h'
      have hsl : sufLen ((k, d) :: tl) = d.length + sufLen tl := by
        simp [sufLen]
      refine ⟨hu, ?_, Nat.le_refl _⟩
      show 0 < wsub E k
      omega
    · have hu' : (k + d.length) % M < M := Nat.mod_lt _ (by unfold M; omega)
      obtain ⟨g1, g2, g3⟩ := ih ((k + d.length) % M) hu' hrest hlen' r h'
      refine ⟨g1, g2, ?_⟩
      have := wsub_advance (E := E) hu d.length (by
        have : sufLen ((k, d) :: tl) = d.length + sufLen tl := by
          simp [sufLen]
        omega)
      omega

theorem pushLoop_spec (data : List Nat) (mss : Nat) (hm : 1 ≤ mss)
    (hdata : data.length < H) :
    ∀ (fuel : Nat) (q : List (Nat × List Nat)) (E off : Nat),
      data.length - off ≤ fuel → E < M →
      (∀ r ∈ q, r.1 < M ∧ 0 < wsub E r.1 ∧
        wsub E r.1 + (data.length - off) < H) →
      ∃ segs,
        (pushLoop data mss fuel q E off).1 = q ++ segs ∧
        (pushLoop data mss fuel q E off).2 = (E + (data.length - off)) % M ∧
        ChainFrom ((E + (data.length - off)) % M) segs E ∧
        sufLen segs = data.length - off := by
  intro fuel
  induction fuel with
  | zero =>
    intro q E off hfuel hE hq
    have hz : data.length - off = 0 := by omega
    refine ⟨[], by simp [pushLoop], ?_, ?_, by simp [sufLen, hz]⟩
    · rw [pushLoop, hz, Nat.add_zero, Nat.mod_eq_of_lt hE]
    · rw [hz, Nat.add_zero, Nat.mod_eq_of_lt hE]
      exact rfl
  | succ fuel ih =>
    intro q E off hfuel hE hq
    by_cases hoff : off < data.length
    · rw [pushLoop, if_pos hoff]
      dsimp only
      set cl := if mss < data.length - off then mss else data.length - off with hcl
      have hcl1 : 1 ≤ cl := by
        rw [hcl]
        by_cases hc : mss < data.length - off
        · rw [if_pos hc]
          omega
        · rw [if_neg hc]
          omega
      have hcl2 : cl ≤ data.length - off := by
        rw [hcl]
        by_cases hc : mss < data.length - off
        · rw [if_pos hc]
          omega
        · rw [if_neg hc]
      have hseglen : ((data.drop off).take cl).length = cl := by
        simp only [List.length_take, List.length_drop]
        omega
      have hqins : btInsert E ((data.drop off).take cl) q =
          q ++ [(E, (data.drop off).take cl)] := by
        apply btInsert_append E _ q hE
        intro a ha
        obtain ⟨g1, g2, g3⟩ := hq a ha
        exact ⟨g1, g2, by omega⟩
      rw [hqins]
      have hE2 : (E + cl) % M < M := Nat.mod_lt _ (by unfold M; omega)
      have harg : ∀ r ∈ q ++ [(E, (data.drop off).take cl)], r.1 < M ∧
          0 < wsub ((E + cl) % M) r.1 ∧
          wsub ((E + cl) % M) r.1 + (data.length - (off + cl)) < H := by
        intro r hr
        rcases List.mem_append.mp hr with h' | h'
        · obtain ⟨g1, g2, g3⟩ := hq r h'
          have hreb : wsub ((E + cl) % M) r.1 = wsub E r.1 + cl :=
            wsub_rebase hE (by unfold M H at *; omega)
          refine ⟨g1, by omega, by omega⟩
        · have : r = (E, (data.drop off).take cl) := by simpa using h'
          subst this
          have hreb : wsub ((E + cl) % M) E = 0 + cl := by
            have := wsub_self E
            exact this ▸ wsub_rebase hE (by unfold M H at *; omega)
          simp only
          refine ⟨hE, by omega, by omega⟩
      obtain ⟨segs, hs1, hs2, hs3, hs4⟩ := ih (q ++ [(E, (data.drop off).take cl)])
        ((E + cl) % M) (off + cl) (by omega) hE2 harg
      refine ⟨(E, (data.drop off).take cl) :: segs, ?_, ?_, ?_, ?_⟩
      · rw [hs1, List.append_assoc]
        rfl
      · rw [hs2, Nat.mod_add_mod]
        congr 1
        omega
      · have hE3 : ((E + cl) % M + (data.length - (off + cl))) % M =
            (E + (data.length - off)) % M := by
          rw [Nat.mod_add_mod]
          congr 1
          omega
        rw [hE3] at hs3
        refine ⟨rfl, ?_, ?_⟩
        · rw [hseglen]
          omega
        · rw [hseglen]
          exact hs3
      · have hsc : sufLen ((E, (data.drop off).take cl) :: segs) =
            ((data.drop off).take cl).length + sufLen segs := by
          simp [sufLen]
        rw [hsc, hseglen, hs4]
        omega
    · rw [pushLoop, if_neg hoff]
      have hz : data.length - off = 0 := by omega
      refine ⟨[], by simp, ?_, ?_, by simp [sufLen, hz]⟩
      · rw [hz, Nat.add_zero, Nat.mod_eq_of_lt hE]
      · rw [hz, Nat.add_zero, Nat.mod_eq_of_lt hE]
        exact rfl

theorem exists_last_decomp {α : Type} (l : List α) (h : l ≠ []) :
    ∃ l2 a, l = l2 ++ [a] :=
  ⟨l.dropLast, l.getLast h, (List.dropLast_append_getLast h).symm⟩

theorem wsub_between {E x y : Nat} (hx : x < M) (hy : y < M)
    (hle : wsub E y ≤ wsub E x) : wsub y x = wsub E x - wsub E y := by
  unfold wsub M at *
  omega

theorem chainFrom_extend_last {E : Nat} (c : Nat) (w extra : List Nat)
    (hex : extra.length = c) :
    ∀ (l2 : List (Nat × List Nat)) (u pos : Nat),
      ChainFrom E (l2 ++ [(pos, w)]) u →
      ChainFrom ((E + c) % M) (l2 ++ [(pos, w ++ extra)]) u := by
  intro l2
  induction l2 with
  | nil =>
    intro u pos hch
    obtain ⟨hk, hw, hrest⟩ := hch
    have hE : (u + w.length) % M = E := hrest
    refine ⟨hk, by simp only [List.length_append]; omega, ?_⟩
    show (u + (w ++ extra).length) % M = (E + c) % M
    rw [List.length_append, hex, ← hE, Nat.mod_add_mod, ← Nat.add_assoc]
  | cons hd l2 ih =>
    intro u pos hch
    obtain ⟨k, d⟩ := hd
    obtain ⟨hk, hw, hrest⟩ := hch
    exact ⟨hk, hw, ih _ _ hrest⟩

theorem chain_last_lt {E : Nat} (hE : E < M) :
    ∀ (l2 : List (Nat × List Nat)) (pos : Nat) (w : List Nat) (u : Nat),
      u < M → ChainFrom E (l2 ++ [(pos, w)]) u →
      sufLen (l2 ++ [(pos, w)]) = wsub E u →
      ∀ a ∈ l2, wsub E pos < wsub E a.1 := by
  intro l2
  induction l2 with
  | nil =>
    intro pos w u _ _ _ a ha
    exact absurd ha (List.not_mem_nil a)
  | cons hd l2 ih =>
    intro pos w u hu hch hlen a ha
    obtain ⟨k, d⟩ := hd
    obtain ⟨hk, hd1, hrest⟩ := hch
    subst hk
    have hsl : sufLen ((k, d) :: (l2 ++ [(pos, w)])) =
        d.length + sufLen (l2 ++ [(pos, w)]) := by
      simp [sufLen]
    have hlen0 : sufLen ((k, d) :: (l2 ++ [(pos, w)])) = wsub E k := hlen
    have hdl : d.length ≤ wsub E k := by omega
    have hu' : (k + d.length) % M < M := Nat.mod_lt _ (by unfold M; omega)
    have hadv : wsub E ((k + d.length) % M) = wsub E k - d.length :=
      wsub_advance hu d.length hdl
    have hlen' : sufLen (l2 ++ [(pos, w)]) = wsub E ((k + d.length) % M) := by
      omega
    rcases List.mem_cons.mp ha with h' | h'
    · subst h'
      have hmem : (pos, w) ∈ l2 ++ [(pos, w)] :=
        List.mem_append_right _ (List.mem_singleton.mpr rfl)
      obtain ⟨_, _, g3⟩ := chain_key_bwd hE _ _ hu' hrest hlen' (pos, w) hmem
      have g3' : wsub E pos ≤ wsub E ((k + d.length) % M) := g3
      show wsub E pos < wsub E k
      omega
    · have := ih pos w ((k + d.length) % M) hu' hrest hlen' a h'
      omega

theorem sufLen_append (a b : List (Nat × List Nat)) :
    sufLen (a ++ b) = sufLen a + sufLen b := by
  simp [sufLen]

theorem seqLt_eq_true_iff (a b : Nat) :
    seqLt a b = true ↔ (¬ a % M = b % M ∧ H ≤ wsub a b) := by
  unfold seqLt
  simp [Bool.and_eq_true, bne_iff_ne, decide_eq_true_eq]

theorem seqLe_eq_true_iff (a b : Nat) :
    seqLe a b = true ↔
      (a % M = b % M ∨ (¬ a % M = b % M ∧ H ≤ wsub a b)) := by
  unfold seqLe
  simp [Bool.or_eq_true, beq_iff_eq, seqLt_eq_true_iff]

theorem bwdSorted_append_last {E x : Nat} {d : List Nat} :
    ∀ pre : List (Nat × List Nat), bwdSorted E pre →
      (∀ r ∈ pre, wsub E x < wsub E r.1) → bwdSorted E (pre ++ [(x, d)]) := by
  intro pre
  induction pre with
  | nil =>
    intro _ _
    exact ⟨fun r hr => absurd hr (List.not_mem_nil r), trivial⟩
  | cons hd tl ih =>
    intro hs hlt
    obtain ⟨k, v⟩ := hd
    obtain ⟨h1, h2⟩ := hs
    refine ⟨?_, ih h2 (fun r hr => hlt r (List.mem_cons_of_mem _ hr))⟩
    intro r hr
    rcases List.mem_append.mp hr with h' | h'
    · exact h1 r h'
    · rw [List.mem_singleton.mp h']
      exact hlt (k, v) (by simp)

theorem bwdSorted_sublist {E : Nat} :
    ∀ {l1 l2 : List (Nat × List Nat)}, l1.Sublist l2 →
      bwdSorted E l2 → bwdSorted E l1 := by
  intro l1 l2 h
  induction h with
  | slnil =>
    intro _
    trivial
  | cons a h ih =>
    intro hs
    obtain ⟨k, v⟩ := a
    exact ih hs.2
  | cons₂ a h ih =>
    intro hs
    obtain ⟨k, v⟩ := a
    obtain ⟨h1, h2⟩ := hs
    exact ⟨fun r hr => h1 r (h.subset hr), ih h2⟩

theorem bwdSorted_rebase {E c : Nat} (hE : E < M) :
    ∀ l : List (Nat × List Nat), (∀ r ∈ l, wsub E r.1 + c < M) →
      bwdSorted E l → bwdSorted ((E + c) % M) l := by
  intro l
  induction l with
  | nil =>
    intro _ _
    trivial
  | cons hd tl ih =>
    intro hb hs
    obtain ⟨k, v⟩ := hd
    obtain ⟨h1, h2⟩ := hs
    refine ⟨?_, ih (fun r hr => hb r (List.mem_cons_of_mem _ hr)) h2⟩
    intro r hr
    have e1 : wsub ((E + c) % M) r.1 = wsub E r.1 + c :=
      wsub_rebase hE (hb r (List.mem_cons_of_mem _ hr))
    have e2 : wsub ((E + c) % M) k = wsub E k + c :=
      wsub_rebase hE (hb (k, v) (by simp))
    have := h1 r hr
    omega

theorem ackFirstIn_mem (st en : Nat) :
    ∀ (q : List (Nat × List Nat)) (pos : Nat),
      ackFirstIn st en q = some pos →
      (∃ d, (pos, d) ∈ q) ∧ seqLe st pos = true ∧ seqLt pos en = true := by
  intro q
  induction q with
  | nil =>
    intro pos h
    simp [ackFirstIn] at h
  | cons hd tl ih =>
    intro pos h
    obtain ⟨k, d⟩ := hd
    rw [ackFirstIn] at h
    by_cases hc : seqLe st k = true ∧ seqLt k en = true
    · rw [if_pos hc] at h
      obtain rfl : k = pos := Option.some.inj h
      exact ⟨⟨d, by simp⟩, hc.1, hc.2⟩
    · rw [if_neg hc] at h
      obtain ⟨⟨d2, hmem⟩, g1, g2⟩ := ih pos h
      exact ⟨⟨d2, List.mem_cons_of_mem _ hmem⟩, g1, g2⟩

theorem ack_chain_safe {E u st end_ k size : Nat} (hE : E < M) (hu : u < M)
    (hk : k < M) (hbu : wsub E u ≤ size) (hsize : size < H)
    (hbk : wsub E k ≤ wsub E u)
    (hinv : wsub E end_ < wsub E st ∨
      (wsub E end_ = wsub E st ∧ wsub E end_ < size))
    (hg3 : seqLt u end_ = false) :
    ¬(seqLe st k = true ∧ seqLt k end_ = true) := by
  intro hc
  obtain ⟨h1, h2⟩ := hc
  rw [seqLe_eq_true_iff] at h1
  rw [seqLt_eq_true_iff] at h2
  have g3 : ¬(¬ u % M = end_ % M ∧ H ≤ wsub u end_) := by
    rw [← seqLt_eq_true_iff, hg3]
    simp
  unfold wsub M H at *
  omega

theorem ack_step_inv {E u st end_ pos size : Nat} (hE : E < M) (hu : u < M)
    (hpos : pos < M)
    (hbu : wsub E u ≤ size) (hsize : size < H)
    (hbpos : wsub E pos ≤ size)
    (hinv : wsub E end_ < wsub E st ∨
      (wsub E end_ = wsub E st ∧ wsub E end_ < size))
    (hp : seqLe st pos = true) (hq : seqLt pos end_ = true) :
    wsub E end_ < wsub E ((pos + 1) % M) ∨
      (wsub E end_ = wsub E ((pos + 1) % M) ∧ wsub E end_ < size) := by
  rw [seqLe_eq_true_iff] at hp
  rw [seqLt_eq_true_iff] at hq
  unfold wsub M H at *
  omega

theorem ack_init_inv {E u st end_ : Nat} (hE : E < M) (hu : u < M)
    (hbu : wsub E u < H)
    (hg1 : seqLe end_ st = false) (hg2 : seqLe u st = false)
    (hg3 : seqLt u end_ = false) :
    wsub E end_ < wsub E st := by
  have g1 : ¬(end_ % M = st % M ∨
      (¬ end_ % M = st % M ∧ H ≤ wsub end_ st)) := by
    rw [← seqLe_eq_true_iff, hg1]
    simp
  have g2 : ¬(u % M = st % M ∨ (¬ u % M = st % M ∧ H ≤ wsub u st)) := by
    rw [← seqLe_eq_true_iff, hg2]
    simp
  have g3 : ¬(¬ u % M = end_ % M ∧ H ≤ wsub u end_) := by
    rw [← seqLt_eq_true_iff, hg3]
    simp
  unfold wsub M H at *
  omega

theorem ackLoop_c9 {E u end_ size : Nat} (hE : E < M) (hu : u < M)
    (hbu : wsub E u ≤ size) (hsize : size < H)
    (hg3 : seqLt u end_ = false) :
    ∀ (fuel : Nat) (pre suf : List (Nat × List Nat)) (st acked : Nat),
      (∀ r ∈ pre ++ suf, r.1 < M ∧ wsub E r.1 ≤ size) →
      (∀ r ∈ suf, wsub E r.1 ≤ wsub E u) →
      (wsub E end_ < wsub E st ∨
        (wsub E end_ = wsub E st ∧ wsub E end_ < size)) →
      ∃ pre2, (ackLoop end_ fuel (pre ++ suf) st acked).1 = pre2 ++ suf ∧
        pre2.Sublist pre := by
  intro fuel
  induction fuel with
  | zero =>
    intro pre suf st acked _ _ _
    exact ⟨pre, rfl, List.Sublist.refl pre⟩
  | succ fuel ih =>
    intro pre suf st acked hkeys hsufk hinv
    rw [ackLoop]
    cases hfind : ackFirstIn st end_ (pre ++ suf) with
    | none =>
      exact ⟨pre, rfl, List.Sublist.refl pre⟩
    | some pos =>
      obtain ⟨⟨d, hmem⟩, hp, hq⟩ := ackFirstIn_mem st end_ _ pos hfind
      have hposM : pos < M := (hkeys (pos, d) hmem).1
      have hbpos : wsub E pos ≤ size := (hkeys (pos, d) hmem).2
      have hnotsuf : ∀ r ∈ suf, r.1 ≠ pos := by
        intro r hr hcontra
        refine ack_chain_safe hE hu (hkeys r (List.mem_append_right _ hr)).1
          hbu hsize (hsufk r hr) hinv hg3 ?_
        rw [hcontra]
        exact ⟨hp, hq⟩
      have hfilter : (pre ++ suf).filter (fun r => r.1 != pos) =
          pre.filter (fun r => r.1 != pos) ++ suf := by
        rw [List.filter_append]
        congr 1
        apply List.filter_eq_self.mpr
        intro r hr
        simpa using hnotsuf r hr
      have hinv2 := ack_step_inv hE hu hposM hbu hsize hbpos hinv hp hq
      have hkeys2 : ∀ r ∈ pre.filter (fun r => r.1 != pos) ++ suf,
          r.1 < M ∧ wsub E r.1 ≤ size := by
        intro r hr
        rcases List.mem_append.mp hr with h' | h'
        · exact hkeys r (List.mem_append_left _ (List.mem_of_mem_filter h'))
        · exact hkeys r (List.mem_append_right _ h')
      obtain ⟨pre2, hres, hsub⟩ := ih (pre.filter (fun r => r.1 != pos)) suf
        ((pos + 1) % M) (acked + 1) hkeys2 hsufk hinv2
      dsimp only
      rw [hfilter]
      exact ⟨pre2, hres, hsub.trans (List.filter_sublist pre)⟩

theorem c9_pop {s : SendBuffer} (h : SendC9Inv s) : SendC9Inv s.pop_unsent.2 := by
  obtain ⟨h1, h2, h3, h4, h5, h6, ⟨pre, suf, hq, hch, hsl, hpre, hbs⟩, h8⟩ := h
  rw [SendBuffer.pop_unsent]
  by_cases hg : seqLe s.enqueue s.unsent = true
  · rw [if_pos hg]
    exact ⟨h1, h2, h3, h4, h5, h6, ⟨pre, suf, hq, hch, hsl, hpre, hbs⟩, h8⟩
  · rw [if_neg hg]
    cases suf with
    | nil =>
      exfalso
      have huE : s.unsent = s.enqueue := hch
      apply hg
      rw [huE]
      unfold seqLe
      simp
    | cons sh st =>
      obtain ⟨k1, d1⟩ := sh
      obtain ⟨hk1, hd1pos, hrest⟩ := hch
      subst hk1
      have hslc : sufLen ((s.unsent, d1) :: st) = d1.length + sufLen st := by
        simp [sufLen]
      have hdl : d1.length ≤ wsub s.enqueue s.unsent := by omega
      have hadv : wsub s.enqueue ((s.unsent + d1.length) % M) =
          wsub s.enqueue s.unsent - d1.length := wsub_advance h2 d1.length hdl
      have hnopre : ∀ r ∈ pre, ¬(s.unsent % M = r.1 % M) := by
        intro r hr hcontra
        obtain ⟨a1, a2, a3⟩ := hpre r hr
        have : wsub s.enqueue s.unsent = wsub s.enqueue r.1 := by
          unfold wsub
          rw [hcontra]
        omega
      have hlook : btLookup s.unsent s.queue = some d1 := by
        rw [hq, btLookup_append_right _ _ _ hnopre]
        exact btLookup_cons_self _ _ _
      rw [hlook]
      dsimp only
      refine ⟨h1, Nat.mod_lt _ (by unfold M; omega), h3, h4, h5, ?_,
        ⟨pre ++ [(s.unsent, d1)], st, ?_, hrest, ?_, ?_, ?_⟩, h8⟩
      · show wsub s.enqueue ((s.unsent + d1.length) % M) ≤ s.size
        omega
      · show s.queue = (pre ++ [(s.unsent, d1)]) ++ st
        rw [hq, List.append_cons]
      · show sufLen st = wsub s.enqueue ((s.unsent + d1.length) % M)
        omega
      · intro r hr
        rcases List.mem_append.mp hr with h' | h'
        · obtain ⟨a1, a2, a3⟩ := hpre r h'
          refine ⟨a1, ?_, a3⟩
          show wsub s.enqueue ((s.unsent + d1.length) % M) < wsub s.enqueue r.1
          omega
        · rw [List.mem_singleton.mp h']
          refine ⟨h2, ?_, h6⟩
          show wsub s.enqueue ((s.unsent + d1.length) % M) < wsub s.enqueue s.unsent
          omega
      · exact bwdSorted_append_last pre hbs (fun r hr => (hpre r hr).2.1)

theorem c9_ack {s : SendBuffer} (h : SendC9Inv s) (start end_ : Nat) :
    SendC9Inv (s.ack start end_).2 := by
  obtain ⟨h1, h2, h3, h4, h5, h6, ⟨pre, suf, hq, hch, hsl, hpre, hbs⟩, h8⟩ := h
  rw [SendBuffer.ack]
  by_cases hg : (seqLe end_ start = true) ∨ (seqLe s.unsent start = true) ∨
      (seqLt s.unsent end_ = true)
  · rw [if_pos hg]
    exact ⟨h1, h2, h3, h4, h5, h6, ⟨pre, suf, hq, hch, hsl, hpre, hbs⟩, h8⟩
  · rw [if_neg hg]
    simp only [not_or, Bool.not_eq_true] at hg
    obtain ⟨hg1, hg2, hg3⟩ := hg
    cases hhead : s.queue.head? with
    | none =>
      exact ⟨h1, h2, h3, h4, h5, h6, ⟨pre, suf, hq, hch, hsl, hpre, hbs⟩, h8⟩
    | some r =>
      obtain ⟨ost, od⟩ := r
      dsimp only
      have hsize : s.size < H := Nat.lt_of_le_of_lt h5 h3
      have hckb := chain_key_bwd h1 suf s.unsent h2 hch hsl
      have hkeys : ∀ r ∈ pre ++ suf, r.1 < M ∧ wsub s.enqueue r.1 ≤ s.size := by
        intro r hr
        rcases List.mem_append.mp hr with h' | h'
        · obtain ⟨a1, a2, a3⟩ := hpre r h'
          exact ⟨a1, a3⟩
        · obtain ⟨a1, a2, a3⟩ := hckb r h'
          exact ⟨a1, le_trans a3 h6⟩
      have hsufk : ∀ r ∈ suf, wsub s.enqueue r.1 ≤ wsub s.enqueue s.unsent :=
        fun r hr => (hckb r hr).2.2
      have hbuH : wsub s.enqueue s.unsent < H := Nat.lt_of_le_of_lt h6 hsize
      have hinv0 : wsub s.enqueue end_ < wsub s.enqueue start ∨
          (wsub s.enqueue end_ = wsub s.enqueue start ∧
            wsub s.enqueue end_ < s.size) :=
        Or.inl (ack_init_inv h1 h2 hbuH hg1 hg2 hg3)
      have hostmem : (ost, od) ∈ pre ++ suf := by
        rw [← hq]
        exact List.mem_of_mem_head? (by simp [hhead, Option.mem_def])
      have hostM : ost < M := (hkeys _ hostmem).1
      have h8' : s.size = wsub s.enqueue ost := by
        rw [hhead] at h8
        exact h8
      rw [hq]
      obtain ⟨pre2, hres, hsub⟩ := ackLoop_c9 h1 h2 h6 hsize hg3
        (pre ++ suf).length pre suf start 0 hkeys hsufk hinv0
      rw [hres]
      cases hh2 : (pre2 ++ suf).head? with
      | none =>
        obtain ⟨hp2, hsf⟩ := List.append_eq_nil.mp (List.head?_eq_none_iff.mp hh2)
        subst hp2
        subst hsf
        have huE : s.unsent = s.enqueue := hch
        refine ⟨h1, h2, h3, h4, Nat.zero_le _, ?_, ⟨[], [], rfl, hch, hsl,
          fun r hr => absurd hr (List.not_mem_nil r), trivial⟩, rfl⟩
        show wsub s.enqueue s.unsent ≤ 0
        rw [huE, wsub_self]
      | some r2 =>
        obtain ⟨nk, nd⟩ := r2
        have hbs2 : bwdSorted s.enqueue pre2 := bwdSorted_sublist hsub hbs
        have hnkmem : (nk, nd) ∈ pre2 ++ suf :=
          List.mem_of_mem_head? (by simp [hh2, Option.mem_def])
        have hnkmem0 : (nk, nd) ∈ pre ++ suf := by
          rcases List.mem_append.mp hnkmem with h' | h'
          · exact List.mem_append_left _ (hsub.subset h')
          · exact List.mem_append_right _ h'
        have hnkM : nk < M := (hkeys _ hnkmem0).1
        have hbnk : wsub s.enqueue nk ≤ s.size := (hkeys _ hnkmem0).2
        have hwb : wsub nk ost = wsub s.enqueue ost - wsub s.enqueue nk :=
          wsub_between hostM hnkM (by omega)
        have hd6 : wsub s.enqueue s.unsent ≤ wsub s.enqueue nk ∧
            ∀ r ∈ pre2, wsub s.enqueue r.1 ≤ wsub s.enqueue nk := by
          cases pre2 with
          | nil =>
            refine ⟨?_, fun r hr => absurd hr (List.not_mem_nil r)⟩
            rw [List.nil_append] at hh2
            cases suf with
            | nil => simp at hh2
            | cons sh st =>
              obtain ⟨k1, d1⟩ := sh
              simp at hh2
              obtain ⟨hk1, _, _⟩ := hch
              rw [← hh2.1, hk1]
          | cons p pt =>
            obtain ⟨pk, pd⟩ := p
            have hpk : pk = nk ∧ pd = nd := by
              rw [List.cons_append] at hh2
              simpa using hh2
            obtain ⟨hpk1, _⟩ := hpk
            subst hpk1
            have hmempre : (pk, pd) ∈ pre := hsub.subset (by simp)
            refine ⟨le_of_lt (hpre _ hmempre).2.1, ?_⟩
            intro r hr
            rcases List.mem_cons.mp hr with h' | h'
            · rw [h']
            · exact le_of_lt (hbs2.1 r h')
        refine ⟨h1, h2, h3, h4, ?_, ?_, ⟨pre2, suf, rfl, hch, hsl, ?_, hbs2⟩, ?_⟩
        · show s.size - wsub nk ost ≤ s.limit
          omega
        · show wsub s.enqueue s.unsent ≤ s.size - wsub nk ost
          have := hd6.1
          omega
        · intro r hr
          obtain ⟨a1, a2, a3⟩ := hpre r (hsub.subset hr)
          refine ⟨a1, a2, ?_⟩
          show wsub s.enqueue r.1 ≤ s.size - wsub nk ost
          have := hd6.2 r hr
          omega
        · show (match (pre2 ++ suf).head? with
            | some (k, _) => s.size - wsub nk ost = wsub s.enqueue k
            | none => s.size - wsub nk ost = 0)
          rw [hh2]
          show s.size - wsub nk ost = wsub s.enqueue nk
          omega

theorem c9_push_noextend {s : SendBuffer} (data : List Nat)
    (h : SendC9Inv s) (hfull : s.size + data.length ≤ s.limit) :
    SendC9Inv { s with
      queue := (pushLoop data s.mss data.length s.queue s.enqueue 0).1
      enqueue := (pushLoop data s.mss data.length s.queue s.enqueue 0).2
      size := s.size + data.length } := by
  obtain ⟨h1, h2, h3, h4, h5, h6, ⟨pre, suf, hq, hch, hsl, hpre, hbs⟩, h8⟩ := h
  have hHM : H < M := by unfold M H; omega
  have hlen : data.length < H := by omega
  have hsize : s.size < H := by omega
  have hckb := chain_key_bwd h1 suf s.unsent h2 hch hsl
  have hkey : ∀ r ∈ pre ++ suf, r.1 < M ∧ 0 < wsub s.enqueue r.1 ∧
      wsub s.enqueue r.1 ≤ s.size := by
    intro r hr
    rcases List.mem_append.mp hr with h' | h'
    · obtain ⟨a1, a2, a3⟩ := hpre r h'
      exact ⟨a1, by omega, a3⟩
    · obtain ⟨a1, a2, a3⟩ := hckb r h'
      exact ⟨a1, a2, by omega⟩
  obtain ⟨segs, e1, e2, e3, e4⟩ := pushLoop_spec data s.mss h4 hlen data.length
    s.queue s.enqueue 0 (by omega) h1 (by
      intro r hr
      rw [hq] at hr
      obtain ⟨a1, a2, a3⟩ := hkey r hr
      exact ⟨a1, a2, by omega⟩)
  simp only [Nat.sub_zero] at e2 e3 e4
  have hruA : wsub ((s.enqueue + data.length) % M) s.unsent =
      wsub s.enqueue s.unsent + data.length := wsub_rebase h1 (by omega)
  have hnew8 : (match (s.queue ++ segs).head? with
      | some (k, _) => s.size + data.length = wsub ((s.enqueue + data.length) % M) k
      | none => s.size + data.length = 0) := by
    cases hcq : s.queue with
    | nil =>
      have h80 : s.size = 0 := by
        rw [hcq] at h8
        exact h8
      cases hsegs : segs with
      | nil =>
        rw [hsegs] at e4
        have hnil0 : sufLen ([] : List (Nat × List Nat)) = 0 := by simp [sufLen]
        show s.size + data.length = 0
        omega
      | cons sg st =>
        obtain ⟨gk, gd⟩ := sg
        rw [hsegs] at e3
        obtain ⟨hgk, _, _⟩ := e3
        show s.size + data.length = wsub ((s.enqueue + data.length) % M) gk
        rw [hgk]
        have hre : wsub ((s.enqueue + data.length) % M) s.enqueue =
            wsub s.enqueue s.enqueue + data.length :=
          wsub_rebase h1 (by rw [wsub_self]; omega)
        rw [wsub_self] at hre
        omega
    | cons c0 ct =>
      obtain ⟨ck, cd⟩ := c0
      show s.size + data.length = wsub ((s.enqueue + data.length) % M) ck
      have hmemq : (ck, cd) ∈ pre ++ suf := by
        rw [← hq, hcq]
        simp
      have hckle : wsub s.enqueue ck ≤ s.size := (hkey _ hmemq).2.2
      have hrb : wsub ((s.enqueue + data.length) % M) ck =
          wsub s.enqueue ck + data.length := wsub_rebase h1 (by omega)
      have h8c : s.size = wsub s.enqueue ck := by
        rw [hcq] at h8
        exact h8
      omega
  rw [e1, e2]
  refine ⟨Nat.mod_lt _ (by unfold M; omega), h2, h3, h4, hfull, ?_,
    ⟨pre, suf ++ segs, ?_, chainFrom_concat suf segs s.unsent hch e3, ?_, ?_, ?_⟩,
    hnew8⟩
  · show wsub ((s.enqueue + data.length) % M) s.unsent ≤ s.size + data.length
    omega
  · show s.queue ++ segs = pre ++ (suf ++ segs)
    rw [hq, List.append_assoc]
  · show sufLen (suf ++ segs) = wsub ((s.enqueue + data.length) % M) s.unsent
    rw [sufLen_append, hsl, e4, hruA]
  · intro r hr
    obtain ⟨a1, a2, a3⟩ := hpre r hr
    have hrb : wsub ((s.enqueue + data.length) % M) r.1 =
        wsub s.enqueue r.1 + data.length := wsub_rebase h1 (by omega)
    refine ⟨a1, ?_, ?_⟩
    · show wsub ((s.enqueue + data.length) % M) s.unsent <
        wsub ((s.enqueue + data.length) % M) r.1
      omega
    · show wsub ((s.enqueue + data.length) % M) r.1 ≤ s.size + data.length
      omega
  · exact bwdSorted_rebase h1 pre (fun r hr => by
      obtain ⟨a1, a2, a3⟩ := hpre r hr
      omega) hbs

theorem c9_push {s : SendBuffer} (h : SendC9Inv s) (data : List Nat) :
    SendC9Inv (s.push_back data).2 := by
  rw [SendBuffer.push_back]
  by_cases hfull : s.size + data.length > s.limit
  · rw [if_pos hfull]
    exact h
  · rw [if_neg hfull]
    push_neg at hfull
    dsimp only
    cases hlast : s.queue.getLast? with
    | none =>
      dsimp only
      exact c9_push_noextend data h hfull
    | some r =>
      obtain ⟨pos, lb⟩ := r
      dsimp only
      by_cases hguard : (seqLe s.unsent pos = true) ∧ s.mss > lb.length
      · rw [if_pos hguard]
        dsimp only
        obtain ⟨h1, h2, h3, h4, h5, h6, ⟨pre, suf, hq, hch, hsl, hpre, hbs⟩, h8⟩ := h
        have hHM : H < M := by unfold M H; omega
        have hlen : data.length < H := by omega
        have hsize : s.size < H := by omega
        have hbuH : wsub s.enqueue s.unsent < H := by omega
        have hckb := chain_key_bwd h1 suf s.unsent h2 hch hsl
        have hsufne : suf ≠ [] := by
          intro hsf
          have hmem : (pos, lb) ∈ s.queue := List.mem_of_getLast?_eq_some hlast
          rw [hq, hsf, List.append_nil] at hmem
          obtain ⟨a1, a2, a3⟩ := hpre _ hmem
          have := (seqLe_iff_bwd (E := s.enqueue) h2 a1 hbuH
            (Nat.lt_of_le_of_lt a3 hsize)).mp hguard.1
          omega
        obtain ⟨l2, slast, hdec⟩ := exists_last_decomp suf hsufne
        obtain ⟨spos, w⟩ := slast
        have hlast2 : s.queue.getLast? = some (spos, w) := by
          rw [hq, hdec, ← List.append_assoc]
          exact List.getLast?_concat _
        rw [hlast2] at hlast
        have hple : spos = pos ∧ w = lb := by
          have := Option.some.inj hlast
          simpa using this
        have hdec2 : suf = l2 ++ [(pos, lb)] := by
          rw [hdec, hple.1, hple.2]
        rw [hdec2] at hch hsl
        set cl := if s.mss - lb.length < data.length then s.mss - lb.length
          else data.length with hcl
        have hclle : cl ≤ data.length := by
          rw [hcl]
          split <;> omega
        have hposmem : (pos, lb) ∈ suf := by
          rw [hdec2]
          exact List.mem_append_right _ (by simp)
        obtain ⟨hposM0, hpospos0, hposle0⟩ := hckb _ hposmem
        have hposM : pos < M := hposM0
        have hpospos : 0 < wsub s.enqueue pos := hpospos0
        have hposle : wsub s.enqueue pos ≤ wsub s.enqueue s.unsent := hposle0
        have hchX : ChainFrom ((s.enqueue + cl) % M)
            (l2 ++ [(pos, lb ++ data.take cl)]) s.unsent :=
          chainFrom_extend_last cl lb (data.take cl)
            (by rw [List.length_take]; omega) l2 s.unsent pos hch
        have hslX : sufLen (l2 ++ [(pos, lb ++ data.take cl)]) =
            wsub s.enqueue s.unsent + cl := by
          rw [sufLen_append] at hsl ⊢
          have t1 : sufLen [(pos, lb)] = lb.length := by
            simp only [sufLen, List.map_cons, List.map_nil, List.sum_cons,
              List.sum_nil]
            omega
          have t2 : sufLen [(pos, lb ++ data.take cl)] = lb.length + cl := by
            simp only [sufLen, List.map_cons, List.map_nil, List.sum_cons,
              List.sum_nil, List.length_append, List.length_take]
            omega
          omega
        have hlastlt := chain_last_lt h1 l2 pos lb s.unsent h2 hch hsl
        have hq1 : btInsert pos (lb ++ data.take cl) s.queue =
            (pre ++ l2) ++ [(pos, lb ++ data.take cl)] := by
          rw [hq, hdec2, ← List.append_assoc]
          refine btInsert_replace pos _ lb (pre ++ l2) hposM ?_
          intro a ha
          have key : a.1 < M ∧ wsub s.enqueue pos < wsub s.enqueue a.1 ∧
              wsub s.enqueue a.1 < H := by
            rcases List.mem_append.mp ha with h' | h'
            · obtain ⟨a1, a2, a3⟩ := hpre a h'
              exact ⟨a1, by omega, by omega⟩
            · have hmem2 : a ∈ suf := by
                rw [hdec2]
                exact List.mem_append_left _ h'
              obtain ⟨a1, a2, a3⟩ := hckb a hmem2
              exact ⟨a1, hlastlt a h', by omega⟩
          obtain ⟨k1, k2, k3⟩ := key
          have hwb := wsub_between (E := s.enqueue) k1 hposM (le_of_lt k2)
          exact ⟨k1, by omega, by omega⟩
        have hE1 : (s.enqueue + cl) % M < M := Nat.mod_lt _ (by unfold M; omega)
        have hloopcond : ∀ r ∈ (pre ++ l2) ++ [(pos, lb ++ data.take cl)],
            r.1 < M ∧ 0 < wsub ((s.enqueue + cl) % M) r.1 ∧
              wsub ((s.enqueue + cl) % M) r.1 + (data.length - cl) < H := by
          intro r hr
          have key : r.1 < M ∧ 0 < wsub s.enqueue r.1 ∧
              wsub s.enqueue r.1 ≤ s.size := by
            rcases List.mem_append.mp hr with h' | h'
            · rcases List.mem_append.mp h' with h'' | h''
              · obtain ⟨a1, a2, a3⟩ := hpre r h''
                exact ⟨a1, by omega, a3⟩
              · have hmem2 : r ∈ suf := by
                  rw [hdec2]
                  exact List.mem_append_left _ h''
                obtain ⟨a1, a2, a3⟩ := hckb r hmem2
                exact ⟨a1, a2, by omega⟩
            · rw [List.mem_singleton.mp h']
              exact ⟨hposM, hpospos, le_trans hposle h6⟩
          obtain ⟨k1, k2, k3⟩ := key
          have hrb : wsub ((s.enqueue + cl) % M) r.1 =
              wsub s.enqueue r.1 + cl := wsub_rebase h1 (by omega)
          exact ⟨k1, by omega, by omega⟩
        obtain ⟨segs, e1, e2, e3, e4⟩ := pushLoop_spec data s.mss h4 hlen
          data.length ((pre ++ l2) ++ [(pos, lb ++ data.take cl)])
          ((s.enqueue + cl) % M) cl (by omega) hE1 hloopcond
        have hE2eq : (((s.enqueue + cl) % M) + (data.length - cl)) % M =
            (s.enqueue + data.length) % M := by
          rw [Nat.mod_add_mod]
          congr 1
          omega
        rw [hE2eq] at e2 e3
        have hruB : wsub ((s.enqueue + data.length) % M) s.unsent =
            wsub s.enqueue s.unsent + data.length := wsub_rebase h1 (by omega)
        have hnew8 : (match ((((pre ++ l2) ++ [(pos, lb ++ data.take cl)]) ++
              segs).head?) with
            | some (k, _) => s.size + data.length =
                wsub ((s.enqueue + data.length) % M) k
            | none => s.size + data.length = 0) := by
          cases hpl : pre ++ l2 with
          | nil =>
            show s.size + data.length = wsub ((s.enqueue + data.length) % M) pos
            have hrb : wsub ((s.enqueue + data.length) % M) pos =
                wsub s.enqueue pos + data.length := wsub_rebase h1 (by omega)
            have h8p : s.size = wsub s.enqueue pos := by
              rw [hq, hdec2, ← List.append_assoc, hpl] at h8
              exact h8
            omega
          | cons c0 ct =>
            obtain ⟨ck, cd⟩ := c0
            show s.size + data.length = wsub ((s.enqueue + data.length) % M) ck
            have hc0mem : (ck, cd) ∈ pre ++ l2 := by
              rw [hpl]
              simp
            have hckle : wsub s.enqueue ck ≤ s.size := by
              rcases List.mem_append.mp hc0mem with h' | h'
              · exact (hpre _ h').2.2
              · have hmem2 : (ck, cd) ∈ suf := by
                  rw [hdec2]
                  exact List.mem_append_left _ h'
                exact le_trans ((hckb _ hmem2).2.2) h6
            have hrb : wsub ((s.enqueue + data.length) % M) ck =
                wsub s.enqueue ck + data.length := wsub_rebase h1 (by omega)
            have h8c : s.size = wsub s.enqueue ck := by
              rw [hq, hdec2, ← List.append_assoc, hpl] at h8
              exact h8
            omega
        rw [hq1, e1, e2]
        refine ⟨Nat.mod_lt _ (by unfold M; omega), h2, h3, h4, hfull, ?_,
          ⟨pre, (l2 ++ [(pos, lb ++ data.take cl)]) ++ segs, ?_,
            chainFrom_concat _ segs s.unsent hchX e3, ?_, ?_, ?_⟩, hnew8⟩
        · show wsub ((s.enqueue + data.length) % M) s.unsent ≤
            s.size + data.length
          omega
        · show ((pre ++ l2) ++ [(pos, lb ++ data.take cl)]) ++ segs =
            pre ++ ((l2 ++ [(pos, lb ++ data.take cl)]) ++ segs)
          simp [List.append_assoc]
        · show sufLen ((l2 ++ [(pos, lb ++ data.take cl)]) ++ segs) =
            wsub ((s.enqueue + data.length) % M) s.unsent
          rw [sufLen_append, hslX, e4, hruB]
          omega
        · intro r hr
          obtain ⟨a1, a2, a3⟩ := hpre r hr
          have hrb : wsub ((s.enqueue + data.length) % M) r.1 =
              wsub s.enqueue r.1 + data.length := wsub_rebase h1 (by omega)
          refine ⟨a1, ?_, ?_⟩
          · show wsub ((s.enqueue + data.length) % M) s.unsent <
              wsub ((s.enqueue + data.length) % M) r.1
            omega
          · show wsub ((s.enqueue + data.length) % M) r.1 ≤
              s.size + data.length
            omega
        · exact bwdSorted_rebase h1 pre (fun r hr => by
            obtain ⟨a1, a2, a3⟩ := hpre r hr
            omega) hbs
      · rw [if_neg hguard]
        dsimp only
        exact c9_push_noextend data h hfull

theorem c9_step {s : SendBuffer} (h : SendC9Inv s) (op : SendOp) :
    SendC9Inv (sendStep s op) := by
  cases op with
  | push data => exact c9_push h data
  | pop => exact c9_pop h
  | ack a b => exact c9_ack h a b
  | get p => exact h

theorem c9_new (limit mss : Nat) (hlim : limit < H) (hmss : 1 ≤ mss) :
    SendC9Inv (SendBuffer.new limit mss) := by
  refine ⟨by show (0 : Nat) < M; unfold M; omega,
    by show (0 : Nat) < M; unfold M; omega, hlim, hmss, Nat.zero_le _,
    ?_, ⟨[], [], rfl, rfl, ?_, fun r hr => absurd hr (List.not_mem_nil r),
      trivial⟩, rfl⟩
  · show wsub 0 0 ≤ 0
    rw [wsub_self]
  · show sufLen [] = wsub 0 0
    rw [wsub_self]
    rfl

theorem c9_run_aux (ops : List SendOp) :
    ∀ s : SendBuffer, SendC9Inv s → SendC9Inv (ops.foldl sendStep s) := by
  induction ops with
  | nil =>
    intro s h
    exact h
  | cons op rest ih =>
    intro s h
    rw [List.foldl_cons]
    exact ih _ (c9_step h op)

theorem c9_conclusion {s : SendBuffer} (h : SendC9Inv s) :
    (s.unsent = s.enqueue ∨ ∃ d, (s.unsent, d) ∈ s.queue) ∧
    (seqLe s.enqueue s.unsent = false →
      ∃ d, btLookup s.unsent s.queue = some d) := by
  obtain ⟨h1, h2, h3, h4, h5, h6, ⟨pre, suf, hq, hch, hsl, hpre, hbs⟩, h8⟩ := h
  cases suf with
  | nil =>
    have huE : s.unsent = s.enqueue := hch
    refine ⟨Or.inl huE, ?_⟩
    intro hg
    exfalso
    rw [huE] at hg
    unfold seqLe at hg
    simp at hg
  | cons sh st =>
    obtain ⟨k1, d1⟩ := sh
    obtain ⟨hk1, hd1pos, hrest⟩ := hch
    subst hk1
    have hmem : (s.unsent, d1) ∈ s.queue := by
      rw [hq]
      exact List.mem_append_right _ (by simp)
    have hnopre : ∀ r ∈ pre, ¬(s.unsent % M = r.1 % M) := by
      intro r hr hcontra
      obtain ⟨a1, a2, a3⟩ := hpre r hr
      have : wsub s.enqueue s.unsent = wsub s.enqueue r.1 := by
        unfold wsub
        rw [hcontra]
      omega
    have hlook : btLookup s.unsent s.queue = some d1 := by
      rw [hq, btLookup_append_right _ _ _ hnopre]
      exact btLookup_cons_self _ _ _
    exact ⟨Or.inr ⟨d1, hmem⟩, fun _ => ⟨d1, hlook⟩⟩

/-- C9: in every `SendBuffer` state reachable from `new(limit, mss)` by an
arbitrary sequence of `push_back`/`pop_unsent`/`get`/`ack` calls — with the
byte limit inside the `2^31` comparison half-window and a positive `mss` —
the unsent cursor either equals the enqueue cursor or is exactly the start
key of a segment present in the queue, and whenever `pop_unsent` passes its
`unsent < enqueue` guard the unchecked lookup finds a segment, so the
source's `unwrap()` never panics. -/
theorem c9_pop_unsent_lookup_safe (limit mss : Nat) (ops : List SendOp)
    (hlim : limit < H) (hmss : 1 ≤ mss) :
    ((sendRun limit mss ops).unsent = (sendRun limit mss ops).enqueue ∨
      ∃ d, ((sendRun limit mss ops).unsent, d) ∈ (sendRun limit mss ops).queue) ∧
    (seqLe (sendRun limit mss ops).enqueue (sendRun limit mss ops).unsent
        = false →
      ∃ d, btLookup (sendRun limit mss ops).unsent
        (sendRun limit mss ops).queue = some d) :=
  c9_conclusion (c9_run_aux ops (SendBuffer.new limit mss)
    (c9_new limit mss hlim hmss))

/-- Witness for C9 at `limit = 10`, `mss = 3` and the call sequence
`push_back [7,8,9,1]; pop_unsent; ack 0 1`. -/
theorem c9_pop_unsent_lookup_safe_witness :
    (10 < H ∧ 1 ≤ 3) ∧
    (((sendRun 10 3 [SendOp.push [7, 8, 9, 1], SendOp.pop,
          SendOp.ack 0 1]).unsent =
        (sendRun 10 3 [SendOp.push [7, 8, 9, 1], SendOp.pop,
          SendOp.ack 0 1]).enqueue ∨
      ∃ d, ((sendRun 10 3 [SendOp.push [7, 8, 9, 1], SendOp.pop,
          SendOp.ack 0 1]).unsent, d) ∈
        (sendRun 10 3 [SendOp.push [7, 8, 9, 1], SendOp.pop,
          SendOp.ack 0 1]).queue) ∧
    (seqLe (sendRun 10 3 [SendOp.push [7, 8, 9, 1], SendOp.pop,
          SendOp.ack 0 1]).enqueue
        (sendRun 10 3 [SendOp.push [7, 8, 9, 1], SendOp.pop,
          SendOp.ack 0 1]).unsent = false →
      ∃ d, btLookup (sendRun 10 3 [SendOp.push [7, 8, 9, 1], SendOp.pop,
          SendOp.ack 0 1]).unsent
        (sendRun 10 3 [SendOp.push [7, 8, 9, 1], SendOp.pop,
          SendOp.ack 0 1]).queue = some d)) :=
  ⟨⟨by decide, by decide⟩,
    c9_pop_unsent_lookup_safe 10 3
      [SendOp.push [7, 8, 9, 1], SendOp.pop, SendOp.ack 0 1]
      (by decide) (by decide)⟩

theorem getD_set_self {α : Type} (a d : α) :
    ∀ (l : List α) (i : Nat), i < l.length → (l.set i a).getD i d = a := by
  intro l
  induction l with
  | nil =>
    intro i h
    simp at h
  | cons x t ih =>
    intro i h
    cases i with
    | zero => rfl
    | succ j =>
      show (t.set j a).getD j d = a
      exact ih j (by simpa using h)

theorem getD_set_ne {α : Type} (a d : α) :
    ∀ (l : List α) (i j : Nat), i ≠ j → (l.set i a).getD j d = l.getD j d := by
  intro l
  induction l with
  | nil =>
    intro i j _
    rfl
  | cons x t ih =>
    intro i j h
    cases i with
    | zero =>
      cases j with
      | zero => exact absurd rfl h
      | succ j2 => rfl
    | succ i2 =>
      cases j with
      | zero => rfl
      | succ j2 => exact ih i2 j2 (fun hc => h (by rw [hc]))

theorem getD_tail {α : Type} (d : α) (l : List α) (i : Nat) :
    l.tail.getD i d = l.getD (i + 1) d := by
  cases l with
  | nil => rfl
  | cons x t => rfl

theorem getD_append_replicate_self {α : Type} (z : α) :
    ∀ (l : List α) (k i : Nat), (l ++ List.replicate k z).getD i z = l.getD i z := by
  intro l
  induction l with
  | nil =>
    intro k i
    show (List.replicate k z).getD i z = ([] : List α).getD i z
    induction k generalizing i with
    | zero => rfl
    | succ k2 ih2 =>
      cases i with
      | zero => rfl
      | succ i2 => exact ih2 i2
  | cons x t ih =>
    intro k i
    cases i with
    | zero => rfl
    | succ i2 => exact ih k i2

theorem takeWhile_append_all {α : Type} (P : α → Bool) :
    ∀ (A B : List α), (∀ a ∈ A, P a = true) →
      (A ++ B).takeWhile P = A ++ B.takeWhile P := by
  intro A
  induction A with
  | nil =>
    intro B _
    rfl
  | cons x t ih =>
    intro B h
    have hx : P x = true := h x (by simp)
    rw [List.cons_append, List.takeWhile_cons, hx]
    show x :: (t ++ B).takeWhile P = x :: (t ++ B.takeWhile P)
    rw [ih B (fun a ha => h a (List.mem_cons_of_mem _ ha))]

theorem dropWhile_append_all {α : Type} (P : α → Bool) :
    ∀ (A B : List α), (∀ a ∈ A, P a = true) →
      (A ++ B).dropWhile P = B.dropWhile P := by
  intro A
  induction A with
  | nil =>
    intro B _
    rfl
  | cons x t ih =>
    intro B h
    have hx : P x = true := h x (by simp)
    rw [List.cons_append, List.dropWhile_cons, if_pos hx]
    exact ih B (fun a ha => h a (List.mem_cons_of_mem _ ha))

theorem takeWhile_cons_false {α : Type} (P : α → Bool) (x : α) (t : List α)
    (h : P x = false) : (x :: t).takeWhile P = [] := by
  rw [List.takeWhile_cons, h]
  rfl

theorem dropWhile_cons_false {α : Type} (P : α → Bool) (x : α) (t : List α)
    (h : P x = false) : (x :: t).dropWhile P = x :: t := by
  rw [List.dropWhile_cons, if_neg (by simp [h])]

theorem RangesOk_mem : ∀ {l : List (Nat × Nat)}, RangesOk l →
    ∀ r ∈ l, r.1 < r.2 ∧ r.2 < H := by
  intro l
  induction l with
  | nil =>
    intro _ r hr
    exact absurd hr (List.not_mem_nil r)
  | cons hd t ih =>
    intro h r hr
    obtain ⟨s, e⟩ := hd
    obtain ⟨h1, h2, h3, h4⟩ := h
    rcases List.mem_cons.mp hr with h' | h'
    · rw [h']
      exact ⟨h1, h2⟩
    · exact ih h4 r h'

theorem RangesOk_append : ∀ (X Y : List (Nat × Nat)),
    RangesOk (X ++ Y) ↔
      (RangesOk X ∧ RangesOk Y ∧ ∀ x ∈ X, ∀ y ∈ Y, x.2 < y.1) := by
  intro X
  induction X with
  | nil =>
    intro Y
    constructor
    · intro h
      exact ⟨trivial, h, fun x hx => absurd hx (List.not_mem_nil x)⟩
    · intro h
      exact h.2.1
  | cons hd t ih =>
    intro Y
    obtain ⟨s, e⟩ := hd
    constructor
    · intro h
      obtain ⟨h1, h2, h3, h4⟩ := h
      obtain ⟨g1, g2, g3⟩ := (ih Y).mp h4
      refine ⟨⟨h1, h2, fun r hr => h3 r (List.mem_append_left _ hr), g1⟩, g2, ?_⟩
      intro x hx y hy
      rcases List.mem_cons.mp hx with h' | h'
      · rw [h']
        exact h3 y (List.mem_append_right _ hy)
      · exact g3 x h' y hy
    · intro h
      obtain ⟨⟨h1, h2, h3, h4⟩, g2, g3⟩ := h
      refine ⟨h1, h2, ?_, (ih Y).mpr ⟨h4, g2,
        fun x hx y hy => g3 x (List.mem_cons_of_mem _ hx) y hy⟩⟩
      intro r hr
      rcases List.mem_append.mp hr with h' | h'
      · exact h3 r h'
      · exact g3 (s, e) (by simp) r h'

theorem inRanges_append (X Y : List (Nat × Nat)) (q : Nat) :
    inRanges (X ++ Y) q ↔ inRanges X q ∨ inRanges Y q := by
  unfold inRanges
  constructor
  · rintro ⟨r, hr, h1, h2⟩
    rcases List.mem_append.mp hr with h' | h'
    · exact Or.inl ⟨r, h', h1, h2⟩
    · exact Or.inr ⟨r, h', h1, h2⟩
  · rintro (⟨r, hr, h1, h2⟩ | ⟨r, hr, h1, h2⟩)
    · exact ⟨r, List.mem_append_left _ hr, h1, h2⟩
    · exact ⟨r, List.mem_append_right _ hr, h1, h2⟩

theorem inRanges_cons (s e : Nat) (t : List (Nat × Nat)) (q : Nat) :
    inRanges ((s, e) :: t) q ↔ (s ≤ q ∧ q < e) ∨ inRanges t q := by
  unfold inRanges
  constructor
  · rintro ⟨r, hr, h1, h2⟩
    rcases List.mem_cons.mp hr with h' | h'
    · subst h'
      exact Or.inl ⟨h1, h2⟩
    · exact Or.inr ⟨r, h', h1, h2⟩
  · rintro (⟨h1, h2⟩ | ⟨r, hr, h1, h2⟩)
    · exact ⟨(s, e), by simp, h1, h2⟩
    · exact ⟨r, List.mem_cons_of_mem _ hr, h1, h2⟩

theorem inRanges_nil (q : Nat) : ¬ inRanges [] q := by
  rintro ⟨r, hr, _⟩
  exact absurd hr (List.not_mem_nil r)

theorem covered_append (X Y : List (Nat × List Nat)) (q : Nat) :
    covered (X ++ Y) q ↔ covered X q ∨ covered Y q := by
  unfold covered
  constructor
  · rintro ⟨w, hw, h1, h2⟩
    rcases List.mem_append.mp hw with h' | h'
    · exact Or.inl ⟨w, h', h1, h2⟩
    · exact Or.inr ⟨w, h', h1, h2⟩
  · rintro (⟨w, hw, h1, h2⟩ | ⟨w, hw, h1, h2⟩)
    · exact ⟨w, List.mem_append_left _ hw, h1, h2⟩
    · exact ⟨w, List.mem_append_right _ hw, h1, h2⟩

theorem covered_single (w : Nat × List Nat) (q : Nat) :
    covered [w] q ↔ (w.1 ≤ q ∧ q < w.1 + w.2.length) := by
  unfold covered
  constructor
  · rintro ⟨x, hx, h1, h2⟩
    rw [List.mem_singleton.mp hx] at h1 h2
    exact ⟨h1, h2⟩
  · rintro ⟨h1, h2⟩
    exact ⟨w, by simp, h1, h2⟩

theorem covered_nil (q : Nat) : ¬ covered [] q := by
  rintro ⟨w, hw, _⟩
  exact absurd hw (List.not_mem_nil w)

theorem wsub_zero_right {a : Nat} (ha : a < M) : wsub a 0 = a := by
  unfold wsub M at *
  omega

theorem streamByte_cons (w0 : Nat × List Nat) (t : List (Nat × List Nat))
    (q : Nat) :
    streamByte (w0 :: t) q =
      if (decide (w0.1 ≤ q) && decide (q < w0.1 + w0.2.length)) = true
        then w0.2.getD (q - w0.1) 0 else streamByte t q := by
  unfold streamByte
  by_cases h0 : (decide (w0.1 ≤ q) && decide (q < w0.1 + w0.2.length)) = true
  · rw [if_pos h0, List.find?_cons_of_pos
      (p := fun w => decide (w.1 ≤ q) && decide (q < w.1 + w.2.length)) t h0]
  · rw [if_neg h0, List.find?_cons_of_neg
      (p := fun w => decide (w.1 ≤ q) && decide (q < w.1 + w.2.length)) t h0]

theorem streamByte_eq :
    ∀ ws : List (Nat × List Nat),
      List.Pairwise
        (fun a b => a.1 + a.2.length ≤ b.1 ∨ b.1 + b.2.length ≤ a.1) ws →
      ∀ w ∈ ws, ∀ q, w.1 ≤ q → q < w.1 + w.2.length →
        streamByte ws q = w.2.getD (q - w.1) 0 := by
  intro ws
  induction ws with
  | nil =>
    intro _ w hw
    exact absurd hw (List.not_mem_nil w)
  | cons w0 t ih =>
    intro hdisj w hw q h1 h2
    obtain ⟨hd0, hdt⟩ := List.pairwise_cons.mp hdisj
    rw [streamByte_cons]
    by_cases h0 : (decide (w0.1 ≤ q) && decide (q < w0.1 + w0.2.length)) = true
    · rw [if_pos h0]
      have hcov0 : w0.1 ≤ q ∧ q < w0.1 + w0.2.length := by
        simpa using h0
      have hww0 : w = w0 := by
        rcases List.mem_cons.mp hw with h' | h'
        · exact h'
        · exfalso
          rcases hd0 w h' with hc | hc <;> omega
      rw [hww0]
    · rw [if_neg h0]
      have hww0 : w ∈ t := by
        rcases List.mem_cons.mp hw with h' | h'
        · exfalso
          subst h'
          simp at h0
          omega
        · exact h'
      exact ih hdt w hww0 q h1 h2

theorem split_disjoint (p e : Nat) :
    ∀ m : List (Nat × Nat), RangesOk m →
      (∀ r ∈ m, r.2 ≤ p ∨ e ≤ r.1) →
      ∃ A B, m = A ++ B ∧ (∀ a ∈ A, a.2 ≤ p) ∧ (∀ b ∈ B, e ≤ b.1) := by
  intro m
  induction m with
  | nil =>
    intro _ _
    exact ⟨[], [], rfl, fun a ha => absurd ha (List.not_mem_nil a),
      fun b hb => absurd hb (List.not_mem_nil b)⟩
  | cons hd t ih =>
    intro hok hdisj
    obtain ⟨s, ee⟩ := hd
    obtain ⟨h1, h2, h3, h4⟩ := hok
    rcases hdisj (s, ee) (by simp) with hc | hc
    · have hc' : ee ≤ p := hc
      obtain ⟨A, B, hAB, hA, hB⟩ :=
        ih h4 (fun r hr => hdisj r (List.mem_cons_of_mem _ hr))
      refine ⟨(s, ee) :: A, B, by rw [hAB, List.cons_append], ?_, hB⟩
      intro a ha
      rcases List.mem_cons.mp ha with h' | h'
      · rw [h']
        exact hc'
      · exact hA a h'
    · have hc' : e ≤ s := hc
      refine ⟨[], (s, ee) :: t, rfl,
        fun a ha => absurd ha (List.not_mem_nil a), ?_⟩
      intro b hb
      rcases List.mem_cons.mp hb with h' | h'
      · rw [h']
        exact hc'
      · have := h3 b h'
        omega

theorem btInsert_middle {α : Type} (k : Nat) (v : α) (hk : k < H) :
    ∀ A B : List (Nat × α),
      (∀ a ∈ A, a.1 < k ∧ a.1 < H) →
      (∀ b ∈ B, k < b.1 ∧ b.1 < H) →
      btInsert k v (A ++ B) = A ++ (k, v) :: B := by
  intro A
  induction A with
  | nil =>
    intro B _ hB
    cases B with
    | nil => rfl
    | cons b t =>
      obtain ⟨bk, bv⟩ := b
      have hb1 : k < bk := (hB (bk, bv) (by simp)).1
      have hb2 : bk < H := (hB (bk, bv) (by simp)).2
      rw [List.nil_append, btInsert, if_pos ((seqLt_iff_lt hk hb2).mpr hb1)]
      rfl
  | cons a t ih =>
    intro B hA hB
    obtain ⟨ak, av⟩ := a
    have ha1 : ak < k := (hA (ak, av) (by simp)).1
    have ha2 : ak < H := (hA (ak, av) (by simp)).2
    have hHM : H < M := by unfold M H; omega
    have hlt : ¬(seqLt k ak = true) := by
      rw [seqLt_iff_lt hk ha2]
      omega
    have heq : ¬((k % M == ak % M) = true) := by
      simp only [beq_iff_eq]
      have e1 : k % M = k := Nat.mod_eq_of_lt (by omega)
      have e2 : ak % M = ak := Nat.mod_eq_of_lt (by omega)
      omega
    simp only [List.cons_append]
    rw [btInsert, if_neg hlt, if_neg heq,
      ih B (fun x hx => hA x (List.mem_cons_of_mem _ hx)) hB]

theorem btInsert_replace_mid {α : Type} (k : Nat) (v o : α) (hk : k < H) :
    ∀ A B : List (Nat × α),
      (∀ a ∈ A, a.1 < k ∧ a.1 < H) →
      btInsert k v (A ++ (k, o) :: B) = A ++ (k, v) :: B := by
  intro A
  induction A with
  | nil =>
    intro B _
    have hlt : ¬(seqLt k k = true) := by
      rw [seqLt_iff_lt hk hk]
      omega
    rw [List.nil_append, btInsert, if_neg hlt, if_pos (by simp)]
    rfl
  | cons a t ih =>
    intro B hA
    obtain ⟨ak, av⟩ := a
    have ha1 : ak < k := (hA (ak, av) (by simp)).1
    have ha2 : ak < H := (hA (ak, av) (by simp)).2
    have hHM : H < M := by unfold M H; omega
    have hlt : ¬(seqLt k ak = true) := by
      rw [seqLt_iff_lt hk ha2]
      omega
    have heq : ¬((k % M == ak % M) = true) := by
      simp only [beq_iff_eq]
      have e1 : k % M = k := Nat.mod_eq_of_lt (by omega)
      have e2 : ak % M = ak := Nat.mod_eq_of_lt (by omega)
      omega
    simp only [List.cons_append]
    rw [btInsert, if_neg hlt, if_neg heq,
      ih B (fun x hx => hA x (List.mem_cons_of_mem _ hx))]

theorem compress_good (Apre B : List (Nat × Nat)) (ms end_ : Nat)
    (hApre : RangesOk Apre) (hBok : RangesOk B)
    (hA : ∀ a ∈ Apre, a.1 < a.2 ∧ a.2 < ms)
    (hmsend : ms < end_) (hendH : end_ < H)
    (hB : ∀ b ∈ B, end_ ≤ b.1) :
    RangesOk (compress_range_map ms (Apre ++ (ms, end_) :: B)) ∧
    ∀ q, inRanges (compress_range_map ms (Apre ++ (ms, end_) :: B)) q ↔
      (inRanges Apre q ∨ (ms ≤ q ∧ q < end_) ∨ inRanges B q) := by
  have hmsH : ms < H := by omega
  have hallA : ∀ a ∈ Apre, (fun r : Nat × Nat => seqLt r.1 ms) a = true := by
    intro a ha
    obtain ⟨g1, g2⟩ := hA a ha
    exact (seqLt_iff_lt (by omega) hmsH).mpr (by omega)
  have hmsms : (fun r : Nat × Nat => seqLt r.1 ms) (ms, end_) = false :=
    (seqLt_false_iff hmsH hmsH).mpr (Nat.le_refl ms)
  have hpreT : (Apre ++ (ms, end_) :: B).takeWhile
      (fun r => seqLt r.1 ms) = Apre := by
    rw [takeWhile_append_all _ _ _ hallA,
      takeWhile_cons_false (fun r : Nat × Nat => seqLt r.1 ms) (ms, end_) B hmsms,
      List.append_nil]
  have hdropT : (Apre ++ (ms, end_) :: B).dropWhile
      (fun r => seqLt r.1 ms) = (ms, end_) :: B := by
    rw [dropWhile_append_all _ _ _ hallA,
      dropWhile_cons_false (fun r : Nat × Nat => seqLt r.1 ms) (ms, end_) B hmsms]
  have hcomp : compress_range_map ms (Apre ++ (ms, end_) :: B) =
      Apre ++ (ms, (compressGo end_ B).1) :: (compressGo end_ B).2 := by
    unfold compress_range_map
    rw [hpreT, hdropT]
  cases B with
  | nil =>
    have hcg : compressGo end_ ([] : List (Nat × Nat)) = (end_, []) := rfl
    rw [hcomp, hcg]
    constructor
    · rw [RangesOk_append]
      refine ⟨hApre, ⟨hmsend, hendH,
        fun r hr => absurd hr (List.not_mem_nil r), trivial⟩, ?_⟩
      intro x hx y hy
      obtain ⟨g1, g2⟩ := hA x hx
      rw [List.mem_singleton.mp hy]
      omega
    · intro q
      rw [inRanges_append, inRanges_cons]
  | cons b0 t =>
    obtain ⟨ss, se⟩ := b0
    have hss1 : end_ ≤ ss := hB (ss, se) (by simp)
    obtain ⟨hok1, hok2, hok3, hok4⟩ := hBok
    rcases Nat.eq_or_lt_of_le hss1 with heq | hlt
    · subst heq
      have hcg2 : compressGo se t = (se, t) := by
        cases t with
        | nil => rfl
        | cons b2 t2 =>
          obtain ⟨ss2, se2⟩ := b2
          have h32 : se < ss2 := hok3 (ss2, se2) (by simp)
          have hm1 : (ss2, se2).1 < (ss2, se2).2 :=
            (RangesOk_mem hok4 (ss2, se2) (by simp)).1
          have hm2 : (ss2, se2).2 < H :=
            (RangesOk_mem hok4 (ss2, se2) (by simp)).2
          have hm1' : ss2 < se2 := hm1
          have hm2' : se2 < H := hm2
          have hc : ¬(seqLe ss2 se = true) := by
            rw [seqLe_iff_le (by omega) hok2]
            omega
          rw [compressGo, if_neg hc]
      have hcg : compressGo end_ ((end_, se) :: t) = (se, t) := by
        have hc1 : seqLe end_ end_ = true :=
          (seqLe_iff_le hendH hendH).mpr (Nat.le_refl end_)
        have hc2 : seqLe end_ se = true :=
          (seqLe_iff_le hendH hok2).mpr (by omega)
        rw [compressGo, if_pos hc1, if_pos hc2, hcg2]
      rw [hcomp, hcg]
      constructor
      · rw [RangesOk_append]
        refine ⟨hApre, ⟨by omega, hok2, hok3, hok4⟩, ?_⟩
        intro x hx y hy
        obtain ⟨g1, g2⟩ := hA x hx
        rcases List.mem_cons.mp hy with h' | h'
        · rw [h']
          omega
        · have := hok3 y h'
          omega
      · intro q
        rw [inRanges_append, inRanges_cons, inRanges_cons]
        constructor
        · rintro (h | ⟨g1, g2⟩ | h)
          · exact Or.inl h
          · by_cases hq : q < end_
            · exact Or.inr (Or.inl ⟨g1, hq⟩)
            · exact Or.inr (Or.inr (Or.inl ⟨by omega, g2⟩))
          · exact Or.inr (Or.inr (Or.inr h))
        · rintro (h | ⟨g1, g2⟩ | ⟨g1, g2⟩ | h)
          · exact Or.inl h
          · exact Or.inr (Or.inl ⟨g1, by omega⟩)
          · exact Or.inr (Or.inl ⟨by omega, g2⟩)
          · exact Or.inr (Or.inr h)
    · have hssH : ss < H := by omega
      have hcg : compressGo end_ ((ss, se) :: t) = (end_, (ss, se) :: t) := by
        have hc : ¬(seqLe ss end_ = true) := by
          rw [seqLe_iff_le hssH hendH]
          omega
        rw [compressGo, if_neg hc]
      rw [hcomp, hcg]
      constructor
      · rw [RangesOk_append]
        refine ⟨hApre, ⟨hmsend, hendH, ?_, hok1, hok2, hok3, hok4⟩, ?_⟩
        · intro r hr
          rcases List.mem_cons.mp hr with h' | h'
          · rw [h']
            omega
          · have := hok3 r h'
            omega
        · intro x hx y hy
          obtain ⟨g1, g2⟩ := hA x hx
          rcases List.mem_cons.mp hy with h' | h'
          · rw [h']
            omega
          · rcases List.mem_cons.mp h' with h'' | h''
            · rw [h'']
              omega
            · have := hok3 y h''
              omega
      · intro q
        rw [inRanges_append, inRanges_cons]

theorem writeCopy_spec (data : List Nat) :
    ∀ (fuel : Nat) (blocks : List (Nat → Nat)) (off dof remain : Nat),
      remain ≤ fuel →
      off + remain ≤ RBUF_BLOCK_SIZE * blocks.length →
      off + remain < H →
      (∀ q, off ≤ q → q < off + remain →
        blockByteL (writeCopy 0 data fuel blocks off dof remain) q =
          data.getD (dof + (q - off)) 0) ∧
      (∀ q, q < off ∨ off + remain ≤ q →
        blockByteL (writeCopy 0 data fuel blocks off dof remain) q =
          blockByteL blocks q) := by
  intro fuel
  induction fuel with
  | zero =>
    intro blocks off dof remain hf _ _
    exact ⟨fun q hq1 hq2 => absurd hq2 (by omega), fun q _ => rfl⟩
  | succ fuel ih =>
    intro blocks off dof remain hf hbound hH
    by_cases h0 : remain = 0
    · subst h0
      have hred : writeCopy 0 data (fuel + 1) blocks off dof 0 = blocks := by
        rw [writeCopy, if_pos rfl]
      rw [hred]
      exact ⟨fun q hq1 hq2 => absurd hq2 (by omega), fun q _ => rfl⟩
    · have hM' : H < M := by unfold M H; omega
      have hBSv : RBUF_BLOCK_SIZE = 131072 := rfl
      have hrem1 : 1 ≤ remain := Nat.one_le_iff_ne_zero.mpr h0
      have hmodlt : off % RBUF_BLOCK_SIZE < RBUF_BLOCK_SIZE :=
        Nat.mod_lt _ (by rw [hBSv]; omega)
      have hwoff : wsub off 0 = off := wsub_zero_right (by omega)
      have hmodoc :
          (off + min remain (RBUF_BLOCK_SIZE - off % RBUF_BLOCK_SIZE)) % M =
          off + min remain (RBUF_BLOCK_SIZE - off % RBUF_BLOCK_SIZE) :=
        Nat.mod_eq_of_lt (by omega)
      have hstep : writeCopy 0 data (fuel + 1) blocks off dof remain =
          writeCopy 0 data fuel
            (blocks.set (wsub off 0 / RBUF_BLOCK_SIZE) (fun i =>
              if off % RBUF_BLOCK_SIZE ≤ i ∧
                  i < off % RBUF_BLOCK_SIZE +
                    min remain (RBUF_BLOCK_SIZE - off % RBUF_BLOCK_SIZE) then
                data.getD (dof + (i - off % RBUF_BLOCK_SIZE)) 0
              else blocks.getD (wsub off 0 / RBUF_BLOCK_SIZE) (fun _ => 0) i))
            ((off + min remain (RBUF_BLOCK_SIZE - off % RBUF_BLOCK_SIZE)) % M)
            (dof + min remain (RBUF_BLOCK_SIZE - off % RBUF_BLOCK_SIZE))
            (remain - min remain (RBUF_BLOCK_SIZE - off % RBUF_BLOCK_SIZE)) := by
        rw [writeCopy, if_neg h0]
      rw [hstep, hwoff, hmodoc]
      set cl := min remain (RBUF_BLOCK_SIZE - off % RBUF_BLOCK_SIZE) with hcld
      have hcl1 : 1 ≤ cl := by
        rw [hcld]
        omega
      have hcl2 : cl ≤ remain := by
        rw [hcld]
        omega
      have hcl3L : off % 131072 + cl ≤ 131072 := by
        have h1 : off % RBUF_BLOCK_SIZE + cl ≤ RBUF_BLOCK_SIZE := by
          rw [hcld]
          omega
        exact h1
      have hboundL : off + remain ≤ 131072 * blocks.length := hbound
      have hblkid : off / RBUF_BLOCK_SIZE < blocks.length := by
        have h1 : off / 131072 < blocks.length := by omega
        exact h1
      set fn := (fun i =>
        if off % RBUF_BLOCK_SIZE ≤ i ∧ i < off % RBUF_BLOCK_SIZE + cl then
          data.getD (dof + (i - off % RBUF_BLOCK_SIZE)) 0
        else blocks.getD (off / RBUF_BLOCK_SIZE) (fun _ => 0) i) with hfnd
      obtain ⟨ih1, ih2⟩ := ih (blocks.set (off / RBUF_BLOCK_SIZE) fn)
        (off + cl) (dof + cl) (remain - cl) (by omega)
        (by rw [List.length_set]; omega) (by omega)
      refine ⟨?_, ?_⟩
      · intro q hq1 hq2
        by_cases hqc : q < off + cl
        · rw [ih2 q (Or.inl hqc)]
          show (blocks.set (off / RBUF_BLOCK_SIZE) fn).getD
            (q / RBUF_BLOCK_SIZE) (fun _ => 0) (q % RBUF_BLOCK_SIZE) =
            data.getD (dof + (q - off)) 0
          have hdiv : q / RBUF_BLOCK_SIZE = off / RBUF_BLOCK_SIZE := by
            have h1 : q / 131072 = off / 131072 := by omega
            exact h1
          rw [hdiv, getD_set_self _ _ _ _ hblkid, hfnd]
          show (if off % RBUF_BLOCK_SIZE ≤ q % RBUF_BLOCK_SIZE ∧
              q % RBUF_BLOCK_SIZE < off % RBUF_BLOCK_SIZE + cl then
              data.getD (dof + (q % RBUF_BLOCK_SIZE - off % RBUF_BLOCK_SIZE)) 0
            else blocks.getD (off / RBUF_BLOCK_SIZE) (fun _ => 0)
              (q % RBUF_BLOCK_SIZE)) = data.getD (dof + (q - off)) 0
          have hcond : off % RBUF_BLOCK_SIZE ≤ q % RBUF_BLOCK_SIZE ∧
              q % RBUF_BLOCK_SIZE < off % RBUF_BLOCK_SIZE + cl := by
            have h1 : off % 131072 ≤ q % 131072 ∧
                q % 131072 < off % 131072 + cl := by omega
            exact h1
          rw [if_pos hcond]
          have hidx : dof + (q % RBUF_BLOCK_SIZE - off % RBUF_BLOCK_SIZE) =
              dof + (q - off) := by
            have h1 : dof + (q % 131072 - off % 131072) = dof + (q - off) := by
              omega
            exact h1
          rw [hidx]
        · have hidx : dof + cl + (q - (off + cl)) = dof + (q - off) := by
            omega
          rw [ih1 q (by omega) (by omega), hidx]
      · intro q hq
        have hq' : q < off + cl ∨ off + cl + (remain - cl) ≤ q := by omega
        rw [ih2 q hq']
        by_cases hdq : q / RBUF_BLOCK_SIZE = off / RBUF_BLOCK_SIZE
        · show (blocks.set (off / RBUF_BLOCK_SIZE) fn).getD
            (q / RBUF_BLOCK_SIZE) (fun _ => 0) (q % RBUF_BLOCK_SIZE) =
            blockByteL blocks q
          rw [hdq, getD_set_self _ _ _ _ hblkid, hfnd]
          show (if off % RBUF_BLOCK_SIZE ≤ q % RBUF_BLOCK_SIZE ∧
              q % RBUF_BLOCK_SIZE < off % RBUF_BLOCK_SIZE + cl then
              data.getD (dof + (q % RBUF_BLOCK_SIZE - off % RBUF_BLOCK_SIZE)) 0
            else blocks.getD (off / RBUF_BLOCK_SIZE) (fun _ => 0)
              (q % RBUF_BLOCK_SIZE)) = blockByteL blocks q
          have hcond : ¬(off % RBUF_BLOCK_SIZE ≤ q % RBUF_BLOCK_SIZE ∧
              q % RBUF_BLOCK_SIZE < off % RBUF_BLOCK_SIZE + cl) := by
            have hdqL : q / 131072 = off / 131072 := hdq
            have h1 : ¬(off % 131072 ≤ q % 131072 ∧
                q % 131072 < off % 131072 + cl) := by omega
            exact h1
          rw [if_neg hcond, ← hdq]
          rfl
        · show (blocks.set (off / RBUF_BLOCK_SIZE) fn).getD
            (q / RBUF_BLOCK_SIZE) (fun _ => 0) (q % RBUF_BLOCK_SIZE) =
            blockByteL blocks q
          rw [getD_set_ne _ _ _ _ _ (fun hc => hdq hc.symm)]
          rfl

theorem writeFinish_good (ws done : List (Nat × List Nat)) (N mb : Nat)
    (hmbH : RBUF_BLOCK_SIZE * mb < H) (hNw : N ≤ RBUF_BLOCK_SIZE * mb)
    (b : RecvBuffer) (hstart : b.start_pos = 0) (hmb : b.max_blocks = mb)
    (p : Nat) (d : List Nat) (ms : Nat) (Apre B2 : List (Nat × Nat))
    (hAok : RangesOk Apre) (hBok : RangesOk B2)
    (hA : ∀ a ∈ Apre, a.1 < a.2 ∧ a.2 < ms)
    (hms : ms ≤ p) (hlen : 0 < d.length) (hpd : p + d.length ≤ N)
    (hB : ∀ bb ∈ B2, p + d.length ≤ bb.1)
    (hcovL : ∀ q,
      (inRanges Apre q ∨ (ms ≤ q ∧ q < p + d.length) ∨ inRanges B2 q) ↔
      (covered done q ∨ (p ≤ q ∧ q < p + d.length)))
    (hbytes : ∀ q, covered done q → blockByteL b.blocks q = streamByte ws q)
    (hbyteNew : ∀ q, p ≤ q → q < p + d.length →
      d.getD (q - p) 0 = streamByte ws q)
    (hnotnew : ∀ q, covered done q → ¬(p ≤ q ∧ q < p + d.length)) :
    (b.writeFinish p (p + d.length) d ms (Apre ++ (ms, p + d.length) :: B2)).1
      = Except.ok () ∧
    RecvInv ws (done ++ [(p, d)])
      (b.writeFinish p (p + d.length) d ms
        (Apre ++ (ms, p + d.length) :: B2)).2 ∧
    (b.writeFinish p (p + d.length) d ms
      (Apre ++ (ms, p + d.length) :: B2)).2.max_blocks = mb := by
  have hHM : H < M := by unfold M H; omega
  have hBSv : RBUF_BLOCK_SIZE = 131072 := rfl
  have hNH : N < H := by omega
  obtain ⟨hcomp1, hcomp2⟩ := compress_good Apre B2 ms (p + d.length) hAok hBok
    hA (by omega) (by omega) hB
  -- the body of writeFinish, with start_pos = 0
  have hbs0 : wsub b.start_pos (b.start_pos % RBUF_BLOCK_SIZE) = 0 := by
    rw [hstart, Nat.zero_mod]
    exact wsub_self 0
  have hwend : wsub (p + d.length) 0 = p + d.length :=
    wsub_zero_right (by omega)
  rw [RecvBuffer.writeFinish]
  dsimp only
  rw [hbs0, hwend]
  set req := (p + d.length) / RBUF_BLOCK_SIZE +
    (if (p + d.length) % RBUF_BLOCK_SIZE = 0 then 0 else 1) with hreqd
  have hreqB : p + d.length ≤ RBUF_BLOCK_SIZE * req := by
    have h1 : p + d.length ≤ 131072 * ((p + d.length) / 131072 +
        (if (p + d.length) % 131072 = 0 then 0 else 1)) := by
      by_cases hz : (p + d.length) % 131072 = 0
      · rw [if_pos hz]
        omega
      · rw [if_neg hz]
        omega
    exact h1
  set blocks1 := if b.blocks.length < req
    then b.blocks ++ List.replicate (req - b.blocks.length) (fun _ => (0 : Nat))
    else b.blocks with hb1d
  have hb1len : req ≤ blocks1.length := by
    rw [hb1d]
    by_cases hc : b.blocks.length < req
    · rw [if_pos hc, List.length_append, List.length_replicate]
      omega
    · rw [if_neg hc]
      omega
  have hb1same : ∀ q, blockByteL blocks1 q = blockByteL b.blocks q := by
    intro q
    rw [hb1d]
    by_cases hc : b.blocks.length < req
    · rw [if_pos hc]
      unfold blockByteL
      rw [getD_append_replicate_self]
    · rw [if_neg hc]
  have hmul : RBUF_BLOCK_SIZE * req ≤ RBUF_BLOCK_SIZE * blocks1.length :=
    Nat.mul_le_mul_left _ hb1len
  obtain ⟨hw1, hw2⟩ := writeCopy_spec d d.length blocks1 p 0 d.length
    (Nat.le_refl _) (by omega) (by omega)
  refine ⟨rfl, ⟨hstart, hcomp1, ?_, ?_⟩, hmb⟩
  · intro q
    show inRanges (compress_range_map ms (Apre ++ (ms, p + d.length) :: B2)) q
      ↔ covered (done ++ [(p, d)]) q
    rw [hcomp2 q, hcovL q, covered_append, covered_single]
  · intro q hq
    show blockByteL (writeCopy 0 d d.length blocks1 p 0 d.length) q =
      streamByte ws q
    rw [covered_append, covered_single] at hq
    rcases hq with hq | hq
    · rw [hw2 q (by
        have := hnotnew q hq
        omega), hb1same q]
      exact hbytes q hq
    · have hq1 : p ≤ q := hq.1
      have hq2 : q < p + d.length := hq.2
      rw [hw1 q hq1 hq2]
      have h0 : 0 + (q - p) = q - p := Nat.zero_add _
      rw [h0]
      exact hbyteNew q hq1 hq2

theorem recv_write_step (ws : List (Nat × List Nat)) (N mb : Nat)
    (hmbH : RBUF_BLOCK_SIZE * mb < H) (hNw : N ≤ RBUF_BLOCK_SIZE * mb)
    (hdisj : List.Pairwise
      (fun a b => a.1 + a.2.length ≤ b.1 ∨ b.1 + b.2.length ≤ a.1) ws)
    (hbndall : ∀ x ∈ ws, x.1 + x.2.length ≤ N)
    (done : List (Nat × List Nat)) (w : Nat × List Nat)
    (rest : List (Nat × List Nat)) (hws : ws = done ++ w :: rest)
    (hne : 0 < w.2.length)
    (b : RecvBuffer) (hmb : b.max_blocks = mb) (hinv : RecvInv ws done b) :
    (b.write w.1 w.2).1 = Except.ok () ∧
    RecvInv ws (done ++ [w]) (b.write w.1 w.2).2 ∧
    (b.write w.1 w.2).2.max_blocks = mb := by
  obtain ⟨hstart, hok, hcov, hbytes⟩ := hinv
  obtain ⟨p, d⟩ := w
  have hne' : 0 < d.length := hne
  have hbnd' : p + d.length ≤ N := by
    have := hbndall (p, d)
      (by rw [hws]; exact List.mem_append_right _ (by simp))
    exact this
  have hHM : H < M := by unfold M H; omega
  have hNH : N < H := by omega
  have hdw : ∀ q, covered done q → ¬(p ≤ q ∧ q < p + d.length) := by
    intro q hq hpq
    obtain ⟨hpq1, hpq2⟩ := hpq
    obtain ⟨x, hx, hx1, hx2⟩ := hq
    have hrel := (List.pairwise_append.mp (hws ▸ hdisj)).2.2 x hx (p, d)
      (by simp)
    rcases hrel with hc | hc
    · have hc' : x.1 + x.2.length ≤ p := hc
      omega
    · have hc' : p + d.length ≤ x.1 := hc
      omega
  have hdisjr : ∀ r ∈ b.range_map, r.2 ≤ p ∨ p + d.length ≤ r.1 := by
    intro r hr
    by_contra hcon
    push_neg at hcon
    obtain ⟨hc1, hc2⟩ := hcon
    obtain ⟨hrr1, hrr2⟩ := RangesOk_mem hok r hr
    have hqin : inRanges b.range_map (max p r.1) := ⟨r, hr, by omega, by omega⟩
    have hqc := (hcov _).mp hqin
    exact hdw _ hqc ⟨by omega, by omega⟩
  have hrangeN : ∀ r ∈ b.range_map, r.2 ≤ N := by
    intro r hr
    obtain ⟨hrr1, hrr2⟩ := RangesOk_mem hok r hr
    by_contra hcon
    push_neg at hcon
    have hqin : inRanges b.range_map (r.2 - 1) := ⟨r, hr, by omega, by omega⟩
    obtain ⟨x, hx, hx1, hx2⟩ := (hcov _).mp hqin
    have := hbndall x (by rw [hws]; exact List.mem_append_left _ hx)
    omega
  obtain ⟨A, B, hAB, hA2, hB1⟩ :=
    split_disjoint p (p + d.length) b.range_map hok hdisjr
  obtain ⟨hokA, hokB, hcross⟩ := (RangesOk_append A B).mp (hAB ▸ hok)
  have hbyteNew : ∀ q, p ≤ q → q < p + d.length →
      d.getD (q - p) 0 = streamByte ws q := by
    intro q h1 h2
    exact (streamByte_eq ws hdisj (p, d)
      (by rw [hws]; exact List.mem_append_right _ (by simp)) q h1 h2).symm
  have hallA : ∀ a ∈ A, (fun r : Nat × Nat => seqLe r.1 p) a = true := by
    intro a ha
    have h1 := hA2 a ha
    obtain ⟨h2, h3⟩ := RangesOk_mem hokA a ha
    exact (seqLe_iff_le (by omega) (by omega)).mpr (by omega)
  have hbeforeT : (A ++ B).takeWhile (fun r => seqLe r.1 p) = A := by
    rw [takeWhile_append_all _ _ _ hallA]
    cases B with
    | nil => simp
    | cons b0 t =>
      obtain ⟨ss, se⟩ := b0
      have hss : p + d.length ≤ ss := hB1 (ss, se) (by simp)
      obtain ⟨hm1, hm2⟩ := RangesOk_mem hokB (ss, se) (by simp)
      have hfalse : (fun r : Nat × Nat => seqLe r.1 p) (ss, se) = false :=
        (seqLe_false_iff (by omega) (by omega)).mpr (by omega)
      rw [takeWhile_cons_false (fun r : Nat × Nat => seqLe r.1 p)
        (ss, se) t hfalse, List.append_nil]
  show (b.write p d).1 = Except.ok () ∧
    RecvInv ws (done ++ [(p, d)]) (b.write p d).2 ∧
    (b.write p d).2.max_blocks = mb
  have hend : (p + d.length) % M = p + d.length := Nat.mod_eq_of_lt (by omega)
  have hbm : RBUF_BLOCK_SIZE * b.max_blocks % M = RBUF_BLOCK_SIZE * mb := by
    rw [hmb]
    exact Nat.mod_eq_of_lt (by omega)
  rw [RecvBuffer.write]
  dsimp only
  rw [hend, hstart, Nat.zero_mod, hbm,
    wsub_zero_right (show RBUF_BLOCK_SIZE * mb < M by omega),
    wsub_zero_right (show p < M by omega),
    wsub_zero_right (show p + d.length < M by omega),
    if_neg (show ¬(d.length > RBUF_BLOCK_SIZE * mb) by omega),
    if_neg (show ¬(p > RBUF_BLOCK_SIZE * mb ∨
      p + d.length > RBUF_BLOCK_SIZE * mb) by omega),
    hAB, hbeforeT]
  rcases eq_or_ne A [] with hAnil | hAne
  · subst hAnil
    have hins : btInsert p (p + d.length) ([] ++ B) =
        [] ++ (p, p + d.length) :: B := by
      refine btInsert_middle p (p + d.length) (by omega) [] B
        (fun a ha => absurd ha (List.not_mem_nil a)) ?_
      intro bb hbb
      have h1 := hB1 bb hbb
      obtain ⟨h2, h3⟩ := RangesOk_mem hokB bb hbb
      exact ⟨by omega, by omega⟩
    rw [hins]
    have hcovL : ∀ q, (inRanges ([] : List (Nat × Nat)) q ∨
        (p ≤ q ∧ q < p + d.length) ∨ inRanges B q) ↔
        (covered done q ∨ (p ≤ q ∧ q < p + d.length)) := by
      intro q
      have hold := hcov q
      rw [hAB, inRanges_append] at hold
      constructor
      · rintro (h | h | h)
        · exact absurd h (inRanges_nil q)
        · exact Or.inr h
        · exact Or.inl (hold.mp (Or.inr h))
      · rintro (h | h)
        · rcases hold.mpr h with h' | h'
          · exact absurd h' (inRanges_nil q)
          · exact Or.inr (Or.inr h')
        · exact Or.inr (Or.inl h)
    exact writeFinish_good ws done N mb hmbH hNw b hstart hmb p d p [] B
      trivial hokB (fun a ha => absurd ha (List.not_mem_nil a))
      (Nat.le_refl p) hne' hbnd' hB1 hcovL hbytes hbyteNew hdw
  · obtain ⟨A', al, hAdec⟩ := exists_last_decomp A hAne
    obtain ⟨ls, le⟩ := al
    have hAl : A.getLast? = some (ls, le) := by
      rw [hAdec]
      exact List.getLast?_concat _
    rw [hAl]
    dsimp only
    have hlsmem : (ls, le) ∈ A := by
      rw [hAdec]
      exact List.mem_append_right _ (by simp)
    have hlsle : ls < le := (RangesOk_mem hokA _ hlsmem).1
    have hleH : le < H := (RangesOk_mem hokA _ hlsmem).2
    have hlep : le ≤ p := hA2 _ hlsmem
    obtain ⟨hokA', hoklast, hcrossA'⟩ :=
      (RangesOk_append A' [(ls, le)]).mp (hAdec ▸ hokA)
    have hA'lt : ∀ a ∈ A', a.1 < a.2 ∧ a.2 < ls := by
      intro a ha
      have h1 := hcrossA' a ha (ls, le) (by simp)
      exact ⟨(RangesOk_mem hokA' a ha).1, h1⟩
    by_cases hle : le = p
    · have hc1 : seqLe p le = true := (seqLe_iff_le (by omega) hleH).mpr
        (by omega)
      rw [if_pos hc1]
      have hc2 : ¬(seqLe (p + d.length) le = true) := by
        rw [seqLe_iff_le (by omega) hleH]
        omega
      rw [if_neg hc2]
      have hAlist : A ++ B = A' ++ (ls, le) :: B := by
        rw [hAdec, List.append_assoc]
        rfl
      rw [hAlist]
      have hins : btInsert ls (p + d.length) (A' ++ (ls, le) :: B) =
          A' ++ (ls, p + d.length) :: B := by
        refine btInsert_replace_mid ls (p + d.length) le (by omega) A' B ?_
        intro a ha
        obtain ⟨g1, g2⟩ := hA'lt a ha
        exact ⟨by omega, by omega⟩
      rw [hins]
      have hcovL : ∀ q, (inRanges A' q ∨ (ls ≤ q ∧ q < p + d.length) ∨
          inRanges B q) ↔
          (covered done q ∨ (p ≤ q ∧ q < p + d.length)) := by
        intro q
        have hold := hcov q
        rw [hAB, hAlist, inRanges_append, inRanges_cons] at hold
        constructor
        · rintro (h | ⟨g1, g2⟩ | h)
          · exact Or.inl (hold.mp (Or.inl h))
          · by_cases hq : q < le
            · exact Or.inl (hold.mp (Or.inr (Or.inl ⟨g1, hq⟩)))
            · exact Or.inr ⟨by omega, g2⟩
          · exact Or.inl (hold.mp (Or.inr (Or.inr h)))
        · rintro (h | ⟨g1, g2⟩)
          · rcases hold.mpr h with h' | ⟨g1, g2⟩ | h'
            · exact Or.inl h'
            · exact Or.inr (Or.inl ⟨g1, by omega⟩)
            · exact Or.inr (Or.inr h')
          · exact Or.inr (Or.inl ⟨by omega, g2⟩)
      exact writeFinish_good ws done N mb hmbH hNw b hstart hmb p d ls A' B
        hokA' hokB hA'lt (by omega) hne' hbnd' hB1 hcovL hbytes hbyteNew hdw
    · have hc1 : ¬(seqLe p le = true) := by
        rw [seqLe_iff_le (by omega) hleH]
        omega
      rw [if_neg hc1]
      have hAendlt : ∀ a ∈ A, a.2 < p := by
        intro a ha
        rw [hAdec] at ha
        rcases List.mem_append.mp ha with h' | h'
        · have := hA'lt a h'
          omega
        · rw [List.mem_singleton.mp h']
          show le < p
          omega
      have hins : btInsert p (p + d.length) (A ++ B) =
          A ++ (p, p + d.length) :: B := by
        refine btInsert_middle p (p + d.length) (by omega) A B ?_ ?_
        · intro a ha
          obtain ⟨g1, g2⟩ := RangesOk_mem hokA a ha
          have g3 := hA2 a ha
          exact ⟨by omega, by omega⟩
        · intro bb hbb
          have h1 := hB1 bb hbb
          obtain ⟨h2, h3⟩ := RangesOk_mem hokB bb hbb
          exact ⟨by omega, by omega⟩
      rw [hins]
      have hcovL : ∀ q, (inRanges A q ∨ (p ≤ q ∧ q < p + d.length) ∨
          inRanges B q) ↔
          (covered done q ∨ (p ≤ q ∧ q < p + d.length)) := by
        intro q
        have hold := hcov q
        rw [hAB, inRanges_append] at hold
        constructor
        · rintro (h | h | h)
          · exact Or.inl (hold.mp (Or.inl h))
          · exact Or.inr h
          · exact Or.inl (hold.mp (Or.inr h))
        · rintro (h | h)
          · rcases hold.mpr h with h' | h'
            · exact Or.inl h'
            · exact Or.inr (Or.inr h')
          · exact Or.inr (Or.inl h)
      exact writeFinish_good ws done N mb hmbH hNw b hstart hmb p d p A B
        hokA hokB (fun a ha => ⟨(RangesOk_mem hokA a ha).1, hAendlt a ha⟩)
        (Nat.le_refl p) hne' hbnd' hB1 hcovL hbytes hbyteNew hdw

theorem consumeLoop_zero (fuel s : Nat) (blocks : List (Nat → Nat)) :
    consumeLoop fuel s blocks 0 = (s, blocks) := by
  cases fuel with
  | zero => rfl
  | succ f => rw [consumeLoop, if_pos rfl]

theorem consumeLoop_one (fuel s ps : Nat) (blocks : List (Nat → Nat))
    (h1 : 0 < ps) (hfuel : ps ≤ fuel) (hsH : s + ps < H)
    (hle : ps ≤ RBUF_BLOCK_SIZE - s % RBUF_BLOCK_SIZE) :
    consumeLoop fuel s blocks ps =
      ((s + ps) % M,
        if RBUF_BLOCK_SIZE - s % RBUF_BLOCK_SIZE = ps then blocks.tail
        else blocks) := by
  cases fuel with
  | zero => omega
  | succ f =>
    rw [consumeLoop, if_neg (by omega)]
    dsimp only
    by_cases heq : RBUF_BLOCK_SIZE - s % RBUF_BLOCK_SIZE = ps
    · rw [if_pos (show ps ≥ RBUF_BLOCK_SIZE - s % RBUF_BLOCK_SIZE by omega),
        show ps - (RBUF_BLOCK_SIZE - s % RBUF_BLOCK_SIZE) = 0 by omega,
        consumeLoop_zero, if_pos heq, heq]
    · rw [if_neg (show ¬(ps ≥ RBUF_BLOCK_SIZE - s % RBUF_BLOCK_SIZE) by omega),
        if_neg heq]

theorem drain_spec (N : Nat) (hN : N < H) (stream : Nat → Nat) (mbv : Nat) :
    ∀ (fuel s : Nat) (blocks : List (Nat → Nat)),
      s ≤ N → N - s ≤ fuel →
      (∀ pp, s ≤ pp → pp < N →
        blockByteL blocks (pp - RBUF_BLOCK_SIZE * (s / RBUF_BLOCK_SIZE)) =
          stream pp) →
      drainAll fuel (RecvBuffer.mk s mbv
          (if s < N then [(s, N)] else []) blocks) =
        (List.range (N - s)).map (fun i => stream (s + i)) := by
  have hHM : H < M := by unfold M H; omega
  have hBSv : RBUF_BLOCK_SIZE = 131072 := rfl
  intro fuel
  induction fuel with
  | zero =>
    intro s blocks hsN hfuel hbl
    rw [show N - s = 0 by omega]
    rfl
  | succ fuel ih =>
    intro s blocks hsN hfuel hbl
    by_cases hsN' : s < N
    · have hmodlt : s % RBUF_BLOCK_SIZE < RBUF_BLOCK_SIZE :=
        Nat.mod_lt _ (by rw [hBSv]; omega)
      have hrsv : RecvBuffer.readable_size (RecvBuffer.mk s mbv
          (if s < N then [(s, N)] else []) blocks) = N - s := by
        rw [RecvBuffer.readable_size]
        dsimp only
        rw [if_pos hsN']
        show (if s = s then wsub N s else 0) = N - s
        rw [if_pos rfl]
        have hNL : N < 2147483648 := hN
        unfold wsub M
        omega
      set ps := min (N - s) (RBUF_BLOCK_SIZE - s % RBUF_BLOCK_SIZE) with hpsd
      have hps1 : 1 ≤ ps := by
        rw [hpsd]
        omega
      have hps2 : ps ≤ RBUF_BLOCK_SIZE - s % RBUF_BLOCK_SIZE := by
        rw [hpsd]
        omega
      have hps3 : ps ≤ N - s := by
        rw [hpsd]
        omega
      have hpeek : RecvBuffer.peek (RecvBuffer.mk s mbv
          (if s < N then [(s, N)] else []) blocks) =
          some ((List.range ps).map
            (fun i => blocks.getD 0 (fun _ => 0) (s % RBUF_BLOCK_SIZE + i))) := by
        rw [RecvBuffer.peek]
        dsimp only
        rw [hrsv, if_pos (by omega)]
      have hbyteseq : (List.range ps).map
          (fun i => blocks.getD 0 (fun _ => 0) (s % RBUF_BLOCK_SIZE + i)) =
          (List.range ps).map (fun i => stream (s + i)) := by
        apply List.map_congr_left
        intro i hi
        have hiR : i < ps := List.mem_range.mp hi
        have hq : s % RBUF_BLOCK_SIZE + i =
            (s + i) - RBUF_BLOCK_SIZE * (s / RBUF_BLOCK_SIZE) := by
          have h1 : s % 131072 + i = (s + i) - 131072 * (s / 131072) := by
            omega
          exact h1
        have hps2L : ps ≤ 131072 - s % 131072 := hps2
        have hdiv0 : (s % RBUF_BLOCK_SIZE + i) / RBUF_BLOCK_SIZE = 0 := by
          have h1 : (s % 131072 + i) / 131072 = 0 := by omega
          exact h1
        have hmod0 : (s % RBUF_BLOCK_SIZE + i) % RBUF_BLOCK_SIZE =
            s % RBUF_BLOCK_SIZE + i := by
          have h1 : (s % 131072 + i) % 131072 = s % 131072 + i := by omega
          exact h1
        have hb := hbl (s + i) (by omega) (by omega)
        rw [← hb, ← hq]
        show blocks.getD 0 (fun _ => 0) (s % RBUF_BLOCK_SIZE + i) =
          blocks.getD ((s % RBUF_BLOCK_SIZE + i) / RBUF_BLOCK_SIZE)
            (fun _ => 0) ((s % RBUF_BLOCK_SIZE + i) % RBUF_BLOCK_SIZE)
        rw [hdiv0, hmod0]
      have hcons2 : ((RecvBuffer.mk s mbv (if s < N then [(s, N)] else [])
            blocks).consume ps).2 =
          RecvBuffer.mk (s + ps) mbv
            (if s + ps < N then [(s + ps, N)] else [])
            (if RBUF_BLOCK_SIZE - s % RBUF_BLOCK_SIZE = ps then blocks.tail
              else blocks) := by
        rw [RecvBuffer.consume]
        rw [if_neg (show ¬(ps = 0) by omega)]
        rw [hrsv, if_neg (show ¬(N - s < ps) by omega)]
        dsimp only
        rw [if_pos hsN', List.head?_cons]
        dsimp only
        rw [consumeLoop_one ps s ps blocks (by omega) (Nat.le_refl ps)
          (by omega) hps2]
        rw [show ([(s, N)] : List (Nat × Nat)).filter
          (fun r => r.1 != s) = [] by simp]
        rw [show (s + ps) % M = s + ps from Nat.mod_eq_of_lt (by omega)]
        by_cases hfin : s + ps = N
        · rw [if_neg (show ¬(s + ps ≠ N) by omega),
            if_neg (show ¬(s + ps < N) by omega)]
        · rw [if_pos (show s + ps ≠ N from hfin),
            if_pos (show s + ps < N by omega)]
          rfl
      have hshift : ∀ q', blockByteL blocks.tail q' =
          blockByteL blocks (q' + RBUF_BLOCK_SIZE) := by
        intro q'
        show blocks.tail.getD (q' / RBUF_BLOCK_SIZE) (fun _ => 0)
            (q' % RBUF_BLOCK_SIZE) =
          blocks.getD ((q' + RBUF_BLOCK_SIZE) / RBUF_BLOCK_SIZE) (fun _ => 0)
            ((q' + RBUF_BLOCK_SIZE) % RBUF_BLOCK_SIZE)
        rw [getD_tail]
        have h1 : (q' + RBUF_BLOCK_SIZE) / RBUF_BLOCK_SIZE =
            q' / RBUF_BLOCK_SIZE + 1 := by
          have h2 : (q' + 131072) / 131072 = q' / 131072 + 1 := by omega
          exact h2
        have h2 : (q' + RBUF_BLOCK_SIZE) % RBUF_BLOCK_SIZE =
            q' % RBUF_BLOCK_SIZE := by
          have h3 : (q' + 131072) % 131072 = q' % 131072 := by omega
          exact h3
        rw [h1, h2]
      have hblocks2 : ∀ pp, s + ps ≤ pp → pp < N →
          blockByteL (if RBUF_BLOCK_SIZE - s % RBUF_BLOCK_SIZE = ps
              then blocks.tail else blocks)
            (pp - RBUF_BLOCK_SIZE * ((s + ps) / RBUF_BLOCK_SIZE)) =
          stream pp := by
        intro pp hpp1 hpp2
        by_cases hpop : RBUF_BLOCK_SIZE - s % RBUF_BLOCK_SIZE = ps
        · rw [if_pos hpop, hshift]
          have hpopL : 131072 - s % 131072 = ps := hpop
          have hdiv : (s + ps) / RBUF_BLOCK_SIZE = s / RBUF_BLOCK_SIZE + 1 := by
            have h1 : (s + ps) / 131072 = s / 131072 + 1 := by omega
            exact h1
          have hidx : pp - RBUF_BLOCK_SIZE * ((s + ps) / RBUF_BLOCK_SIZE) +
              RBUF_BLOCK_SIZE = pp - RBUF_BLOCK_SIZE * (s / RBUF_BLOCK_SIZE) := by
            have h1 : pp - 131072 * ((s + ps) / 131072) + 131072 =
                pp - 131072 * (s / 131072) := by omega
            exact h1
          rw [hidx]
          exact hbl pp (by omega) hpp2
        · rw [if_neg hpop]
          have hpopL : ¬(131072 - s % 131072 = ps) := hpop
          have hps2L : ps ≤ 131072 - s % 131072 := hps2
          have hdiv : (s + ps) / RBUF_BLOCK_SIZE = s / RBUF_BLOCK_SIZE := by
            have h1 : (s + ps) / 131072 = s / 131072 := by omega
            exact h1
          rw [hdiv]
          exact hbl pp (by omega) hpp2
      have hsplitR : (List.range (N - s)).map (fun i => stream (s + i)) =
          (List.range ps).map (fun i => stream (s + i)) ++
          (List.range (N - (s + ps))).map (fun i => stream (s + ps + i)) := by
        rw [show N - s = ps + (N - (s + ps)) by omega, List.range_add,
          List.map_append, List.map_map]
        congr 1
        apply List.map_congr_left
        intro i _
        show stream (s + (ps + i)) = stream (s + ps + i)
        rw [Nat.add_assoc]
      rw [drainAll, hpeek]
      dsimp only
      have hlen : ((List.range ps).map
          (fun i => blocks.getD 0 (fun _ => 0)
            (s % RBUF_BLOCK_SIZE + i))).length = ps := by
        rw [List.length_map, List.length_range]
      rw [hlen, hcons2, hbyteseq, hsplitR,
        ih (s + ps) _ (by omega) (by omega) hblocks2]
    · rw [drainAll]
      have hrs0 : RecvBuffer.readable_size (RecvBuffer.mk s mbv
          (if s < N then [(s, N)] else []) blocks) = 0 := by
        rw [RecvBuffer.readable_size]
        dsimp only
        rw [if_neg hsN']
        rfl
      have hpeek : RecvBuffer.peek (RecvBuffer.mk s mbv
          (if s < N then [(s, N)] else []) blocks) = none := by
        rw [RecvBuffer.peek]
        dsimp only
        rw [hrs0, if_neg (by omega)]
      rw [hpeek, show N - s = 0 by omega]
      rfl

theorem recv_writes_aux (ws : List (Nat × List Nat)) (N mb : Nat)
    (hmbH : RBUF_BLOCK_SIZE * mb < H) (hNw : N ≤ RBUF_BLOCK_SIZE * mb)
    (hdisj : List.Pairwise
      (fun a b => a.1 + a.2.length ≤ b.1 ∨ b.1 + b.2.length ≤ a.1) ws)
    (hbndall : ∀ x ∈ ws, x.1 + x.2.length ≤ N)
    (hneall : ∀ x ∈ ws, 0 < x.2.length) :
    ∀ rest done : List (Nat × List Nat), ws = done ++ rest →
      ∀ b : RecvBuffer, b.max_blocks = mb → RecvInv ws done b →
        writesOk b rest ∧ RecvInv ws (done ++ rest) (writesAll b rest) ∧
        (writesAll b rest).max_blocks = mb := by
  intro rest
  induction rest with
  | nil =>
    intro done hws b hmb hinv
    refine ⟨trivial, ?_, hmb⟩
    rw [List.append_nil]
    exact hinv
  | cons w t ih =>
    intro done hws b hmb hinv
    obtain ⟨hok1, hinv2, hmb2⟩ := recv_write_step ws N mb hmbH hNw hdisj
      hbndall done w t hws
      (hneall w (by rw [hws]; exact List.mem_append_right _ (by simp)))
      b hmb hinv
    obtain ⟨g1, g2, g3⟩ := ih (done ++ [w])
      (by rw [hws, List.append_assoc]; rfl) (b.write w.1 w.2).2 hmb2 hinv2
    refine ⟨⟨hok1, g1⟩, ?_, g3⟩
    rw [show done ++ w :: t = (done ++ [w]) ++ t by
      rw [List.append_assoc, List.singleton_append]]
    exact g2

theorem final_map (N : Nat) (m : List (Nat × Nat)) (hok : RangesOk m)
    (hcov : ∀ q, inRanges m q ↔ q < N) :
    m = if 0 < N then [(0, N)] else [] := by
  cases m with
  | nil =>
    by_cases hN : 0 < N
    · exact absurd ((hcov 0).mpr hN) (inRanges_nil 0)
    · rw [if_neg hN]
  | cons r t =>
    obtain ⟨s, e⟩ := r
    obtain ⟨h1, h2, h3, h4⟩ := hok
    have hs0 : s = 0 := by
      by_contra hs
      have hsin : inRanges ((s, e) :: t) s :=
        (inRanges_cons s e t s).mpr (Or.inl ⟨Nat.le_refl s, h1⟩)
      have h0N : 0 < N := by
        have := (hcov s).mp hsin
        omega
      obtain ⟨r2, hr2, hr21, hr22⟩ := (hcov 0).mpr h0N
      rcases List.mem_cons.mp hr2 with h' | h'
      · subst h'
        have hr21' : s ≤ 0 := hr21
        omega
      · have := h3 r2 h'
        omega
    subst hs0
    have heN : e = N := by
      have h5 : ∀ q, q < e → q < N := fun q hq =>
        (hcov q).mp ((inRanges_cons 0 e t q).mpr (Or.inl ⟨by omega, hq⟩))
      have h6 : ¬(e < N) := by
        intro hcon
        obtain ⟨r2, hr2, hr21, hr22⟩ := (hcov e).mpr hcon
        rcases List.mem_cons.mp hr2 with h' | h'
        · subst h'
          have hr22' : e < e := hr22
          omega
        · have := h3 r2 h'
          omega
      have := h5 (e - 1) (by omega)
      omega
    rw [← heN]
    cases t with
    | nil => rw [if_pos (by omega)]
    | cons r2 t2 =>
      obtain ⟨s2, e2⟩ := r2
      exfalso
      have hs2 : e < s2 := h3 (s2, e2) (by simp)
      obtain ⟨h21, h22, _, _⟩ := h4
      have hin : inRanges ((0, e) :: (s2, e2) :: t2) s2 :=
        (inRanges_cons 0 e _ s2).mpr (Or.inr
          ((inRanges_cons s2 e2 t2 s2).mpr (Or.inl ⟨Nat.le_refl s2, h21⟩)))
      have := (hcov s2).mp hin
      omega

/-- C3: from a fresh receive buffer (capacity small enough that the u32
window arithmetic stays inside the `[0, 2^31)` comparison half-window),
any collection of pairwise-disjoint nonempty writes that together cover
exactly `[0, N)`, applied in any order, is accepted in full, and repeated
`peek` + `consume(peek.len())` afterwards returns precisely the written
byte stream `[0, N)` in sequence order, byte for byte. -/
theorem c3_recv_write_consume_roundtrip (cap N : Nat)
    (ws : List (Nat × List Nat))
    (hmbH : RBUF_BLOCK_SIZE * (RecvBuffer.withCapacity cap).max_blocks < H)
    (hNw : N ≤ RBUF_BLOCK_SIZE * (RecvBuffer.withCapacity cap).max_blocks)
    (hne : ∀ x ∈ ws, 0 < x.2.length)
    (hbnd : ∀ x ∈ ws, x.1 + x.2.length ≤ N)
    (hdisj : List.Pairwise
      (fun a b => a.1 + a.2.length ≤ b.1 ∨ b.1 + b.2.length ≤ a.1) ws)
    (hcov : ∀ p < N, covered ws p) :
    writesOk (RecvBuffer.withCapacity cap) ws ∧
    drainAll N (writesAll (RecvBuffer.withCapacity cap) ws) =
      (List.range N).map (streamByte ws) := by
  have hN : N < H := by omega
  have hinv0 : RecvInv ws [] (RecvBuffer.withCapacity cap) :=
    ⟨rfl, trivial,
      fun q => ⟨fun h => absurd h (inRanges_nil q),
        fun h => absurd h (covered_nil q)⟩,
      fun q h => absurd h (covered_nil q)⟩
  obtain ⟨hok, hinvF, hmbF⟩ := recv_writes_aux ws N
    (RecvBuffer.withCapacity cap).max_blocks hmbH hNw hdisj hbnd hne ws []
    (by rw [List.nil_append]) (RecvBuffer.withCapacity cap) rfl hinv0
  refine ⟨hok, ?_⟩
  obtain ⟨hstartF, hokF, hcovF, hbytesF⟩ := hinvF
  have hcovN : ∀ q,
      inRanges (writesAll (RecvBuffer.withCapacity cap) ws).range_map q ↔
      q < N := by
    intro q
    constructor
    · intro h
      obtain ⟨x, hx, h1, h2⟩ := (hcovF q).mp h
      have := hbnd x hx
      omega
    · intro h
      exact (hcovF q).mpr (hcov q h)
  have hmapF := final_map N _ hokF hcovN
  rcases hb' : writesAll (RecvBuffer.withCapacity cap) ws with
    ⟨s0, mb0, m0, bl0⟩
  rw [hb'] at hstartF hmapF hbytesF
  have hs0 : s0 = 0 := hstartF
  subst hs0
  have hm0 : m0 = if 0 < N then [(0, N)] else [] := hmapF
  subst hm0
  have hblS : ∀ pp, 0 ≤ pp → pp < N →
      blockByteL bl0 (pp - RBUF_BLOCK_SIZE * (0 / RBUF_BLOCK_SIZE)) =
      streamByte ws pp := by
    intro pp _ hpN
    show blockByteL bl0 pp = streamByte ws pp
    exact hbytesF pp (hcov pp hpN)
  have hdr := drain_spec N hN (streamByte ws) mb0 N 0 bl0 (Nat.zero_le N)
    (by omega) hblS
  calc drainAll N (RecvBuffer.mk 0 mb0 (if 0 < N then [(0, N)] else []) bl0)
      = (List.range (N - 0)).map (fun i => streamByte ws (0 + i)) := hdr
    _ = (List.range N).map (streamByte ws) := by
      rw [Nat.sub_zero]
      apply List.map_congr_left
      intro i _
      rw [Nat.zero_add]

/-- Witness for C3: capacity 1 byte (one block), writes `[2,4)` then
`[0,2)` covering `[0,4)` out of order. -/
theorem c3_recv_write_consume_roundtrip_witness :
    (RBUF_BLOCK_SIZE * (RecvBuffer.withCapacity 1).max_blocks < H ∧
     4 ≤ RBUF_BLOCK_SIZE * (RecvBuffer.withCapacity 1).max_blocks ∧
     (∀ x ∈ [(2, [30, 40]), (0, [10, 20])], 0 < x.2.length) ∧
     (∀ x ∈ [(2, [30, 40]), (0, [10, 20])], x.1 + x.2.length ≤ 4) ∧
     List.Pairwise
       (fun a b => a.1 + a.2.length ≤ b.1 ∨ b.1 + b.2.length ≤ a.1)
       [(2, [30, 40]), (0, [10, 20])] ∧
     (∀ p < 4, covered [(2, [30, 40]), (0, [10, 20])] p)) ∧
    (writesOk (RecvBuffer.withCapacity 1) [(2, [30, 40]), (0, [10, 20])] ∧
     drainAll 4 (writesAll (RecvBuffer.withCapacity 1)
         [(2, [30, 40]), (0, [10, 20])]) =
       (List.range 4).map (streamByte [(2, [30, 40]), (0, [10, 20])])) :=
  ⟨⟨by decide, by decide, by decide, by decide, by decide, by decide⟩,
    c3_recv_write_consume_roundtrip 1 4 [(2, [30, 40]), (0, [10, 20])]
      (by decide) (by decide) (by decide) (by decide) (by decide) (by decide)⟩

/-- Antipodal pair: each member compares strictly below the other. -/
theorem seqLt_antipode (a : Nat) (ha : a < M) :
    seqLt a ((a + H) % M) = true ∧ seqLt ((a + H) % M) a = true := by
  unfold seqLt wsub M H at *
  have haM : a % 4294967296 = a := Nat.mod_eq_of_lt ha
  have hb : (a + 2147483648) % 4294967296 < 4294967296 := Nat.mod_lt _ (by omega)
  have hbM : (a + 2147483648) % 4294967296 % 4294967296 = (a + 2147483648) % 4294967296 :=
    Nat.mod_eq_of_lt hb
  constructor
  · simp only [haM, hbM, Bool.and_eq_true, bne_iff_ne, ne_eq, decide_eq_true_eq]
    constructor
    · omega
    · -- wsub a (a + 2^31) = 2^31
      have : (a + (4294967296 - (a + 2147483648) % 4294967296)) % 4294967296 = 2147483648 := by
        omega
      omega
  · simp only [haM, hbM, Bool.and_eq_true, bne_iff_ne, ne_eq, decide_eq_true_eq]
    constructor
    · omega
    · have : ((a + 2147483648) % 4294967296 + (4294967296 - a)) % 4294967296 = 2147483648 := by
        omega
      omega

/-- C10: for every pair of `Seq32` values exactly `2^31` apart the
comparison reports `a < b` and simultaneously `b < a`, so the `Seq32`
ordering is not a strict total order (antisymmetry fails at the
antipode); on values confined to a half-window ahead of a common base
(window strictly smaller than `2^31`) the order is asymmetric and agrees
with the order of offsets, i.e. it behaves as a total order there. -/
theorem c10_seq32_antipodal_order (a : Nat) (ha : a < M) :
    (seqLt a ((a + H) % M) = true ∧ seqLt ((a + H) % M) a = true) ∧
    (∀ B x y : Nat, x < M → y < M → wsub x B < H → wsub y B < H →
      ¬(seqLt x y = true ∧ seqLt y x = true)) := by
  refine ⟨seqLt_antipode a ha, ?_⟩
  intro B x y hx hy hxB hyB ⟨h1, h2⟩
  have e1 := (seqLt_iff_ofs hx hy hxB hyB).mp h1
  have e2 := (seqLt_iff_ofs hy hx hyB hxB).mp h2
  omega

/-- Witness for C10 at `a = 5`: `5 < 2^31 + 5` and `2^31 + 5 < 5`
simultaneously in the `Seq32` order. -/
theorem c10_seq32_antipodal_order_witness :
    (seqLt 5 ((5 + H) % M) = true ∧ seqLt ((5 + H) % M) 5 = true) ∧
    (∀ B x y : Nat, x < M → y < M → wsub x B < H → wsub y B < H →
      ¬(seqLt x y = true ∧ seqLt y x = true)) :=
  c10_seq32_antipodal_order 5 (by decide)

end LiteDT
